import Mathlib

/-!
Verification of the Pura persistent-collection core against its specification.

The development shallowly embeds the TypeScript sources:

* packages/core/src/internal/hamt.ts — the HAMT (hash array mapped trie) and the
  pura / produce proxy layer that is concatenated into the same file;
* the order-index module (orderDelete, orderCompact, orderIter, ...) whose full
  source appears in OPTIMIZATION_ANALYSIS.md;
* packages/core/src/internal/nested-proxy.ts — the copy-on-write object drafts.

JavaScript 32-bit integer arithmetic is modelled in the unsigned domain: every
helper keeps its result below 2^32, which agrees with the source because the
hash mixers never use arithmetic right shift, division or sign-sensitive
comparison on intermediate values, and each hash function ends in a zero-fill
shift that reinterprets the word as unsigned.

The vector module (vec.ts) and utils.ts are not part of the sources available
under src/; where an operation of theirs is needed it is modelled from the
specification, with a doc comment saying so.
-/

/-- Word size of the JavaScript bitwise domain: 2^32. -/
def pow32 : Nat := 2 ^ 32

/-- Unsigned 32-bit addition, the JS (a + b) followed by truncation to a word. -/
def add32 (a b : Nat) : Nat := (a + b) % pow32

/-- Unsigned 32-bit multiplication; agrees with Math.imul modulo 2^32. -/
def mul32 (a b : Nat) : Nat := (a * b) % pow32

/-- Zero-fill right shift a >>> k for a already below 2^32 (JS reduces the
shift count modulo 32). -/
def shr32 (a k : Nat) : Nat := a >>> (k % 32)

/-- Left shift (a << k) truncated to 32 bits. -/
def shl32 (a k : Nat) : Nat := (a <<< (k % 32)) % pow32

/-- The splitmix32 finalizer mix32 from hamt.ts, in the unsigned domain. -/
def mix32 (z0 : Nat) : Nat :=
  let z1 := add32 z0 0x9e3779b9
  let z2 := z1 ^^^ shr32 z1 16
  let z3 := mul32 z2 0x85ebca6b
  let z4 := z3 ^^^ shr32 z3 13
  let z5 := mul32 z4 0xc2b2ae35
  z5 ^^^ shr32 z5 16

/-- One 32-bit rotation-and-multiply round of murmur3 applied to the block k
(source lines: k = imul(k, 0xcc9e2d51); k = (k << 15) | (k >>> 17);
k = imul(k, 0x1b873593)). -/
def murmurScrambleK (k0 : Nat) : Nat :=
  let k1 := mul32 k0 0xcc9e2d51
  let k2 := shl32 k1 15 ||| shr32 k1 17
  mul32 k2 0x1b873593

/-- Folding one full 4-code-unit block of murmur3 into the state h. -/
def murmurFoldH (h k0 : Nat) : Nat :=
  let h1 := h ^^^ murmurScrambleK k0
  let h2 := shl32 h1 13 ||| shr32 h1 19
  add32 (mul32 h2 5) 0xe6546b64

/-- Main loop of murmur3: consume 4 code units at a time, return the state and
the at-most-3 trailing units. -/
def murmurBody (h : Nat) : List Nat → Nat × List Nat
  | a :: b :: c :: d :: rest =>
    let k := (a % 256) ||| ((b % 256) <<< 8) ||| ((c % 256) <<< 16) ||| ((d % 256) <<< 24)
    murmurBody (murmurFoldH h k) rest
  | rest => (h, rest)

/-- Tail switch of murmur3 over the 0-3 leftover code units (with the JS
fall-through structure flattened per case). -/
def murmurTail (h : Nat) : List Nat → Nat
  | [] => h
  | [a] => h ^^^ murmurScrambleK (a % 256)
  | [a, b] => h ^^^ murmurScrambleK ((a % 256) ||| ((b % 256) <<< 8))
  | a :: b :: c :: _ =>
    h ^^^ murmurScrambleK ((a % 256) ||| ((b % 256) <<< 8) ||| ((c % 256) <<< 16))

/-- Murmur3 32-bit string hash from hamt.ts; a JS string is modelled as its
list of UTF-16 code units. The seed parameter defaults to 0 at the call site. -/
def murmur3 (key : List Nat) (seed : Nat) : Nat :=
  let h0 := (seed ^^^ key.length) % pow32
  let (h1, rest) := murmurBody h0 key
  let h2 := murmurTail h1 rest
  let h3 := h2 ^^^ (key.length % pow32)
  let h4 := h3 ^^^ shr32 h3 16
  let h5 := mul32 h4 0x85ebca6b
  let h6 := h5 ^^^ shr32 h5 13
  let h7 := mul32 h6 0xc2b2ae35
  h7 ^^^ shr32 h7 16

/-- The JavaScript number values the key model covers: negative zero, NaN and
exact integers (the integer fragment of IEEE doubles; int 0 is +0). Non-integer
doubles are outside the model. -/
inductive JSNum where
  | negZero
  | nan
  | int (i : Int)
deriving DecidableEq

/-- Model of the JavaScript key universe accepted by hashKey / keyEquals.
Strings are lists of UTF-16 code units; objects and symbols are identified by
the monotone tag the source assigns them on first sight (OBJ_SEQ / SYM_SEQ),
so object identity is tag equality. The bigint case of hashKey is not needed
by any claim and is omitted from the model. -/
inductive JSKey where
  | num (n : JSNum)
  | str (s : List Nat)
  | bool (b : Bool)
  | jsNull
  | jsUndefined
  | obj (id : Nat)
  | sym (id : Nat)
deriving DecidableEq

/-- ToInt32-then-reinterpret-unsigned of an exact integer: the value of
(i | 0) >>> 0 in JS. -/
def jsUInt32 (i : Int) : Nat := (i % (pow32 : Int)).toNat

/-- The number branch of hashKey: -0 is normalised to 0, then
mix32((n | 0) ^ imul((n * 2^32) | 0, 0x9e3779b1)). For every exact integer n
the product n * 2^32 is an exact double with zero low word, so the imul
argument and hence the imul result is 0; NaN | 0 is 0 as well. -/
def hashNum : JSNum → Nat
  | .negZero => mix32 (jsUInt32 0)
  | .nan => mix32 0
  | .int i => mix32 (jsUInt32 i)

/-- hashKey from hamt.ts over the modelled key universe. -/
def hashKey : JSKey → Nat
  | .str s => murmur3 s 0
  | .num n => hashNum n
  | .bool b => if b then 0x27d4eb2d else 0x165667b1
  | .sym id => (id * 0x9e3779b1) % pow32
  | .jsNull => 0x811c9dc5
  | .obj id => (id * 0x85ebca77) % pow32
  | .jsUndefined => 0x9747b28c

/-- Object.is over the modelled key universe. Distinguishing negZero from
int 0 and making nan self-identical, the model makes Object.is structural
equality. -/
def objectIs (a b : JSKey) : Bool := a == b

/-- Whether a JS number compares === to 0 (true exactly for +0 and -0). -/
def jsNumIsZero : JSNum → Bool
  | .negZero => true
  | .nan => false
  | .int i => i == 0

/-- Whether a key is a number that compares === to 0. -/
def isZeroNum : JSKey → Bool
  | .num n => jsNumIsZero n
  | _ => false

/-- keyEquals from hamt.ts: if both arguments are numbers and both are === 0
the keys are equal; otherwise Object.is decides. -/
def keyEquals (a b : JSKey) : Bool :=
  if isZeroNum a && isZeroNum b then true else objectIs a b

theorem keyEquals_refl (a : JSKey) : keyEquals a a = true := by
  unfold keyEquals objectIs
  split <;> simp

theorem objectIs_eq_decide (a b : JSKey) : objectIs a b = decide (a = b) := by
  unfold objectIs
  simp [BEq.beq]

theorem keyEquals_symm (a b : JSKey) : keyEquals a b = keyEquals b a := by
  unfold keyEquals
  rw [objectIs_eq_decide, objectIs_eq_decide]
  by_cases hz : isZeroNum a = true ∧ isZeroNum b = true
  · simp [hz.1, hz.2]
  · have : (isZeroNum a && isZeroNum b) = false := by
      rcases Bool.eq_false_or_eq_true (isZeroNum a) with h | h <;>
        rcases Bool.eq_false_or_eq_true (isZeroNum b) with h2 | h2 <;>
        simp_all
    have that : (isZeroNum b && isZeroNum a) = false := by
      rcases Bool.eq_false_or_eq_true (isZeroNum a) with h | h <;>
        rcases Bool.eq_false_or_eq_true (isZeroNum b) with h2 | h2 <;>
        simp_all
    rw [this, that]
    simp [eq_comm]

theorem keyEquals_trans {a b c : JSKey} (hab : keyEquals a b = true)
    (hbc : keyEquals b c = true) : keyEquals a c = true := by
  unfold keyEquals objectIs at *
  by_cases hz : isZeroNum a = true ∧ isZeroNum c = true
  · simp [hz.1, hz.2]
  · split at hab
    · split at hbc
      · rename_i h1 h2
        exact absurd ⟨(Bool.and_eq_true _ _ |>.mp h1).1,
          (Bool.and_eq_true _ _ |>.mp h2).2⟩ hz
      · have hbceq : b = c := by simpa using hbc
        rename_i h1 h2
        subst hbceq
        exact absurd ⟨(Bool.and_eq_true _ _ |>.mp h1).1,
          (Bool.and_eq_true _ _ |>.mp h1).2⟩ hz
    · have habeq : a = b := by simpa using hab
      subst habeq
      split at hbc
      · rename_i h1 h2
        exact absurd ⟨(Bool.and_eq_true _ _ |>.mp h2).1,
          (Bool.and_eq_true _ _ |>.mp h2).2⟩ hz
      · have : a = c := by simpa using hbc
        simp [this]

/-- Two keys equal under keyEquals hash identically: keyEquals deviates from
structural equality only on the pair {+0, -0}, and hashKey normalises -0
to 0 before mixing. -/
theorem keyEquals_hash_eq {a b : JSKey} (h : keyEquals a b = true) :
    hashKey a = hashKey b := by
  unfold keyEquals at h
  split at h
  · rename_i hz
    obtain ⟨ha, hb⟩ := Bool.and_eq_true _ _ |>.mp hz
    cases a with
    | num na =>
      cases b with
      | num nb =>
        cases na <;> cases nb <;> simp [jsNumIsZero, isZeroNum] at ha hb <;>
          simp_all [hashKey, hashNum, jsUInt32]
      | _ => simp [isZeroNum] at hb
    | _ => simp [isZeroNum] at ha
  · have : a = b := by simpa [objectIs_eq_decide] using h
    rw [this]

/-- HLeaf from hamt.ts: a terminal entry carrying the key, its cached 32-bit
hash, and the value. -/
structure HLeafS (V : Type) where
  key : JSKey
  hash : Nat
  value : V
deriving DecidableEq

/-- HChild from hamt.ts: a leaf, a collision bucket (an array of leaves), or a
bitmap branch whose children sit in population-count packed order. The owner
field is the transient edit token (undefined is none). -/
inductive HChild (V : Type) where
  | leaf (l : HLeafS V)
  | collision (entries : List (HLeafS V))
  | node (owner : Option Nat) (bitmap : Nat) (children : List (HChild V))

/-- HMap from hamt.ts: optional root plus entry counter. -/
structure HMap (V : Type) where
  root : Option (HChild V)
  size : Nat
deriving Nonempty

/-- Fuel-bounded halving loop behind popcount; the fuel only shortcuts the
well-founded recursion so the kernel can evaluate it. -/
def popcountAux : Nat → Nat → Nat
  | 0, _ => 0
  | fuel + 1, n => if n = 0 then 0 else n % 2 + popcountAux fuel (n / 2)

/-- Population count; models the popcount helper imported from utils.ts
(whose source file is not under src/). Modelled from the spec: population
count of the 32-bit bitmap. -/
def popcount (n : Nat) : Nat := popcountAux n n

/-- The 5-bit chunk (hash >>> shift) & MASK selecting the child slot at a
branch; JS reduces the shift count modulo 32. -/
def chunk (h s : Nat) : Nat := (h >>> (s % 32)) % 32

/-- hamtEmpty from hamt.ts. -/
def hamtEmpty (V : Type) : HMap V := ⟨none, 0⟩

/-- Result triple of hamtInsert. -/
structure InsRes (V : Type) where
  node : HChild V
  added : Bool
  changed : Bool

/-- Result pair of hamtRemove. -/
structure RmRes (V : Type) where
  node : Option (HChild V)
  removed : Bool

/-- Index of the first collision entry whose key matches under keyEquals;
renders the index-scanning for loop of the source's collision cases. -/
def findLeafIdx {V : Type} : List (HLeafS V) → JSKey → Option Nat
  | [], _ => none
  | e :: rest, key =>
    if keyEquals e.key key then some 0 else (findLeafIdx rest key).map (· + 1)

/-- First collision entry whose key matches under keyEquals; renders the
linear scan of the source's collision lookup. -/
def findLeaf {V : Type} : List (HLeafS V) → JSKey → Option (HLeafS V)
  | [], _ => none
  | e :: rest, key =>
    if keyEquals e.key key then some e else findLeaf rest key

/-- mergeLeaves from hamt.ts, with the unbounded JS loop replaced by a fuel
parameter. The source loops while the two hashes agree on the current 5-bit
chunk; insertion only calls it on leaves whose 32-bit hashes differ and agree
below the current shift, in which case at most (30 - shift)/5 + 1 <= 7
iterations happen, so the fuel of 7 supplied at the call site is never
exhausted there (on hash-equal inputs, where the source would loop forever,
the model returns the two-child branch at the current shift). -/
def mergeLeaves {V : Type} (l1 l2 : HLeafS V) (owner : Option Nat) :
    Nat → Nat → HChild V
  | s, fuel + 1 =>
    let idx1 := chunk l1.hash s
    let idx2 := chunk l2.hash s
    if idx1 = idx2 then
      .node owner (1 <<< idx1) [mergeLeaves l1 l2 owner (s + 5) fuel]
    else
      .node owner ((1 <<< idx1) ||| (1 <<< idx2))
        (if idx1 < idx2 then [.leaf l1, .leaf l2] else [.leaf l2, .leaf l1])
  | s, 0 =>
    .node owner ((1 <<< chunk l1.hash s) ||| (1 <<< chunk l2.hash s))
      (if chunk l1.hash s < chunk l2.hash s then [.leaf l1, .leaf l2]
       else [.leaf l2, .leaf l1])

/-- Recursion depth bound for the trie walkers: a well-formed trie has branch
nodes only at shifts 0, 5, ..., 30, so every walk ends within 8 steps. -/
def hamtFuel : Nat := 8

/-- hamtInsert from hamt.ts, with the recursion on the child expressed through
the same fuel bound (never exhausted on well-formed tries). The source's
ensureEditableHNode followed by an in-place child write is observably the
branch value with the owner stamp and the child replaced, which is how the
node case is rendered here. When a packed index would fall outside the
children array (impossible when popcount bitmap = children.length) the model
keeps the array unchanged where the source would write past the end. -/
def hamtInsert {V : Type} [DecidableEq V] :
    Nat → Option (HChild V) → Option Nat → Nat → JSKey → V → Nat → InsRes V
  | 0, _, _, hash, key, value, _ => ⟨.leaf ⟨key, hash, value⟩, false, false⟩
  | _ + 1, none, _, hash, key, value, _ => ⟨.leaf ⟨key, hash, value⟩, true, true⟩
  | _ + 1, some (.leaf l), owner, hash, key, value, shift =>
    if l.hash = hash ∧ keyEquals l.key key then
      if l.value = value then ⟨.leaf l, false, false⟩
      else ⟨.leaf ⟨key, hash, value⟩, false, true⟩
    else if l.hash = hash ∧ ¬(keyEquals l.key key = true) then
      ⟨.collision [l, ⟨key, hash, value⟩], true, true⟩
    else
      ⟨mergeLeaves l ⟨key, hash, value⟩ owner shift 7, true, true⟩
  | _ + 1, some (.collision entries), _, hash, key, value, _ =>
    match findLeafIdx entries key with
    | some idx =>
      match entries[idx]? with
      | some existing =>
        if existing.value = value then ⟨.collision entries, false, false⟩
        else ⟨.collision (entries.set idx ⟨key, hash, value⟩), false, true⟩
      | none => ⟨.collision entries, false, false⟩
    | none =>
      ⟨.collision (entries ++ [⟨key, hash, value⟩]), true, true⟩
  | fuel + 1, some (.node nodeOwner bm children), owner, hash, key, value, shift =>
    let idx := chunk hash shift
    let bit := 1 <<< idx
    let hasSlot := bm &&& bit ≠ 0
    let packedIdx := popcount (bm &&& (bit - 1))
    if hasSlot then
      match children[packedIdx]? with
      | some child =>
        let res := hamtInsert fuel (some child) owner hash key value (shift + 5)
        if res.changed = false ∧ res.added = false then
          ⟨.node nodeOwner bm children, false, false⟩
        else
          ⟨.node owner bm (children.set packedIdx res.node), res.added, true⟩
      | none => ⟨.node owner bm children, true, true⟩
    else
      ⟨.node owner (bm ||| bit)
        (children.insertIdx packedIdx (.leaf ⟨key, hash, value⟩)), true, true⟩

/-- hamtRemove from hamt.ts, fuel-bounded the same way. -/
def hamtRemove {V : Type} :
    Nat → Option (HChild V) → Option Nat → Nat → JSKey → Nat → RmRes V
  | 0, node, _, _, _, _ => ⟨node, false⟩
  | _ + 1, none, _, _, _, _ => ⟨none, false⟩
  | _ + 1, some (.leaf l), _, hash, key, _ =>
    if l.hash = hash ∧ keyEquals l.key key then ⟨none, true⟩
    else ⟨some (.leaf l), false⟩
  | _ + 1, some (.collision entries), _, _, key, _ =>
    match findLeafIdx entries key with
    | none => ⟨some (.collision entries), false⟩
    | some idx =>
      if entries.length = 1 then ⟨none, true⟩
      else
        let newEntries := entries.eraseIdx idx
        match newEntries with
        | [e] => ⟨some (.leaf e), true⟩
        | _ => ⟨some (.collision newEntries), true⟩
  | fuel + 1, some (.node nodeOwner bm children), owner, hash, key, shift =>
    let idx := chunk hash shift
    let bit := 1 <<< idx
    if bm &&& bit = 0 then ⟨some (.node nodeOwner bm children), false⟩
    else
      let packedIdx := popcount (bm &&& (bit - 1))
      match children[packedIdx]? with
      | none => ⟨some (.node nodeOwner bm children), false⟩
      | some child =>
        let res := hamtRemove fuel (some child) owner hash key (shift + 5)
        if res.removed = false then ⟨some (.node nodeOwner bm children), false⟩
        else
          match res.node with
          | none =>
            let newBitmap := bm ^^^ bit
            if newBitmap = 0 then ⟨none, true⟩
            else
              let newChildren := children.eraseIdx packedIdx
              match newChildren with
              | [.leaf l] => ⟨some (.leaf l), true⟩
              | [.collision es] => ⟨some (.collision es), true⟩
              | _ => ⟨some (.node owner newBitmap newChildren), true⟩
          | some resNode =>
            ⟨some (.node owner bm (children.set packedIdx resNode)), true⟩

/-- The while loop of hamtGet / hamtHas as a fuel-bounded walker. -/
def getNode {V : Type} : Nat → HChild V → Nat → JSKey → Nat → Option V
  | 0, _, _, _, _ => none
  | _ + 1, .leaf l, hash, key, _ =>
    if l.hash = hash ∧ keyEquals l.key key then some l.value else none
  | _ + 1, .collision entries, _, key, _ =>
    (findLeaf entries key).map (·.value)
  | fuel + 1, .node _ bm children, hash, key, shift =>
    let idx := chunk hash shift
    let bit := 1 <<< idx
    if bm &&& bit = 0 then none
    else
      match children[popcount (bm &&& (bit - 1))]? with
      | none => none
      | some child => getNode fuel child hash key (shift + 5)

/-- hamtGet from hamt.ts: a leaf root is answered with keyEquals alone (the
source skips hashing there); otherwise the walker descends from shift 0. -/
def hamtGet {V : Type} (map : HMap V) (key : JSKey) : Option V :=
  match map.root with
  | none => none
  | some (.leaf l) => if keyEquals l.key key then some l.value else none
  | some root => getNode hamtFuel root (hashKey key) key 0

/-- hamtHas from hamt.ts; structurally the same walk as hamtGet. -/
def hamtHas {V : Type} (map : HMap V) (key : JSKey) : Bool :=
  match map.root with
  | none => false
  | some (.leaf l) => keyEquals l.key key
  | some root => (getNode hamtFuel root (hashKey key) key 0).isSome

/-- hamtSet from hamt.ts. -/
def hamtSet {V : Type} [DecidableEq V] (map : HMap V) (owner : Option Nat)
    (key : JSKey) (value : V) : HMap V :=
  let hash := hashKey key
  let res := hamtInsert hamtFuel map.root owner hash key value 0
  if res.changed = false then map
  else ⟨some res.node, map.size + (if res.added then 1 else 0)⟩

/-- hamtDelete from hamt.ts. -/
def hamtDelete {V : Type} (map : HMap V) (owner : Option Nat) (key : JSKey) :
    HMap V :=
  match map.root with
  | none => map
  | some _ =>
    let res := hamtRemove hamtFuel map.root owner (hashKey key) key 0
    if res.removed = false then map
    else ⟨res.node, map.size - 1⟩

/-- Numeric value of one bit of a bitmap. -/
def bitv (bm t : Nat) : Nat := if bm.testBit t then 1 else 0

/-- Number of set bits among the k low bits. -/
def sumBits (bm k : Nat) : Nat := ∑ t in Finset.range k, bitv bm t

theorem popcountAux_congr : ∀ (n : Nat), ∀ f1 f2, n ≤ f1 → n ≤ f2 →
    popcountAux f1 n = popcountAux f2 n := by
  intro n
  induction n using Nat.strong_induction_on with
  | _ n ih =>
    intro f1 f2 h1 h2
    rcases eq_or_ne n 0 with hn | hn
    · subst hn
      cases f1 <;> cases f2 <;> rfl
    · obtain ⟨g1, rfl⟩ : ∃ g1, f1 = g1 + 1 := ⟨f1 - 1, by omega⟩
      obtain ⟨g2, rfl⟩ : ∃ g2, f2 = g2 + 1 := ⟨f2 - 1, by omega⟩
      show (if n = 0 then 0 else n % 2 + popcountAux g1 (n / 2)) =
        (if n = 0 then 0 else n % 2 + popcountAux g2 (n / 2))
      rw [if_neg hn, if_neg hn]
      have hlt : n / 2 < n := Nat.div_lt_self (Nat.pos_of_ne_zero hn) (by norm_num)
      rw [ih (n / 2) hlt g1 g2 (by omega) (by omega)]

theorem popcount_div2 (n : Nat) : popcount n = n % 2 + popcount (n / 2) := by
  unfold popcount
  rcases eq_or_ne n 0 with hn | hn
  · subst hn
    rfl
  · obtain ⟨g, rfl⟩ : ∃ g, n = g + 1 := ⟨n - 1, by omega⟩
    show (if g + 1 = 0 then 0 else (g + 1) % 2 + popcountAux g ((g + 1) / 2)) = _
    rw [if_neg hn]
    have hle : (g + 1) / 2 ≤ g := by omega
    rw [popcountAux_congr ((g + 1) / 2) g ((g + 1) / 2) hle (le_refl _)]

theorem popcount_eq_sumBits {n k : Nat} (h : n < 2 ^ k) :
    popcount n = sumBits n k := by
  induction k generalizing n with
  | zero =>
    interval_cases n
    show (0 : Nat) = sumBits 0 0
    unfold sumBits
    simp
  | succ k ih =>
    have hdiv : n / 2 < 2 ^ k := by
      rw [Nat.div_lt_iff_lt_mul (by norm_num)]
      calc n < 2 ^ (k + 1) := h
      _ = 2 ^ k * 2 := by ring
    have hsum : sumBits n (k + 1) =
        (∑ t in Finset.range k, bitv n (t + 1)) + bitv n 0 :=
      Finset.sum_range_succ' (bitv n) k
    have hbit0 : bitv n 0 = n % 2 := by
      unfold bitv
      rw [Nat.testBit_zero]
      rcases Nat.mod_two_eq_zero_or_one n with h0 | h0 <;> simp [h0]
    have hbits : ∀ t, bitv n (t + 1) = bitv (n / 2) t := by
      intro t
      unfold bitv
      rw [Nat.testBit_succ]
    rw [popcount_div2, hsum, hbit0, ih hdiv]
    unfold sumBits
    simp only [hbits]
    ring

theorem sumBits_mono (bm : Nat) {j k : Nat} (h : j ≤ k) :
    sumBits bm j ≤ sumBits bm k := by
  unfold sumBits
  exact Finset.sum_le_sum_of_subset (Finset.range_subset.mpr h)

theorem popcount_mod_two_pow (bm i : Nat) :
    popcount (bm % 2 ^ i) = sumBits bm i := by
  have hlt : bm % 2 ^ i < 2 ^ i := Nat.mod_lt _ (Nat.pos_pow_of_pos i (by norm_num))
  rw [popcount_eq_sumBits hlt]
  unfold sumBits bitv
  refine Finset.sum_congr rfl ?_
  intro t ht
  rw [Nat.testBit_mod_two_pow]
  simp [Finset.mem_range.mp ht]

theorem land_two_pow_sub_one (bm i : Nat) : bm &&& (2 ^ i - 1) = bm % 2 ^ i := by
  refine Nat.eq_of_testBit_eq ?_
  intro t
  rw [Nat.testBit_land, Nat.testBit_two_pow_sub_one, Nat.testBit_mod_two_pow]
  rcases Nat.lt_or_ge t i with h | h
  · simp [h]
  · simp [Nat.not_lt.mpr h]

theorem testBit_one_shiftLeft (i t : Nat) :
    (1 <<< i).testBit t = decide (t = i) := by
  rw [Nat.shiftLeft_eq, one_mul, Nat.testBit_two_pow]
  rcases eq_or_ne t i with h | h <;> simp [h, Ne.symm]

theorem one_shiftLeft_eq_pow (i : Nat) : 1 <<< i = 2 ^ i := by
  rw [Nat.shiftLeft_eq, one_mul]

theorem land_one_shiftLeft_eq_zero_iff (bm i : Nat) :
    bm &&& (1 <<< i) = 0 ↔ bm.testBit i = false := by
  constructor
  · intro h
    rcases Bool.eq_false_or_eq_true (bm.testBit i) with h1 | h1
    · exfalso
      have : (bm &&& (1 <<< i)).testBit i = true := by
        rw [Nat.testBit_land, h1, testBit_one_shiftLeft]
        simp
      rw [h] at this
      simp at this
    · exact h1
  · intro h
    refine Nat.eq_of_testBit_eq ?_
    intro t
    rw [Nat.testBit_land, testBit_one_shiftLeft]
    rcases eq_or_ne t i with ht | ht
    · subst ht
      simp [h]
    · simp [ht]

/-- Child of a packed bitmap branch addressed by its 5-bit slot index. -/
def slot {α : Type} (bm : Nat) (cs : List α) (idx : Nat) : Option α :=
  if bm.testBit idx then cs[popcount (bm % 2 ^ idx)]? else none

theorem sumBits_lt_of_testBit {bm idx k : Nat} (hb : bm.testBit idx = true)
    (hik : idx < k) : sumBits bm idx < sumBits bm k := by
  have h1 : sumBits bm (idx + 1) = sumBits bm idx + 1 := by
    unfold sumBits
    rw [Finset.sum_range_succ]
    simp [bitv, hb]
  calc sumBits bm idx < sumBits bm (idx + 1) := by omega
  _ ≤ sumBits bm k := sumBits_mono bm hik

theorem popcount_lt_pow (bm k : Nat) (h : bm < 2 ^ k) {idx : Nat}
    (hb : bm.testBit idx = true) : popcount (bm % 2 ^ idx) < popcount bm := by
  rw [popcount_mod_two_pow, popcount_eq_sumBits h]
  have hik : idx < k := by
    by_contra hge
    have : bm.testBit idx = false :=
      Nat.testBit_lt_two_pow (lt_of_lt_of_le h (Nat.pow_le_pow_right (by norm_num) (by omega)))
    rw [this] at hb
    exact Bool.false_ne_true hb
  exact sumBits_lt_of_testBit hb hik

theorem popcount_le_sumBits (bm k : Nat) (h : bm < 2 ^ k) (idx : Nat) :
    popcount (bm % 2 ^ idx) ≤ popcount bm := by
  rw [popcount_mod_two_pow, popcount_eq_sumBits h]
  rcases Nat.le_total idx k with hik | hik
  · exact sumBits_mono bm hik
  · refine le_of_eq ?_
    unfold sumBits
    symm
    rw [Finset.sum_subset (Finset.range_subset.mpr hik)]
    intro t _ ht
    have : k ≤ t := by
      by_contra hlt
      exact ht (Finset.mem_range.mpr (by omega))
    unfold bitv
    rw [Nat.testBit_lt_two_pow
      (lt_of_lt_of_le h (Nat.pow_le_pow_right (by norm_num) this))]
    simp

theorem bitv_lor_fresh {bm idx : Nat} (hb : bm.testBit idx = false) (t : Nat) :
    bitv (bm ||| 2 ^ idx) t = bitv bm t + (if t = idx then 1 else 0) := by
  unfold bitv
  rw [Nat.testBit_lor, Nat.testBit_two_pow]
  rcases eq_or_ne t idx with h | h
  · subst h
    simp [hb]
  · simp [h, Ne.symm h]

theorem bitv_xor_drop {bm idx : Nat} (hb : bm.testBit idx = true) (t : Nat) :
    bitv bm t = bitv (bm ^^^ 2 ^ idx) t + (if t = idx then 1 else 0) := by
  unfold bitv
  rw [Nat.testBit_xor, Nat.testBit_two_pow]
  rcases eq_or_ne t idx with h | h
  · subst h
    simp [hb]
  · simp [h, Ne.symm h]

theorem sumBits_lor_fresh {bm idx : Nat} (hb : bm.testBit idx = false) (j : Nat) :
    sumBits (bm ||| 2 ^ idx) j = sumBits bm j + (if idx < j then 1 else 0) := by
  unfold sumBits
  calc ∑ t in Finset.range j, bitv (bm ||| 2 ^ idx) t
      = ∑ t in Finset.range j, (bitv bm t + if t = idx then 1 else 0) :=
        Finset.sum_congr rfl (fun t _ => bitv_lor_fresh hb t)
  _ = (∑ t in Finset.range j, bitv bm t) +
        ∑ t in Finset.range j, (if t = idx then 1 else 0) := Finset.sum_add_distrib
  _ = (∑ t in Finset.range j, bitv bm t) + (if idx < j then 1 else 0) := by
        rw [Finset.sum_ite_eq' (Finset.range j) idx (fun _ => 1)]
        simp [Finset.mem_range]

theorem sumBits_xor_drop {bm idx : Nat} (hb : bm.testBit idx = true) (j : Nat) :
    sumBits bm j = sumBits (bm ^^^ 2 ^ idx) j + (if idx < j then 1 else 0) := by
  unfold sumBits
  calc ∑ t in Finset.range j, bitv bm t
      = ∑ t in Finset.range j, (bitv (bm ^^^ 2 ^ idx) t + if t = idx then 1 else 0) :=
        Finset.sum_congr rfl (fun t _ => bitv_xor_drop hb t)
  _ = (∑ t in Finset.range j, bitv (bm ^^^ 2 ^ idx) t) +
        ∑ t in Finset.range j, (if t = idx then 1 else 0) := Finset.sum_add_distrib
  _ = (∑ t in Finset.range j, bitv (bm ^^^ 2 ^ idx) t) + (if idx < j then 1 else 0) := by
        rw [Finset.sum_ite_eq' (Finset.range j) idx (fun _ => 1)]
        simp [Finset.mem_range]

theorem popcount_lor_fresh {bm idx : Nat} (hbm : bm < pow32) (hidx : idx < 32)
    (hb : bm.testBit idx = false) :
    popcount (bm ||| 2 ^ idx) = popcount bm + 1 := by
  have h2 : (2 : Nat) ^ idx < 2 ^ 32 := Nat.pow_lt_pow_right (by norm_num) hidx
  have hlt : bm ||| 2 ^ idx < 2 ^ 32 := Nat.bitwise_lt_two_pow hbm h2
  rw [popcount_eq_sumBits hlt, popcount_eq_sumBits (show bm < 2 ^ 32 from hbm),
    sumBits_lor_fresh hb]
  simp [hidx]

theorem popcount_xor_drop {bm idx : Nat} (hbm : bm < pow32) (hidx : idx < 32)
    (hb : bm.testBit idx = true) :
    popcount bm = popcount (bm ^^^ 2 ^ idx) + 1 := by
  have h2 : (2 : Nat) ^ idx < 2 ^ 32 := Nat.pow_lt_pow_right (by norm_num) hidx
  have hlt : bm ^^^ 2 ^ idx < 2 ^ 32 := Nat.xor_lt_two_pow hbm h2
  rw [popcount_eq_sumBits hlt, popcount_eq_sumBits (show bm < 2 ^ 32 from hbm),
    sumBits_xor_drop hb]
  simp [hidx]

/-- Option-level index computation for List.insertIdx, for an in-range
insertion point. -/
theorem getElem?_insertIdx_cases {α : Type} (cs : List α) (p : Nat) (x : α)
    (hp : p ≤ cs.length) (q : Nat) :
    (cs.insertIdx p x)[q]? =
      if q < p then cs[q]? else if q = p then some x else cs[q - 1]? := by
  have hlen : (cs.insertIdx p x).length = cs.length + 1 := List.length_insertIdx p cs hp
  rcases Nat.lt_trichotomy q p with hq | hq | hq
  · have hqlen : q < cs.length := lt_of_lt_of_le hq hp
    rw [if_pos hq, List.getElem?_eq_getElem (by omega),
      List.getElem?_eq_getElem hqlen,
      List.getElem_insertIdx_of_lt cs x p q hq hqlen]
  · subst hq
    rw [if_neg (lt_irrefl q), if_pos rfl, List.getElem?_eq_getElem (by omega),
      List.getElem_insertIdx_self cs x q hp]
  · rw [if_neg (by omega), if_neg (by omega)]
    obtain ⟨k, hk⟩ : ∃ k, q = p + k + 1 := ⟨q - p - 1, by omega⟩
    subst hk
    rcases Nat.lt_or_ge (p + k) cs.length with hqk | hqk
    · rw [List.getElem?_eq_getElem (by omega), List.getElem?_eq_getElem (by omega)]
      have := List.getElem_insertIdx_add_succ cs x p k hqk
      rw [this]
      simp
    · rw [List.getElem?_eq_none (by omega), List.getElem?_eq_none (by omega)]

theorem slot_insertIdx {α : Type} {bm idx : Nat} (cs : List α) (x : α)
    (hb : bm.testBit idx = false) (hlen : popcount bm = cs.length)
    (hbm : bm < pow32) (idx' : Nat) :
    slot (bm ||| 2 ^ idx) (cs.insertIdx (popcount (bm % 2 ^ idx)) x) idx' =
      if idx' = idx then some x else slot bm cs idx' := by
  have hple : popcount (bm % 2 ^ idx) ≤ cs.length := by
    rw [← hlen]
    exact popcount_le_sumBits bm 32 hbm idx
  unfold slot
  rcases eq_or_ne idx' idx with hix | hix
  · subst hix
    rw [if_pos rfl]
    have hbit : (bm ||| 2 ^ idx').testBit idx' = true := by
      rw [Nat.testBit_lor, Nat.testBit_two_pow]
      simp
    rw [if_pos hbit]
    have hpci : popcount ((bm ||| 2 ^ idx') % 2 ^ idx') = popcount (bm % 2 ^ idx') := by
      rw [popcount_mod_two_pow, popcount_mod_two_pow, sumBits_lor_fresh hb]
      simp
    rw [hpci, getElem?_insertIdx_cases cs _ x hple]
    simp
  · rw [if_neg hix]
    have hbit : (bm ||| 2 ^ idx).testBit idx' = bm.testBit idx' := by
      rw [Nat.testBit_lor, Nat.testBit_two_pow]
      simp [Ne.symm hix]
    rw [hbit]
    rcases Bool.eq_false_or_eq_true (bm.testBit idx') with hb' | hb'
    · rw [hb', if_pos rfl, if_pos rfl]
      have hpci : popcount ((bm ||| 2 ^ idx) % 2 ^ idx') =
          popcount (bm % 2 ^ idx') + (if idx < idx' then 1 else 0) := by
        rw [popcount_mod_two_pow, popcount_mod_two_pow, sumBits_lor_fresh hb]
      rcases Nat.lt_or_ge idx' idx with hlt | hge
    -- idx' < idx: position unchanged and strictly below the insertion point
      · have hppos : popcount (bm % 2 ^ idx') < popcount (bm % 2 ^ idx) := by
          rw [popcount_mod_two_pow, popcount_mod_two_pow]
          exact sumBits_lt_of_testBit hb' hlt
        have hpci2 : popcount ((bm ||| 2 ^ idx) % 2 ^ idx') = popcount (bm % 2 ^ idx') := by
          rw [hpci, if_neg (by omega)]
          omega
        rw [hpci2, getElem?_insertIdx_cases cs _ x hple, if_pos (by omega)]
    -- idx < idx': position shifted up by one, past the insertion point
      · have hgt : idx < idx' := by omega
        have hple' : popcount (bm % 2 ^ idx) ≤ popcount (bm % 2 ^ idx') := by
          rw [popcount_mod_two_pow, popcount_mod_two_pow]
          exact sumBits_mono bm (le_of_lt hgt)
        have hpci2 : popcount ((bm ||| 2 ^ idx) % 2 ^ idx') =
            popcount (bm % 2 ^ idx') + 1 := by
          rw [hpci, if_pos hgt]
        rw [hpci2, getElem?_insertIdx_cases cs _ x hple,
          if_neg (by omega), if_neg (by omega)]
        simp
    · rw [hb']
      simp

theorem slot_set {α : Type} {bm idx : Nat} (cs : List α) (x : α)
    (hb : bm.testBit idx = true) (hlen : popcount bm = cs.length)
    (hbm : bm < pow32) (idx' : Nat) :
    slot bm (cs.set (popcount (bm % 2 ^ idx)) x) idx' =
      if idx' = idx then some x else slot bm cs idx' := by
  have hplt : popcount (bm % 2 ^ idx) < cs.length := by
    rw [← hlen]
    exact popcount_lt_pow bm 32 hbm hb
  unfold slot
  rcases eq_or_ne idx' idx with hix | hix
  · subst hix
    rw [if_pos rfl, if_pos hb, List.getElem?_set]
    simp [hplt]
  · rw [if_neg hix]
    rcases Bool.eq_false_or_eq_true (bm.testBit idx') with hb' | hb'
    · rw [hb', if_pos rfl, if_pos rfl]
      have hne : popcount (bm % 2 ^ idx) ≠ popcount (bm % 2 ^ idx') := by
        rcases Nat.lt_or_ge idx' idx with hlt | hge
        · have : popcount (bm % 2 ^ idx') < popcount (bm % 2 ^ idx) := by
            rw [popcount_mod_two_pow, popcount_mod_two_pow]
            exact sumBits_lt_of_testBit hb' hlt
          omega
        · have hgt : idx < idx' := by omega
          have : popcount (bm % 2 ^ idx) < popcount (bm % 2 ^ idx') := by
            rw [popcount_mod_two_pow, popcount_mod_two_pow]
            exact sumBits_lt_of_testBit hb hgt
          omega
      rw [List.getElem?_set, if_neg hne]
    · rw [hb']
      simp

theorem slot_eraseIdx {α : Type} {bm idx : Nat} (cs : List α)
    (hb : bm.testBit idx = true) (hlen : popcount bm = cs.length)
    (hbm : bm < pow32) (idx' : Nat) :
    slot (bm ^^^ 2 ^ idx) (cs.eraseIdx (popcount (bm % 2 ^ idx))) idx' =
      if idx' = idx then none else slot bm cs idx' := by
  unfold slot
  rcases eq_or_ne idx' idx with hix | hix
  · subst hix
    have hbit : (bm ^^^ 2 ^ idx').testBit idx' = false := by
      rw [Nat.testBit_xor, Nat.testBit_two_pow, hb]
      simp
    rw [if_pos rfl, hbit]
    simp
  · rw [if_neg hix]
    have hbit : (bm ^^^ 2 ^ idx).testBit idx' = bm.testBit idx' := by
      rw [Nat.testBit_xor, Nat.testBit_two_pow]
      simp [Ne.symm hix]
    rw [hbit]
    rcases Bool.eq_false_or_eq_true (bm.testBit idx') with hb' | hb'
    · rw [hb', if_pos rfl, if_pos rfl]
      have hpci : popcount (bm % 2 ^ idx') =
          popcount ((bm ^^^ 2 ^ idx) % 2 ^ idx') + (if idx < idx' then 1 else 0) := by
        rw [popcount_mod_two_pow, popcount_mod_two_pow, sumBits_xor_drop hb]
      rw [List.getElem?_eraseIdx]
      rcases Nat.lt_or_ge idx' idx with hlt | hge
      · have hppos : popcount (bm % 2 ^ idx') < popcount (bm % 2 ^ idx) := by
          rw [popcount_mod_two_pow, popcount_mod_two_pow]
          exact sumBits_lt_of_testBit hb' hlt
        rw [if_neg (by omega)] at hpci
        have hcalc : popcount ((bm ^^^ 2 ^ idx) % 2 ^ idx') = popcount (bm % 2 ^ idx') := by
          omega
        rw [hcalc, if_pos hppos]
      · have hgt : idx < idx' := by omega
        have hplt : popcount (bm % 2 ^ idx) < popcount (bm % 2 ^ idx') := by
          rw [popcount_mod_two_pow, popcount_mod_two_pow]
          exact sumBits_lt_of_testBit hb hgt
        rw [if_pos hgt] at hpci
        rw [if_neg (by omega)]
        congr 1
        omega
    · rw [hb']
      simp

theorem hasSlot_iff_testBit (bm idx : Nat) :
    (bm &&& (1 <<< idx) ≠ 0) ↔ bm.testBit idx = true := by
  have h0 := land_one_shiftLeft_eq_zero_iff bm idx
  constructor
  · intro h
    rcases Bool.eq_false_or_eq_true (bm.testBit idx) with hb | hb
    · exact hb
    · exact absurd (h0.mpr hb) h
  · intro hb hz
    rw [h0.mp hz] at hb
    exact Bool.false_ne_true hb

theorem land_shiftLeft_sub_one (bm idx : Nat) :
    bm &&& ((1 <<< idx) - 1) = bm % 2 ^ idx := by
  rw [one_shiftLeft_eq_pow, land_two_pow_sub_one]

theorem shr32_le (a k : Nat) : shr32 a k ≤ a := by
  unfold shr32
  rw [Nat.shiftRight_eq_div_pow]
  exact Nat.div_le_self _ _

theorem xor_lt_pow32 {a b : Nat} (ha : a < pow32) (hb : b < pow32) :
    a ^^^ b < pow32 := Nat.xor_lt_two_pow ha hb

theorem mod_pow32_lt (a : Nat) : a % pow32 < pow32 :=
  Nat.mod_lt _ (by norm_num [pow32])

theorem mix32_lt (z : Nat) : mix32 z < pow32 := by
  unfold mix32
  exact xor_lt_pow32 (mod_pow32_lt _) (lt_of_le_of_lt (shr32_le _ _) (mod_pow32_lt _))

theorem murmur3_lt (key : List Nat) (seed : Nat) : murmur3 key seed < pow32 := by
  unfold murmur3
  exact xor_lt_pow32 (mod_pow32_lt _) (lt_of_le_of_lt (shr32_le _ _) (mod_pow32_lt _))

theorem hashKey_lt (k : JSKey) : hashKey k < pow32 := by
  cases k with
  | str s => exact murmur3_lt s 0
  | num n => cases n <;> exact mix32_lt _
  | bool b => cases b <;> norm_num [hashKey, pow32]
  | jsNull => norm_num [hashKey, pow32]
  | jsUndefined => norm_num [hashKey, pow32]
  | obj id => exact mod_pow32_lt _
  | sym id => exact mod_pow32_lt _

theorem chunk_lt (h s : Nat) : chunk h s < 32 := Nat.mod_lt _ (by norm_num)

theorem testBit_chunk (h s r : Nat) (hs : s ≤ 30) (hr : r < 5) :
    (chunk h s).testBit r = h.testBit (s + r) := by
  unfold chunk
  have h32 : (32 : Nat) = 2 ^ 5 := by norm_num
  have hsmod : s % 32 = s := Nat.mod_eq_of_lt (by omega)
  rw [hsmod, h32, Nat.testBit_mod_two_pow, Nat.shiftRight_eq_div_pow,
    ← Nat.shiftRight_eq_div_pow, Nat.testBit_shiftRight]
  simp [hr]

/-- Two 32-bit words with equal aligned 5-bit chunks at shifts 0, 5, ..., 30
are equal. -/
theorem hash_eq_of_chunks_eq {h1 h2 : Nat} (hlt1 : h1 < pow32) (hlt2 : h2 < pow32)
    (hc : ∀ t, t ≤ 30 → t % 5 = 0 → chunk h1 t = chunk h2 t) : h1 = h2 := by
  refine Nat.eq_of_testBit_eq ?_
  intro j
  rcases Nat.lt_or_ge j 32 with hj | hj
  · have ht : 5 * (j / 5) ≤ 30 := by omega
    have htm : (5 * (j / 5)) % 5 = 0 := by omega
    have hr : j % 5 < 5 := Nat.mod_lt _ (by norm_num)
    have hjj : 5 * (j / 5) + j % 5 = j := by omega
    have := hc (5 * (j / 5)) ht htm
    calc h1.testBit j = h1.testBit (5 * (j / 5) + j % 5) := by rw [hjj]
    _ = (chunk h1 (5 * (j / 5))).testBit (j % 5) := (testBit_chunk h1 _ _ ht hr).symm
    _ = (chunk h2 (5 * (j / 5))).testBit (j % 5) := by rw [this]
    _ = h2.testBit (5 * (j / 5) + j % 5) := testBit_chunk h2 _ _ ht hr
    _ = h2.testBit j := by rw [hjj]
  · have hb1 : h1.testBit j = false := Nat.testBit_lt_two_pow
      (lt_of_lt_of_le hlt1 (Nat.pow_le_pow_right (by norm_num) hj))
    have hb2 : h2.testBit j = false := Nat.testBit_lt_two_pow
      (lt_of_lt_of_le hlt2 (Nat.pow_le_pow_right (by norm_num) hj))
    rw [hb1, hb2]

/-- Agreement of two hashes on every aligned chunk strictly below shift s. -/
def agreeBelow (h1 h2 s : Nat) : Prop :=
  ∀ t, t < s → t % 5 = 0 → chunk h1 t = chunk h2 t

theorem agreeBelow_zero (h1 h2 : Nat) : agreeBelow h1 h2 0 := by
  intro t ht _
  omega

theorem agreeBelow_step {h1 h2 s : Nat} (ha : agreeBelow h1 h2 s)
    (hs : s % 5 = 0) (hc : chunk h1 s = chunk h2 s) : agreeBelow h1 h2 (s + 5) := by
  intro t ht htm
  rcases Nat.lt_or_ge t s with h | h
  · exact ha t h htm
  · have : t = s := by omega
    rw [this]
    exact hc

theorem agreeBelow_symm {h1 h2 s : Nat} (ha : agreeBelow h1 h2 s) :
    agreeBelow h2 h1 s := fun t ht htm => (ha t ht htm).symm

theorem agreeBelow_trans {h1 h2 h3 s : Nat} (h12 : agreeBelow h1 h2 s)
    (h23 : agreeBelow h2 h3 s) : agreeBelow h1 h3 s :=
  fun t ht htm => (h12 t ht htm).trans (h23 t ht htm)

theorem agreeBelow_mono {h1 h2 s s' : Nat} (ha : agreeBelow h1 h2 s) (hss : s' ≤ s) :
    agreeBelow h1 h2 s' := fun t ht htm => ha t (by omega) htm

theorem eq_of_agreeBelow_35 {h1 h2 : Nat} (hlt1 : h1 < pow32) (hlt2 : h2 < pow32)
    (ha : agreeBelow h1 h2 35) : h1 = h2 :=
  hash_eq_of_chunks_eq hlt1 hlt2 (fun t ht htm => ha t (by omega) htm)

/-- A predicate holding at every leaf of a subtree. -/
inductive EveryLeaf {V : Type} (P : HLeafS V → Prop) : HChild V → Prop
  | leaf {l} : P l → EveryLeaf P (.leaf l)
  | collision {es} : (∀ l ∈ es, P l) → EveryLeaf P (.collision es)
  | node {ow bm cs} : (∀ c ∈ cs, EveryLeaf P c) → EveryLeaf P (.node ow bm cs)

theorem EveryLeaf_of_true {V : Type} (P : HLeafS V → Prop) (hP : ∀ l, P l) :
    ∀ n : HChild V, EveryLeaf P n
  | .leaf l => .leaf (hP l)
  | .collision es => .collision (fun l _ => hP l)
  | .node _ _ cs => .node (fun c hc =>
      have : sizeOf c < 1 + sizeOf cs := by
        have := List.sizeOf_lt_of_mem hc
        omega
      EveryLeaf_of_true P hP c)
termination_by n => sizeOf n

theorem EveryLeaf_mono {V : Type} {P Q : HLeafS V → Prop} (hPQ : ∀ l, P l → Q l) :
    ∀ {n : HChild V}, EveryLeaf P n → EveryLeaf Q n
  | .leaf _, .leaf hp => .leaf (hPQ _ hp)
  | .collision _, .collision hp => .collision (fun l hl => hPQ _ (hp l hl))
  | .node _ _ cs, .node hp => .node (fun c hc =>
      have : sizeOf c < 1 + sizeOf cs := by
        have := List.sizeOf_lt_of_mem hc
        omega
      EveryLeaf_mono hPQ (hp c hc))
termination_by n _ => sizeOf n

/-- Well-formedness of a subtree hanging at a given shift: leaves cache the
hash of their key; collision entries do so too and hold pairwise distinct
keys, at least two of them; a branch sits at an aligned shift of at most 30,
has a 32-bit bitmap whose population count matches its packed children array,
and each occupied slot holds a well-formed subtree all of whose leaves select
that slot at this shift. -/
inductive WfAt {V : Type} : HChild V → Nat → Prop
  | leaf {l : HLeafS V} {s : Nat} : l.hash = hashKey l.key → WfAt (.leaf l) s
  | collision {es : List (HLeafS V)} {s : Nat} :
      (∀ l ∈ es, l.hash = hashKey l.key) →
      es.Pairwise (fun a b => keyEquals a.key b.key = false) →
      2 ≤ es.length →
      WfAt (.collision es) s
  | node {ow : Option Nat} {bm : Nat} {cs : List (HChild V)} {s : Nat} :
      bm < pow32 →
      popcount bm = cs.length →
      s ≤ 30 → s % 5 = 0 →
      (∀ idx, idx < 32 → ∀ c, slot bm cs idx = some c → WfAt c (s + 5)) →
      (∀ idx, idx < 32 → ∀ c, slot bm cs idx = some c →
        EveryLeaf (fun l => chunk l.hash s = idx) c) →
      WfAt (.node ow bm cs) s

/-- Lookup through an optional root (the shape hamtRemove returns). -/
def optGetNode {V : Type} (fuel : Nat) (root : Option (HChild V)) (hash : Nat)
    (key : JSKey) (shift : Nat) : Option V :=
  match root with
  | none => none
  | some n => getNode fuel n hash key shift

theorem getNode_node_eq_slot {V : Type} (fuel : Nat) (ow : Option Nat) (bm : Nat)
    (cs : List (HChild V)) (h : Nat) (k : JSKey) (s : Nat) :
    getNode (fuel + 1) (.node ow bm cs) h k s =
      match slot bm cs (chunk h s) with
      | none => none
      | some c => getNode fuel c h k (s + 5) := by
  show (if bm &&& (1 <<< chunk h s) = 0 then none
    else match cs[popcount (bm &&& ((1 <<< chunk h s) - 1))]? with
      | none => none
      | some child => getNode fuel child h k (s + 5)) = _
  rw [land_shiftLeft_sub_one]
  unfold slot
  rcases Bool.eq_false_or_eq_true (bm.testBit (chunk h s)) with hb | hb
  · rw [if_neg ((hasSlot_iff_testBit bm (chunk h s)).mpr hb), hb, if_pos rfl]
  · rw [if_pos ((land_one_shiftLeft_eq_zero_iff bm (chunk h s)).mpr hb), hb]
    simp

theorem hamtInsert_node_eq {V : Type} [DecidableEq V] (fuel : Nat)
    (ow owner : Option Nat) (bm : Nat) (cs : List (HChild V)) (h : Nat)
    (k : JSKey) (v : V) (s : Nat) :
    hamtInsert (fuel + 1) (some (.node ow bm cs)) owner h k v s =
      match slot bm cs (chunk h s) with
      | some child =>
        let res := hamtInsert fuel (some child) owner h k v (s + 5)
        if res.changed = false ∧ res.added = false then
          InsRes.mk (.node ow bm cs) false false
        else
          InsRes.mk
            (.node owner bm (cs.set (popcount (bm % 2 ^ chunk h s)) res.node))
            res.added true
      | none =>
        if bm.testBit (chunk h s) then InsRes.mk (.node owner bm cs) true true
        else
          InsRes.mk
            (.node owner (bm ||| 2 ^ chunk h s)
              (cs.insertIdx (popcount (bm % 2 ^ chunk h s)) (.leaf ⟨k, h, v⟩)))
            true true := by
  show (if bm &&& (1 <<< chunk h s) ≠ 0 then
      match cs[popcount (bm &&& ((1 <<< chunk h s) - 1))]? with
      | some child =>
        let res := hamtInsert fuel (some child) owner h k v (s + 5)
        if res.changed = false ∧ res.added = false then
          InsRes.mk (.node ow bm cs) false false
        else
          InsRes.mk
            (.node owner bm
              (cs.set (popcount (bm &&& ((1 <<< chunk h s) - 1))) res.node))
            res.added true
      | none => InsRes.mk (.node owner bm cs) true true
    else
      InsRes.mk
        (.node owner (bm ||| (1 <<< chunk h s))
          (cs.insertIdx (popcount (bm &&& ((1 <<< chunk h s) - 1))) (.leaf ⟨k, h, v⟩)))
        true true) = _
  rw [land_shiftLeft_sub_one, one_shiftLeft_eq_pow]
  unfold slot
  rcases Bool.eq_false_or_eq_true (bm.testBit (chunk h s)) with hb | hb
  · have hne : bm &&& 2 ^ chunk h s ≠ 0 := by
      rw [← one_shiftLeft_eq_pow]
      exact (hasSlot_iff_testBit _ _).mpr hb
    rw [if_pos hne, hb, if_pos rfl]
    cases cs[popcount (bm % 2 ^ chunk h s)]? with
    | none => simp [hb]
    | some child => simp
  · have heq : bm &&& 2 ^ chunk h s = 0 := by
      rw [← one_shiftLeft_eq_pow]
      exact (land_one_shiftLeft_eq_zero_iff bm (chunk h s)).mpr hb
    rw [if_neg (by simp [heq]), hb]
    simp

theorem hamtRemove_node_eq {V : Type} (fuel : Nat) (ow owner : Option Nat)
    (bm : Nat) (cs : List (HChild V)) (h : Nat) (k : JSKey) (s : Nat) :
    hamtRemove (fuel + 1) (some (.node ow bm cs)) owner h k s =
      match slot bm cs (chunk h s) with
      | none => RmRes.mk (V := V) (some (.node ow bm cs)) false
      | some child =>
        let res := hamtRemove fuel (some child) owner h k (s + 5)
        if res.removed = false then RmRes.mk (some (.node ow bm cs)) false
        else
          match res.node with
          | none =>
            let newBitmap := bm ^^^ 2 ^ chunk h s
            if newBitmap = 0 then RmRes.mk none true
            else
              let newChildren := cs.eraseIdx (popcount (bm % 2 ^ chunk h s))
              match newChildren with
              | [.leaf l] => RmRes.mk (some (.leaf l)) true
              | [.collision es] => RmRes.mk (some (.collision es)) true
              | _ => RmRes.mk (some (.node owner newBitmap newChildren)) true
          | some resNode =>
            RmRes.mk
              (some (.node owner bm (cs.set (popcount (bm % 2 ^ chunk h s)) resNode)))
              true := by
  show (if bm &&& (1 <<< chunk h s) = 0 then
      RmRes.mk (V := V) (some (.node ow bm cs)) false
    else
      match cs[popcount (bm &&& ((1 <<< chunk h s) - 1))]? with
      | none => RmRes.mk (some (.node ow bm cs)) false
      | some child =>
        let res := hamtRemove fuel (some child) owner h k (s + 5)
        if res.removed = false then RmRes.mk (some (.node ow bm cs)) false
        else
          match res.node with
          | none =>
            let newBitmap := bm ^^^ (1 <<< chunk h s)
            if newBitmap = 0 then RmRes.mk none true
            else
              let newChildren := cs.eraseIdx (popcount (bm &&& ((1 <<< chunk h s) - 1)))
              match newChildren with
              | [.leaf l] => RmRes.mk (some (.leaf l)) true
              | [.collision es] => RmRes.mk (some (.collision es)) true
              | _ => RmRes.mk (some (.node owner newBitmap newChildren)) true
          | some resNode =>
            RmRes.mk
              (some (.node owner bm
                (cs.set (popcount (bm &&& ((1 <<< chunk h s) - 1))) resNode)))
              true) = _
  rw [land_shiftLeft_sub_one, one_shiftLeft_eq_pow]
  unfold slot
  rcases Bool.eq_false_or_eq_true (bm.testBit (chunk h s)) with hb | hb
  · have hne : bm &&& 2 ^ chunk h s ≠ 0 := by
      rw [← one_shiftLeft_eq_pow]
      exact (hasSlot_iff_testBit _ _).mpr hb
    rw [if_neg hne, hb, if_pos rfl]
  · have heq : bm &&& 2 ^ chunk h s = 0 := by
      rw [← one_shiftLeft_eq_pow]
      exact (land_one_shiftLeft_eq_zero_iff bm (chunk h s)).mpr hb
    rw [if_pos heq, hb]
    simp

theorem sumBits_two_pow (c j : Nat) : sumBits (2 ^ c) j = if c < j then 1 else 0 := by
  unfold sumBits bitv
  calc ∑ t in Finset.range j, (if (2 ^ c).testBit t then 1 else 0)
      = ∑ t in Finset.range j, (if t = c then 1 else 0) := by
        refine Finset.sum_congr rfl ?_
        intro t _
        rw [Nat.testBit_two_pow]
        rcases eq_or_ne t c with h | h <;> simp [h, Ne.symm]
  _ = if c < j then 1 else 0 := by
        rw [Finset.sum_ite_eq' (Finset.range j) c (fun _ => 1)]
        simp [Finset.mem_range]

theorem popcount_two_pow (c : Nat) (hc : c < 32) : popcount (2 ^ c) = 1 := by
  rw [popcount_eq_sumBits (Nat.pow_lt_pow_right (by norm_num) hc), sumBits_two_pow]
  simp [hc]

theorem popcount_two_pow_lor {c1 c2 : Nat} (h1 : c1 < 32) (h2 : c2 < 32)
    (hne : c1 ≠ c2) : popcount (2 ^ c1 ||| 2 ^ c2) = 2 := by
  have hb : (2 ^ c1).testBit c2 = false := by
    rw [Nat.testBit_two_pow]
    simp [hne]
  have hlt : 2 ^ c1 ||| 2 ^ c2 < 2 ^ 32 :=
    Nat.bitwise_lt_two_pow (Nat.pow_lt_pow_right (by norm_num) h1)
      (Nat.pow_lt_pow_right (by norm_num) h2)
  rw [popcount_eq_sumBits hlt, sumBits_lor_fresh hb, sumBits_two_pow]
  simp [h1, h2]

theorem slot_single {α : Type} (c : Nat) (x : α) (idx' : Nat) :
    slot (2 ^ c) [x] idx' = if idx' = c then some x else none := by
  unfold slot
  rw [Nat.testBit_two_pow]
  rcases eq_or_ne idx' c with h | h
  · subst h
    rw [if_pos (by simp), Nat.mod_self,
      show popcount 0 = 0 from rfl, List.getElem?_cons_zero, if_pos rfl]
  · simp [h, Ne.symm h]

theorem slot_pair {α : Type} {c1 c2 : Nat} (hlt : c1 < c2) (x y : α) (idx' : Nat) :
    slot (2 ^ c1 ||| 2 ^ c2) [x, y] idx' =
      if idx' = c1 then some x else if idx' = c2 then some y else none := by
  have hb12 : (2 ^ c1).testBit c2 = false := by
    rw [Nat.testBit_two_pow]
    simp [Nat.ne_of_lt hlt]
  unfold slot
  rw [Nat.testBit_lor, Nat.testBit_two_pow, Nat.testBit_two_pow]
  rcases eq_or_ne idx' c1 with h1 | h1
  · subst h1
    rw [if_pos rfl]
    have : popcount ((2 ^ idx' ||| 2 ^ c2) % 2 ^ idx') = 0 := by
      rw [popcount_mod_two_pow, sumBits_lor_fresh hb12, sumBits_two_pow]
      simp [Nat.not_lt.mpr (le_of_lt hlt), lt_irrefl]
    rw [this]
    simp
  · rcases eq_or_ne idx' c2 with h2 | h2
    · subst h2
      rw [if_neg h1]
      have : popcount ((2 ^ c1 ||| 2 ^ idx') % 2 ^ idx') = 1 := by
        rw [popcount_mod_two_pow, sumBits_lor_fresh hb12, sumBits_two_pow]
        simp [hlt, lt_irrefl]
      rw [this]
      simp [Ne.symm h1]
    · rw [if_neg h1, if_neg h2]
      simp [Ne.symm h1, Ne.symm h2]

theorem mergeLeaves_step {V : Type} (l1 l2 : HLeafS V) (ow : Option Nat)
    (s fuel : Nat) :
    mergeLeaves l1 l2 ow s (fuel + 1) =
      if chunk l1.hash s = chunk l2.hash s then
        .node ow (2 ^ chunk l1.hash s) [mergeLeaves l1 l2 ow (s + 5) fuel]
      else
        .node ow (2 ^ chunk l1.hash s ||| 2 ^ chunk l2.hash s)
          (if chunk l1.hash s < chunk l2.hash s then [.leaf l1, .leaf l2]
           else [.leaf l2, .leaf l1]) := by
  show (if chunk l1.hash s = chunk l2.hash s then
      HChild.node ow (1 <<< chunk l1.hash s) [mergeLeaves l1 l2 ow (s + 5) fuel]
    else
      HChild.node ow ((1 <<< chunk l1.hash s) ||| (1 <<< chunk l2.hash s))
        (if chunk l1.hash s < chunk l2.hash s then [.leaf l1, .leaf l2]
         else [.leaf l2, .leaf l1])) = _
  simp only [one_shiftLeft_eq_pow]

theorem getNode_leaf {V : Type} (fuel : Nat) (l : HLeafS V) (h : Nat) (k : JSKey)
    (s : Nat) :
    getNode (fuel + 1) (.leaf l) h k s =
      if l.hash = h ∧ keyEquals l.key k then some l.value else none := rfl

theorem getNode_collision {V : Type} (fuel : Nat) (es : List (HLeafS V)) (h : Nat)
    (k : JSKey) (s : Nat) :
    getNode (fuel + 1) (.collision es) h k s =
      (findLeaf es k).map (·.value) := rfl

/-- Lookup in a tree produced by mergeLeaves finds exactly the two merged
leaves, each guarded by its full hash and keyEquals. -/
theorem getNode_mergeLeaves {V : Type} (l1 l2 : HLeafS V) (ow : Option Nat) :
    ∀ (mfuel s : Nat), s % 5 = 0 → s ≤ 30 →
      l1.hash < pow32 → l2.hash < pow32 → l1.hash ≠ l2.hash →
      agreeBelow l1.hash l2.hash s → 35 ≤ s + 5 * mfuel →
      ∀ (gfuel h : Nat) (k : JSKey), 40 ≤ s + 5 * gfuel →
      getNode gfuel (mergeLeaves l1 l2 ow s mfuel) h k s =
        if l1.hash = h ∧ keyEquals l1.key k then some l1.value
        else if l2.hash = h ∧ keyEquals l2.key k then some l2.value
        else none := by
  intro mfuel
  induction mfuel with
  | zero =>
    intro s hs5 hs30 _ _ _ _ hmf
    omega
  | succ mf ih =>
    intro s hs5 hs30 hlt1 hlt2 hne hagree hmf gfuel h k hgf
    obtain ⟨gf, rfl⟩ : ∃ g, gfuel = g + 1 := ⟨gfuel - 1, by omega⟩
    rw [mergeLeaves_step]
    by_cases hc : chunk l1.hash s = chunk l2.hash s
    · rw [if_pos hc, getNode_node_eq_slot, slot_single]
      have hs25 : s ≤ 25 := by
        by_contra hgt
        have hs30' : s = 30 := by omega
        apply hne
        apply eq_of_agreeBelow_35 hlt1 hlt2
        intro t ht htm
        rcases Nat.lt_or_ge t 30 with h30 | h30
        · exact hagree t (by omega) htm
        · have ht30 : t = 30 := by omega
          rw [ht30, ← hs30']
          exact hc
      by_cases hch : chunk h s = chunk l1.hash s
      · rw [if_pos hch]
        show getNode gf (mergeLeaves l1 l2 ow (s + 5) mf) h k (s + 5) = _
        exact ih (s + 5) (by omega) (by omega) hlt1 hlt2 hne
          (agreeBelow_step hagree hs5 hc) (by omega) gf h k (by omega)
      · rw [if_neg hch]
        show (none : Option V) = _
        rw [if_neg ?hc1, if_neg ?hc2]
        case hc1 =>
          rintro ⟨he, _⟩
          exact hch (by rw [← he])
        case hc2 =>
          rintro ⟨he, _⟩
          apply hch
          rw [← he]
          exact hc.symm
    · rw [if_neg hc, getNode_node_eq_slot]
      obtain ⟨g2, rfl⟩ : ∃ g, gf = g + 1 := ⟨gf - 1, by omega⟩
      by_cases horder : chunk l1.hash s < chunk l2.hash s
      · rw [if_pos horder, slot_pair horder]
        by_cases h1 : chunk h s = chunk l1.hash s
        · rw [if_pos h1]
          show getNode (g2 + 1) (.leaf l1) h k (s + 5) = _
          rw [getNode_leaf]
          have hl2false : ¬(l2.hash = h ∧ keyEquals l2.key k = true) := by
            rintro ⟨he, _⟩
            apply hc
            have hcc : chunk l2.hash s = chunk l1.hash s := by
              rw [he]
              exact h1
            exact hcc.symm
          rw [if_neg hl2false]
        · rw [if_neg h1]
          have hl1false : ¬(l1.hash = h ∧ keyEquals l1.key k = true) := by
            rintro ⟨he, _⟩
            exact h1 (by rw [← he])
          by_cases h2 : chunk h s = chunk l2.hash s
          · rw [if_pos h2]
            show getNode (g2 + 1) (.leaf l2) h k (s + 5) = _
            rw [getNode_leaf, if_neg hl1false]
          · rw [if_neg h2]
            show (none : Option V) = _
            have hl2false : ¬(l2.hash = h ∧ keyEquals l2.key k = true) := by
              rintro ⟨he, _⟩
              exact h2 (by rw [← he])
            rw [if_neg hl1false, if_neg hl2false]
      · have horder2 : chunk l2.hash s < chunk l1.hash s := by
          rcases Nat.lt_trichotomy (chunk l1.hash s) (chunk l2.hash s) with hx | hx | hx
          · exact absurd hx horder
          · exact absurd hx hc
          · exact hx
        rw [if_neg horder, Nat.lor_comm, slot_pair horder2]
        by_cases h2 : chunk h s = chunk l2.hash s
        · rw [if_pos h2]
          show getNode (g2 + 1) (.leaf l2) h k (s + 5) = _
          rw [getNode_leaf]
          have hl1false : ¬(l1.hash = h ∧ keyEquals l1.key k = true) := by
            rintro ⟨he, _⟩
            apply hc
            have hcc : chunk l1.hash s = chunk h s := by rw [he]
            rw [hcc, h2]
          rw [if_neg hl1false]
        · rw [if_neg h2]
          have hl2false : ¬(l2.hash = h ∧ keyEquals l2.key k = true) := by
            rintro ⟨he, _⟩
            exact h2 (by rw [← he])
          by_cases h1 : chunk h s = chunk l1.hash s
          · rw [if_pos h1]
            show getNode (g2 + 1) (.leaf l1) h k (s + 5) = _
            rw [getNode_leaf, if_neg hl2false]
          · rw [if_neg h1]
            show (none : Option V) = _
            have hl1false : ¬(l1.hash = h ∧ keyEquals l1.key k = true) := by
              rintro ⟨he, _⟩
              exact h1 (by rw [← he])
            rw [if_neg hl1false, if_neg hl2false]

theorem neFalseTrue : ¬((false : Bool) = true) := by decide

theorem keyEquals_iff_of_equiv {k k2 : JSKey} (h : keyEquals k k2 = true)
    (x : JSKey) : keyEquals x k = keyEquals x k2 := by
  rcases Bool.eq_false_or_eq_true (keyEquals x k) with hx | hx
  · rw [hx]
    exact (keyEquals_trans hx h).symm
  · rw [hx]
    symm
    rcases Bool.eq_false_or_eq_true (keyEquals x k2) with hy | hy
    · exfalso
      have h21 : keyEquals k2 k = true := by
        rw [keyEquals_symm]
        exact h
      have hxk := keyEquals_trans hy h21
      rw [hxk] at hx
      exact absurd hx (by decide)
    · exact hy

theorem findLeafIdx_none_iff {V : Type} (es : List (HLeafS V)) (k : JSKey) :
    findLeafIdx es k = none ↔ ∀ e ∈ es, keyEquals e.key k = false := by
  induction es with
  | nil => simp [findLeafIdx]
  | cons e rest ih =>
    unfold findLeafIdx
    rcases Bool.eq_false_or_eq_true (keyEquals e.key k) with hb | hb
    · rw [hb]
      simp only [if_pos rfl]
      simp [hb]
    · rw [hb]
      rw [if_neg neFalseTrue]
      constructor
      · intro hmap
        have : findLeafIdx rest k = none := by
          cases hfr : findLeafIdx rest k with
          | none => rfl
          | some i =>
            rw [hfr] at hmap
            simp at hmap
        intro x hx
        rcases List.mem_cons.mp hx with h1 | h1
        · rw [h1, hb]
        · exact (ih.mp this) x h1
      · intro hall
        have : findLeafIdx rest k = none :=
          ih.mpr (fun x hx => hall x (List.mem_cons_of_mem _ hx))
        rw [this]
        rfl

theorem findLeafIdx_some {V : Type} (es : List (HLeafS V)) (k : JSKey) (i : Nat) :
    findLeafIdx es k = some i →
      (∃ e, es[i]? = some e ∧ keyEquals e.key k = true) ∧
      (∀ j, j < i → ∀ e, es[j]? = some e → keyEquals e.key k = false) := by
  induction es generalizing i with
  | nil => simp [findLeafIdx]
  | cons e rest ih =>
    unfold findLeafIdx
    rcases Bool.eq_false_or_eq_true (keyEquals e.key k) with hb | hb
    · rw [hb]
      simp only [if_pos rfl]
      intro hsome
      have hi : i = 0 := by
        cases hsome
        rfl
      subst hi
      refine ⟨⟨e, by simp, hb⟩, ?_⟩
      intro j hj
      omega
    · rw [hb]
      rw [if_neg neFalseTrue]
      intro hsome
      cases hfr : findLeafIdx rest k with
      | none =>
        rw [hfr] at hsome
        simp at hsome
      | some i0 =>
        rw [hfr] at hsome
        have hi : i = i0 + 1 := by
          simp at hsome
          omega
        subst hi
        obtain ⟨⟨e0, he0, hke0⟩, hpre⟩ := ih i0 hfr
        refine ⟨⟨e0, by simpa using he0, hke0⟩, ?_⟩
        intro j hj e2 he2
        cases j with
        | zero =>
          simp at he2
          rw [← he2]
          exact hb
        | succ j0 =>
          simp at he2
          exact hpre j0 (by omega) e2 he2

theorem findLeaf_none_iff {V : Type} (es : List (HLeafS V)) (k : JSKey) :
    findLeaf es k = none ↔ ∀ e ∈ es, keyEquals e.key k = false := by
  induction es with
  | nil => simp [findLeaf]
  | cons e rest ih =>
    unfold findLeaf
    rcases Bool.eq_false_or_eq_true (keyEquals e.key k) with hb | hb
    · rw [hb]
      simp [hb]
    · rw [hb]
      rw [if_neg neFalseTrue]
      constructor
      · intro hr x hx
        rcases List.mem_cons.mp hx with h1 | h1
        · rw [h1, hb]
        · exact ih.mp hr x h1
      · intro hall
        exact ih.mpr (fun x hx => hall x (List.mem_cons_of_mem _ hx))

theorem findLeaf_of_findLeafIdx {V : Type} (es : List (HLeafS V)) (k : JSKey)
    (i : Nat) (e : HLeafS V) (hidx : findLeafIdx es k = some i)
    (he : es[i]? = some e) : findLeaf es k = some e := by
  induction es generalizing i with
  | nil => simp [findLeafIdx] at hidx
  | cons e0 rest ih =>
    unfold findLeafIdx at hidx
    unfold findLeaf
    rcases Bool.eq_false_or_eq_true (keyEquals e0.key k) with hb | hb
    · rw [hb] at hidx
      simp only [if_pos rfl] at hidx
      have hi : i = 0 := by
        cases hidx
        rfl
      subst hi
      simp at he
      rw [hb, if_pos rfl, he]
    · rw [hb] at hidx
      rw [if_neg neFalseTrue] at hidx
      rw [hb, if_neg neFalseTrue]
      cases hfr : findLeafIdx rest k with
      | none =>
        rw [hfr] at hidx
        simp at hidx
      | some i0 =>
        rw [hfr] at hidx
        have hi : i = i0 + 1 := by
          simp at hidx
          omega
        subst hi
        simp at he
        exact ih i0 hfr he

theorem findLeaf_congr {V : Type} (es : List (HLeafS V)) {k k2 : JSKey}
    (h : keyEquals k k2 = true) : findLeaf es k = findLeaf es k2 := by
  induction es with
  | nil => rfl
  | cons e rest ih =>
    unfold findLeaf
    rw [keyEquals_iff_of_equiv h e.key]
    rcases Bool.eq_false_or_eq_true (keyEquals e.key k2) with hb | hb
    · rw [hb, if_pos rfl, if_pos rfl]
    · rw [hb, if_neg neFalseTrue, if_neg neFalseTrue]
      exact ih

theorem findLeaf_set_of_prefix_false {V : Type} (es : List (HLeafS V))
    (i : Nat) (newLeaf : HLeafS V) (k2 : JSKey)
    (hpre : ∀ j, j < i → ∀ e, es[j]? = some e → keyEquals e.key k2 = false)
    (hnew : keyEquals newLeaf.key k2 = true) (hi : i < es.length) :
    findLeaf (es.set i newLeaf) k2 = some newLeaf := by
  induction es generalizing i with
  | nil => simp at hi
  | cons e rest ih =>
    cases i with
    | zero =>
      show findLeaf (newLeaf :: rest) k2 = some newLeaf
      unfold findLeaf
      rw [hnew, if_pos rfl]
    | succ i0 =>
      show findLeaf (e :: rest.set i0 newLeaf) k2 = some newLeaf
      unfold findLeaf
      have he0 : keyEquals e.key k2 = false := hpre 0 (by omega) e (by simp)
      rw [he0, if_neg neFalseTrue]
      refine ih i0 ?_ ?_
      · intro j hj e2 he2
        exact hpre (j + 1) (by omega) e2 (by simpa using he2)
      · simpa using hi

theorem findLeaf_set_both_false {V : Type} (es : List (HLeafS V)) (i : Nat)
    (newLeaf : HLeafS V) (k2 : JSKey)
    (hold : ∀ e, es[i]? = some e → keyEquals e.key k2 = false)
    (hnew : keyEquals newLeaf.key k2 = false) :
    findLeaf (es.set i newLeaf) k2 = findLeaf es k2 := by
  induction es generalizing i with
  | nil => rfl
  | cons e rest ih =>
    cases i with
    | zero =>
      show findLeaf (newLeaf :: rest) k2 = findLeaf (e :: rest) k2
      unfold findLeaf
      rw [hnew, if_neg neFalseTrue, hold e (by simp), if_neg neFalseTrue]
    | succ i0 =>
      show findLeaf (e :: rest.set i0 newLeaf) k2 = findLeaf (e :: rest) k2
      unfold findLeaf
      rcases Bool.eq_false_or_eq_true (keyEquals e.key k2) with hb | hb
      · rw [hb, if_pos rfl, if_pos rfl]
      · rw [hb, if_neg neFalseTrue, if_neg neFalseTrue]
        exact ih i0 (fun e2 he2 => hold e2 (by simpa using he2))

theorem findLeaf_append_single {V : Type} (es : List (HLeafS V))
    (newLeaf : HLeafS V) (k2 : JSKey) :
    findLeaf (es ++ [newLeaf]) k2 =
      match findLeaf es k2 with
      | some e => some e
      | none => if keyEquals newLeaf.key k2 then some newLeaf else none := by
  induction es with
  | nil =>
    show findLeaf [newLeaf] k2 = _
    unfold findLeaf
    rfl
  | cons e rest ih =>
    show findLeaf (e :: (rest ++ [newLeaf])) k2 = _
    unfold findLeaf
    rcases Bool.eq_false_or_eq_true (keyEquals e.key k2) with hb | hb
    · rw [hb, if_pos rfl, if_pos rfl]
    · rw [hb, if_neg neFalseTrue, if_neg neFalseTrue]
      exact ih

theorem EveryLeaf_and {V : Type} {P Q : HLeafS V → Prop} :
    ∀ {n : HChild V}, EveryLeaf P n → EveryLeaf Q n →
      EveryLeaf (fun l => P l ∧ Q l) n
  | .leaf _, .leaf hp, .leaf hq => .leaf ⟨hp, hq⟩
  | .collision _, .collision hp, .collision hq =>
      .collision (fun l hl => ⟨hp l hl, hq l hl⟩)
  | .node _ _ cs, .node hp, .node hq => .node (fun c hc =>
      have : sizeOf c < 1 + sizeOf cs := by
        have := List.sizeOf_lt_of_mem hc
        omega
      EveryLeaf_and (hp c hc) (hq c hc))
termination_by n _ _ => sizeOf n

theorem mergeLeaves_EveryLeaf {V : Type} {P : HLeafS V → Prop}
    (l1 l2 : HLeafS V) (ow : Option Nat) (h1 : P l1) (h2 : P l2) :
    ∀ (fuel s : Nat), EveryLeaf P (mergeLeaves l1 l2 ow s fuel)
  | 0, s => by
    unfold mergeLeaves
    refine .node ?_
    intro c hc
    split at hc <;>
      rcases List.mem_cons.mp hc with h | h <;>
        first
          | (rw [h]; exact .leaf h1)
          | (rw [h]; exact .leaf h2)
          | (simp at h; rw [h]; exact .leaf h1)
          | (simp at h; rw [h]; exact .leaf h2)
  | fuel + 1, s => by
    rw [mergeLeaves_step]
    split
    · refine .node ?_
      intro c hc
      simp at hc
      rw [hc]
      exact mergeLeaves_EveryLeaf l1 l2 ow h1 h2 fuel (s + 5)
    · refine .node ?_
      intro c hc
      split at hc <;>
        rcases List.mem_cons.mp hc with h | h <;>
          first
            | (rw [h]; exact .leaf h1)
            | (rw [h]; exact .leaf h2)
            | (simp at h; rw [h]; exact .leaf h1)
            | (simp at h; rw [h]; exact .leaf h2)

theorem mergeLeaves_wf {V : Type} (l1 l2 : HLeafS V) (ow : Option Nat) :
    ∀ (fuel s : Nat), s % 5 = 0 → s ≤ 30 →
      l1.hash < pow32 → l2.hash < pow32 → l1.hash ≠ l2.hash →
      agreeBelow l1.hash l2.hash s → 35 ≤ s + 5 * fuel →
      l1.hash = hashKey l1.key → l2.hash = hashKey l2.key →
      WfAt (mergeLeaves l1 l2 ow s fuel) s := by
  intro fuel
  induction fuel with
  | zero =>
    intro s hs5 hs30 _ _ _ _ hf _ _
    omega
  | succ mf ih =>
    intro s hs5 hs30 hlt1 hlt2 hne hagree hf hk1 hk2
    rw [mergeLeaves_step]
    by_cases hc : chunk l1.hash s = chunk l2.hash s
    · rw [if_pos hc]
      have hs25 : s ≤ 25 := by
        by_contra hgt
        have hs30' : s = 30 := by omega
        apply hne
        apply eq_of_agreeBelow_35 hlt1 hlt2
        intro t ht htm
        rcases Nat.lt_or_ge t 30 with h30 | h30
        · exact hagree t (by omega) htm
        · have ht30 : t = 30 := by omega
          rw [ht30, ← hs30']
          exact hc
      have hc32 : chunk l1.hash s < 32 := chunk_lt _ _
      refine WfAt.node ?_ ?_ hs30 hs5 ?_ ?_
      · show 2 ^ chunk l1.hash s < pow32
        unfold pow32
        exact Nat.pow_lt_pow_right (by norm_num) hc32
      · rw [popcount_two_pow _ hc32]
        rfl
      · intro idx hidx c hslot
        rw [slot_single] at hslot
        rcases eq_or_ne idx (chunk l1.hash s) with hxc | hxc
        · rw [if_pos hxc] at hslot
          have hcc : c = mergeLeaves l1 l2 ow (s + 5) mf := by
            cases hslot
            rfl
          rw [hcc]
          exact ih (s + 5) (by omega) (by omega) hlt1 hlt2 hne
            (agreeBelow_step hagree hs5 hc) (by omega) hk1 hk2
        · rw [if_neg hxc] at hslot
          cases hslot
      · intro idx hidx c hslot
        rw [slot_single] at hslot
        rcases eq_or_ne idx (chunk l1.hash s) with hxc | hxc
        · rw [if_pos hxc] at hslot
          have hcc : c = mergeLeaves l1 l2 ow (s + 5) mf := by
            cases hslot
            rfl
          rw [hcc, hxc]
          exact mergeLeaves_EveryLeaf
            (P := fun l => chunk l.hash s = chunk l1.hash s) l1 l2 ow rfl hc.symm
            mf (s + 5)
        · rw [if_neg hxc] at hslot
          cases hslot
    · rw [if_neg hc]
      have hc321 : chunk l1.hash s < 32 := chunk_lt _ _
      have hc322 : chunk l2.hash s < 32 := chunk_lt _ _
      have hbmlt : 2 ^ chunk l1.hash s ||| 2 ^ chunk l2.hash s < pow32 := by
        unfold pow32
        exact Nat.bitwise_lt_two_pow (Nat.pow_lt_pow_right (by norm_num) hc321)
          (Nat.pow_lt_pow_right (by norm_num) hc322)
      by_cases horder : chunk l1.hash s < chunk l2.hash s
      · rw [if_pos horder]
        refine WfAt.node hbmlt ?_ hs30 hs5 ?_ ?_
        · rw [popcount_two_pow_lor hc321 hc322 hc]
          rfl
        · intro idx hidx c hslot
          rw [slot_pair horder] at hslot
          rcases eq_or_ne idx (chunk l1.hash s) with h1 | h1
          · rw [if_pos h1] at hslot
            cases hslot
            exact WfAt.leaf hk1
          · rw [if_neg h1] at hslot
            rcases eq_or_ne idx (chunk l2.hash s) with h2 | h2
            · rw [if_pos h2] at hslot
              cases hslot
              exact WfAt.leaf hk2
            · rw [if_neg h2] at hslot
              cases hslot
        · intro idx hidx c hslot
          rw [slot_pair horder] at hslot
          rcases eq_or_ne idx (chunk l1.hash s) with h1 | h1
          · rw [if_pos h1] at hslot
            cases hslot
            exact .leaf h1.symm
          · rw [if_neg h1] at hslot
            rcases eq_or_ne idx (chunk l2.hash s) with h2 | h2
            · rw [if_pos h2] at hslot
              cases hslot
              exact .leaf h2.symm
            · rw [if_neg h2] at hslot
              cases hslot
      · have horder2 : chunk l2.hash s < chunk l1.hash s := by
          rcases Nat.lt_trichotomy (chunk l1.hash s) (chunk l2.hash s) with hx | hx | hx
          · exact absurd hx horder
          · exact absurd hx hc
          · exact hx
        rw [if_neg horder]
        refine WfAt.node hbmlt ?_ hs30 hs5 ?_ ?_
        · rw [popcount_two_pow_lor hc321 hc322 hc]
          rfl
        · intro idx hidx c hslot
          rw [Nat.lor_comm, slot_pair horder2] at hslot
          rcases eq_or_ne idx (chunk l2.hash s) with h2 | h2
          · rw [if_pos h2] at hslot
            cases hslot
            exact WfAt.leaf hk2
          · rw [if_neg h2] at hslot
            rcases eq_or_ne idx (chunk l1.hash s) with h1 | h1
            · rw [if_pos h1] at hslot
              cases hslot
              exact WfAt.leaf hk1
            · rw [if_neg h1] at hslot
              cases hslot
        · intro idx hidx c hslot
          rw [Nat.lor_comm, slot_pair horder2] at hslot
          rcases eq_or_ne idx (chunk l2.hash s) with h2 | h2
          · rw [if_pos h2] at hslot
            cases hslot
            exact .leaf h2.symm
          · rw [if_neg h2] at hslot
            rcases eq_or_ne idx (chunk l1.hash s) with h1 | h1
            · rw [if_pos h1] at hslot
              cases hslot
              exact .leaf h1.symm
            · rw [if_neg h1] at hslot
              cases hslot

theorem slot_some_elim {α : Type} {bm : Nat} {cs : List α} {idx : Nat} {c : α}
    (h : slot bm cs idx = some c) :
    bm.testBit idx = true ∧ cs[popcount (bm % 2 ^ idx)]? = some c := by
  unfold slot at h
  rcases Bool.eq_false_or_eq_true (bm.testBit idx) with hb | hb
  · rw [hb, if_pos rfl] at h
    exact ⟨hb, h⟩
  · rw [hb] at h
    simp at h

theorem slot_some_mem {α : Type} {bm : Nat} {cs : List α} {idx : Nat} {c : α}
    (h : slot bm cs idx = some c) : c ∈ cs :=
  List.getElem?_mem (slot_some_elim h).2

theorem slot_none_of_testBit_false {α : Type} {bm : Nat} (cs : List α) {idx : Nat}
    (hb : bm.testBit idx = false) : slot bm cs idx = none := by
  unfold slot
  rw [hb]
  simp

/-- Unfolding equation for hamtInsert at a leaf. -/
theorem hamtInsert_leaf_eq {V : Type} [DecidableEq V] (fuel : Nat)
    (owner : Option Nat) (l : HLeafS V) (h : Nat) (k : JSKey) (v : V) (s : Nat) :
    hamtInsert (fuel + 1) (some (.leaf l)) owner h k v s =
      if l.hash = h ∧ keyEquals l.key k then
        (if l.value = v then InsRes.mk (.leaf l) false false
         else InsRes.mk (.leaf ⟨k, h, v⟩) false true)
      else if l.hash = h ∧ ¬(keyEquals l.key k = true) then
        InsRes.mk (.collision [l, ⟨k, h, v⟩]) true true
      else InsRes.mk (mergeLeaves l ⟨k, h, v⟩ owner s 7) true true := rfl

/-- Unfolding equation for hamtInsert at a collision. -/
theorem hamtInsert_collision_eq {V : Type} [DecidableEq V] (fuel : Nat)
    (owner : Option Nat) (es : List (HLeafS V)) (h : Nat) (k : JSKey) (v : V)
    (s : Nat) :
    hamtInsert (fuel + 1) (some (.collision es)) owner h k v s =
      match findLeafIdx es k with
      | some idx =>
        match es[idx]? with
        | some existing =>
          if existing.value = v then InsRes.mk (.collision es) false false
          else InsRes.mk (.collision (es.set idx ⟨k, h, v⟩)) false true
        | none => InsRes.mk (.collision es) false false
      | none => InsRes.mk (.collision (es ++ [⟨k, h, v⟩])) true true := rfl

/-- Unfolding equation for hamtRemove at a leaf. -/
theorem hamtRemove_leaf_eq {V : Type} (fuel : Nat) (owner : Option Nat)
    (l : HLeafS V) (h : Nat) (k : JSKey) (s : Nat) :
    hamtRemove (fuel + 1) (some (.leaf l)) owner h k s =
      if l.hash = h ∧ keyEquals l.key k then RmRes.mk none true
      else RmRes.mk (some (.leaf l)) false := rfl

/-- Unfolding equation for hamtRemove at a collision. -/
theorem hamtRemove_collision_eq {V : Type} (fuel : Nat) (owner : Option Nat)
    (es : List (HLeafS V)) (h : Nat) (k : JSKey) (s : Nat) :
    hamtRemove (fuel + 1) (some (.collision es)) owner h k s =
      match findLeafIdx es k with
      | none => RmRes.mk (some (.collision es)) false
      | some idx =>
        if es.length = 1 then RmRes.mk none true
        else
          let newEntries := es.eraseIdx idx
          match newEntries with
          | [e] => RmRes.mk (some (.leaf e)) true
          | _ => RmRes.mk (some (.collision newEntries)) true := rfl

theorem keyEquals_false_symm {a b : JSKey} (h : keyEquals a b = false) :
    keyEquals b a = false := by
  rw [keyEquals_symm]
  exact h

theorem keyEquals_false_of_ne_rel {k k2 x : JSKey} (hx : keyEquals x k = true)
    (hk2 : keyEquals k2 k = false) : keyEquals x k2 = false := by
  rcases Bool.eq_false_or_eq_true (keyEquals x k2) with ht | ht
  · exfalso
    have h1 : keyEquals k2 x = true := by
      rw [keyEquals_symm]
      exact ht
    have := keyEquals_trans h1 hx
    rw [this] at hk2
    exact absurd hk2 (by decide)
  · exact ht

/-- Main correctness of hamtInsert on well-formed subtrees: well-formedness
and leaf-set preservation, the added flag, lookup of the written key, the
frame property for other keys, and the identity short-circuit when the
existing value equals the written one. -/
theorem hamtInsert_spec {V : Type} [DecidableEq V] (owner : Option Nat)
    (k : JSKey) (v : V) :
    ∀ (fuel : Nat) (s : Nat) (n : HChild V),
      WfAt n s →
      EveryLeaf (fun l => agreeBelow l.hash (hashKey k) s) n →
      s % 5 = 0 → s ≤ 35 → 40 ≤ s + 5 * fuel →
      WfAt (hamtInsert fuel (some n) owner (hashKey k) k v s).node s ∧
      (∀ P : HLeafS V → Prop, EveryLeaf P n → P ⟨k, hashKey k, v⟩ →
        EveryLeaf P (hamtInsert fuel (some n) owner (hashKey k) k v s).node) ∧
      (∀ gfuel, 40 ≤ s + 5 * gfuel →
        (hamtInsert fuel (some n) owner (hashKey k) k v s).added =
          (getNode gfuel n (hashKey k) k s).isNone) ∧
      (∀ k2 gfuel, keyEquals k k2 = true → 40 ≤ s + 5 * gfuel →
        getNode gfuel (hamtInsert fuel (some n) owner (hashKey k) k v s).node
          (hashKey k2) k2 s = some v) ∧
      (∀ k2 gfuel, keyEquals k2 k = false → 40 ≤ s + 5 * gfuel →
        getNode gfuel (hamtInsert fuel (some n) owner (hashKey k) k v s).node
          (hashKey k2) k2 s = getNode gfuel n (hashKey k2) k2 s) ∧
      ((hamtInsert fuel (some n) owner (hashKey k) k v s).changed = false →
        (hamtInsert fuel (some n) owner (hashKey k) k v s).node = n) ∧
      (∀ gfuel, 40 ≤ s + 5 * gfuel →
        getNode gfuel n (hashKey k) k s = some v →
        (hamtInsert fuel (some n) owner (hashKey k) k v s).changed = false) := by
  intro fuel
  induction fuel with
  | zero =>
    intro s n _ _ _ hs35 hfuel
    omega
  | succ f ih =>
    intro s n hwf hagree hs5 hs35 hfuel
    cases n with
    | leaf l =>
      have hlh : l.hash = hashKey l.key := by
        cases hwf with
        | leaf hlh => exact hlh
      have hlag : agreeBelow l.hash (hashKey k) s := by
        cases hagree with
        | leaf hlag => exact hlag
      rw [hamtInsert_leaf_eq]
      by_cases hc1 : l.hash = hashKey k ∧ keyEquals l.key k = true
      · rw [if_pos hc1]
        by_cases hveq : l.value = v
        · rw [if_pos hveq]
          refine ⟨WfAt.leaf hlh, ?_, ?_, ?_, ?_, ?_, ?_⟩
          · intro P hP _
            exact hP
          · intro gfuel hg
            obtain ⟨g, rfl⟩ : ∃ g, gfuel = g + 1 := ⟨gfuel - 1, by omega⟩
            rw [getNode_leaf, if_pos hc1]
            rfl
          · intro k2 gfuel hk2 hg
            obtain ⟨g, rfl⟩ : ∃ g, gfuel = g + 1 := ⟨gfuel - 1, by omega⟩
            rw [getNode_leaf]
            have hh : hashKey k = hashKey k2 := keyEquals_hash_eq hk2
            have hkl2 : keyEquals l.key k2 = true := keyEquals_trans hc1.2 hk2
            rw [if_pos ⟨by rw [hc1.1, hh], hkl2⟩, hveq]
          · intro k2 gfuel _ _
            rfl
          · intro _
            rfl
          · intro gfuel _ _
            rfl
        · rw [if_neg hveq]
          refine ⟨WfAt.leaf rfl, ?_, ?_, ?_, ?_, ?_, ?_⟩
          · intro P _ hPnew
            exact .leaf hPnew
          · intro gfuel hg
            obtain ⟨g, rfl⟩ : ∃ g, gfuel = g + 1 := ⟨gfuel - 1, by omega⟩
            rw [getNode_leaf, if_pos hc1]
            rfl
          · intro k2 gfuel hk2 hg
            obtain ⟨g, rfl⟩ : ∃ g, gfuel = g + 1 := ⟨gfuel - 1, by omega⟩
            rw [getNode_leaf]
            have hh : hashKey k = hashKey k2 := keyEquals_hash_eq hk2
            rw [if_pos ⟨hh, hk2⟩]
          · intro k2 gfuel hk2f hg
            obtain ⟨g, rfl⟩ : ∃ g, gfuel = g + 1 := ⟨gfuel - 1, by omega⟩
            rw [getNode_leaf, getNode_leaf]
            have hnewf : keyEquals k k2 = false := keyEquals_false_symm hk2f
            have holdf : keyEquals l.key k2 = false :=
              keyEquals_false_of_ne_rel hc1.2 hk2f
            rw [if_neg (by rintro ⟨_, hcon⟩; rw [hnewf] at hcon; exact absurd hcon (by decide)),
              if_neg (by rintro ⟨_, hcon⟩; rw [holdf] at hcon; exact absurd hcon (by decide))]
          · intro hcon
            exact absurd hcon (by simp)
          · intro gfuel hg hsome
            obtain ⟨g, rfl⟩ : ∃ g, gfuel = g + 1 := ⟨gfuel - 1, by omega⟩
            rw [getNode_leaf, if_pos hc1] at hsome
            exact absurd (Option.some_inj.mp hsome) hveq
      · rw [if_neg hc1]
        by_cases hc2 : l.hash = hashKey k ∧ ¬(keyEquals l.key k = true)
        · rw [if_pos hc2]
          have hklf : keyEquals l.key k = false := by
            rcases Bool.eq_false_or_eq_true (keyEquals l.key k) with ht | ht
            · exact absurd ht hc2.2
            · exact ht
          refine ⟨?_, ?_, ?_, ?_, ?_, ?_, ?_⟩
          · refine WfAt.collision ?_ ?_ (by simp)
            · intro e he
              rcases List.mem_cons.mp he with h1 | h1
              · rw [h1]
                exact hlh
              · simp at h1
                rw [h1]
            · refine List.pairwise_cons.mpr ⟨?_, ?_⟩
              · intro e he
                simp at he
                rw [he]
                exact hklf
              · simp
          · intro P hP hPnew
            have hPl : P l := by
              cases hP with
              | leaf hp => exact hp
            refine .collision ?_
            intro e he
            rcases List.mem_cons.mp he with h1 | h1
            · rw [h1]
              exact hPl
            · simp at h1
              rw [h1]
              exact hPnew
          · intro gfuel hg
            obtain ⟨g, rfl⟩ : ∃ g, gfuel = g + 1 := ⟨gfuel - 1, by omega⟩
            rw [getNode_leaf,
              if_neg (by rintro ⟨_, hcon⟩; rw [hklf] at hcon; exact absurd hcon (by decide))]
            rfl
          · intro k2 gfuel hk2 hg
            obtain ⟨g, rfl⟩ : ∃ g, gfuel = g + 1 := ⟨gfuel - 1, by omega⟩
            rw [getNode_collision]
            have hlk2f : keyEquals l.key k2 = false := by
              rcases Bool.eq_false_or_eq_true (keyEquals l.key k2) with ht | ht
              · exfalso
                have h1 : keyEquals k2 k = true := by
                  rw [keyEquals_symm]
                  exact hk2
                have := keyEquals_trans ht h1
                rw [this] at hklf
                exact absurd hklf (by decide)
              · exact ht
            show (findLeaf [l, ⟨k, hashKey k, v⟩] k2).map (·.value) = some v
            unfold findLeaf
            rw [hlk2f, if_neg neFalseTrue]
            unfold findLeaf
            rw [hk2, if_pos rfl]
            rfl
          · intro k2 gfuel hk2f hg
            obtain ⟨g, rfl⟩ : ∃ g, gfuel = g + 1 := ⟨gfuel - 1, by omega⟩
            rw [getNode_collision, getNode_leaf]
            have hnewf : keyEquals k k2 = false := keyEquals_false_symm hk2f
            show (findLeaf [l, ⟨k, hashKey k, v⟩] k2).map (·.value) = _
            unfold findLeaf
            rcases Bool.eq_false_or_eq_true (keyEquals l.key k2) with hlk2 | hlk2
            · rw [hlk2, if_pos rfl]
              have hhx : l.hash = hashKey k2 := by
                rw [hlh]
                exact keyEquals_hash_eq hlk2
              rw [if_pos ⟨hhx, rfl⟩]
              rfl
            · rw [hlk2, if_neg neFalseTrue]
              unfold findLeaf
              rw [hnewf, if_neg neFalseTrue,
                if_neg (by rintro ⟨_, hcon⟩; exact absurd hcon (by decide))]
              rfl
          · intro hcon
            exact absurd hcon (by simp)
          · intro gfuel hg hsome
            obtain ⟨g, rfl⟩ : ∃ g, gfuel = g + 1 := ⟨gfuel - 1, by omega⟩
            rw [getNode_leaf,
              if_neg (by rintro ⟨_, hcon⟩; rw [hklf] at hcon; exact absurd hcon (by decide))] at hsome
            exact absurd hsome (by simp)
        · rw [if_neg hc2]
          have hlneq : l.hash ≠ hashKey k := by
            intro he
            rcases Bool.eq_false_or_eq_true (keyEquals l.key k) with ht | ht
            · exact hc1 ⟨he, ht⟩
            · exact hc2 ⟨he, by rw [ht]; exact fun hcon => absurd hcon (by decide)⟩
          have hs30 : s ≤ 30 := by
            by_contra hgt
            have hs35' : s = 35 := by omega
            apply hlneq
            apply eq_of_agreeBelow_35 (by rw [hlh]; exact hashKey_lt _) (hashKey_lt _)
            rw [← hs35']
            exact hlag
          have hmergepre :
              l.hash < pow32 ∧ (⟨k, hashKey k, v⟩ : HLeafS V).hash < pow32 := by
            constructor
            · rw [hlh]
              exact hashKey_lt _
            · exact hashKey_lt _
          refine ⟨?_, ?_, ?_, ?_, ?_, ?_, ?_⟩
          · exact mergeLeaves_wf l ⟨k, hashKey k, v⟩ owner 7 s hs5 hs30
              hmergepre.1 hmergepre.2 hlneq hlag (by omega) hlh rfl
          · intro P hP hPnew
            have hPl : P l := by
              cases hP with
              | leaf hp => exact hp
            exact mergeLeaves_EveryLeaf l ⟨k, hashKey k, v⟩ owner hPl hPnew 7 s
          · intro gfuel hg
            obtain ⟨g, rfl⟩ : ∃ g, gfuel = g + 1 := ⟨gfuel - 1, by omega⟩
            rw [getNode_leaf, if_neg (by rintro ⟨hcon, _⟩; exact hlneq hcon)]
            rfl
          · intro k2 gfuel hk2 hg
            have hh : hashKey k = hashKey k2 := keyEquals_hash_eq hk2
            rw [getNode_mergeLeaves l ⟨k, hashKey k, v⟩ owner 7 s hs5 hs30
              hmergepre.1 hmergepre.2 hlneq hlag (by omega) gfuel (hashKey k2) k2 hg]
            rw [if_neg (by rintro ⟨hcon, _⟩; rw [← hh] at hcon; exact hlneq hcon),
              if_pos ⟨hh, hk2⟩]
          · intro k2 gfuel hk2f hg
            obtain ⟨g, hgf⟩ : ∃ g, gfuel = g + 1 := ⟨gfuel - 1, by omega⟩
            have hnewf : keyEquals k k2 = false := keyEquals_false_symm hk2f
            rw [getNode_mergeLeaves l ⟨k, hashKey k, v⟩ owner 7 s hs5 hs30
              hmergepre.1 hmergepre.2 hlneq hlag (by omega) gfuel (hashKey k2) k2 hg]
            rw [if_neg (show ¬((⟨k, hashKey k, v⟩ : HLeafS V).hash = hashKey k2 ∧
                keyEquals (⟨k, hashKey k, v⟩ : HLeafS V).key k2 = true) by
              rintro ⟨_, hcon⟩
              rw [hnewf] at hcon
              exact absurd hcon (by decide))]
            rw [hgf, getNode_leaf]
          · intro hcon
            exact absurd hcon (by simp)
          · intro gfuel hg hsome
            obtain ⟨g, rfl⟩ : ∃ g, gfuel = g + 1 := ⟨gfuel - 1, by omega⟩
            rw [getNode_leaf, if_neg (by rintro ⟨hcon, _⟩; exact hlneq hcon)] at hsome
            exact absurd hsome (by simp)
    | collision es =>
      have heshash : ∀ e ∈ es, e.hash = hashKey e.key := by
        cases hwf with
        | collision h1 _ _ => exact h1
      have hespair : es.Pairwise (fun a b => keyEquals a.key b.key = false) := by
        cases hwf with
        | collision _ h2 _ => exact h2
      have heslen : 2 ≤ es.length := by
        cases hwf with
        | collision _ _ h3 => exact h3
      have hesagree : ∀ e ∈ es, agreeBelow e.hash (hashKey k) s := by
        cases hagree with
        | collision h1 => exact h1
      rw [hamtInsert_collision_eq]
      cases hfound : findLeafIdx es k with
      | some idx =>
        obtain ⟨⟨existing, hexist, hexkey⟩, hpre⟩ := findLeafIdx_some es k idx hfound
        have hidxlt : idx < es.length := by
          rcases List.getElem?_eq_some_iff.mp hexist with ⟨hlt, _⟩
          exact hlt
        dsimp only
        rw [hexist]
        dsimp only
        by_cases hveq : existing.value = v
        · rw [if_pos hveq]
          refine ⟨hwf, ?_, ?_, ?_, ?_, ?_, ?_⟩
          · intro P hP _
            exact hP
          · intro gfuel hg
            obtain ⟨g, rfl⟩ : ∃ g, gfuel = g + 1 := ⟨gfuel - 1, by omega⟩
            rw [getNode_collision, findLeaf_of_findLeafIdx es k idx existing hfound hexist]
            rfl
          · intro k2 gfuel hk2 hg
            obtain ⟨g, rfl⟩ : ∃ g, gfuel = g + 1 := ⟨gfuel - 1, by omega⟩
            rw [getNode_collision, ← findLeaf_congr es hk2,
              findLeaf_of_findLeafIdx es k idx existing hfound hexist]
            show some existing.value = some v
            rw [hveq]
          · intro k2 gfuel _ _
            rfl
          · intro _
            rfl
          · intro gfuel _ _
            rfl
        · rw [if_neg hveq]
          have hnewkey : keyEquals (⟨k, hashKey k, v⟩ : HLeafS V).key k = true :=
            keyEquals_refl k
          refine ⟨?_, ?_, ?_, ?_, ?_, ?_, ?_⟩
          · refine WfAt.collision ?_ ?_ (by rw [List.length_set]; exact heslen)
            · intro e he
              rcases List.mem_or_eq_of_mem_set he with h1 | h1
              · exact heshash e h1
              · rw [h1]
            · rw [List.pairwise_iff_getElem]
              intro i j hi hj hij
              have hi2 : i < es.length := by
                have hx := hi
                rw [List.length_set] at hx
                exact hx
              have hj2 : j < es.length := by
                have hx := hj
                rw [List.length_set] at hx
                exact hx
              have hpair := List.pairwise_iff_getElem.mp hespair
              have hexeq : es[idx] = existing := by
                rcases List.getElem?_eq_some_iff.mp hexist with ⟨_, hg2⟩
                exact hg2
              by_cases hiidx : i = idx
              · have hseti : (es.set idx ⟨k, hashKey k, v⟩)[i] =
                    ⟨k, hashKey k, v⟩ := by
                  rw [List.getElem_set, if_pos hiidx.symm]
                have hsetj : (es.set idx ⟨k, hashKey k, v⟩)[j] = es[j] := by
                  rw [List.getElem_set, if_neg (by omega)]
                show keyEquals ((es.set idx ⟨k, hashKey k, v⟩)[i]).key
                  ((es.set idx ⟨k, hashKey k, v⟩)[j]).key = false
                rw [hseti, hsetj]
                show keyEquals k (es[j]).key = false
                rcases Bool.eq_false_or_eq_true (keyEquals k (es[j]).key)
                  with ht | ht
                · exfalso
                  have h2 : keyEquals existing.key (es[j]).key = true :=
                    keyEquals_trans hexkey ht
                  have h3 : keyEquals (es[idx]).key (es[j]).key = false :=
                    hpair idx j hidxlt hj2 (by omega)
                  rw [hexeq, h2] at h3
                  exact absurd h3 (by decide)
                · exact ht
              · by_cases hjidx : j = idx
                · have hsetj : (es.set idx ⟨k, hashKey k, v⟩)[j] =
                      ⟨k, hashKey k, v⟩ := by
                    rw [List.getElem_set, if_pos hjidx.symm]
                  have hseti : (es.set idx ⟨k, hashKey k, v⟩)[i] = es[i] := by
                    rw [List.getElem_set, if_neg (by omega)]
                  show keyEquals ((es.set idx ⟨k, hashKey k, v⟩)[i]).key
                    ((es.set idx ⟨k, hashKey k, v⟩)[j]).key = false
                  rw [hseti, hsetj]
                  show keyEquals (es[i]).key k = false
                  rcases Bool.eq_false_or_eq_true (keyEquals (es[i]).key k)
                    with ht | ht
                  · exfalso
                    have hsym : keyEquals k existing.key = true := by
                      rw [keyEquals_symm]
                      exact hexkey
                    have h2 : keyEquals (es[i]).key existing.key = true :=
                      keyEquals_trans ht hsym
                    have h3 : keyEquals (es[i]).key (es[idx]).key = false :=
                      hpair i idx hi2 hidxlt (by omega)
                    rw [hexeq, h2] at h3
                    exact absurd h3 (by decide)
                  · exact ht
                · have hseti : (es.set idx ⟨k, hashKey k, v⟩)[i] = es[i] := by
                    rw [List.getElem_set, if_neg (by omega)]
                  have hsetj : (es.set idx ⟨k, hashKey k, v⟩)[j] = es[j] := by
                    rw [List.getElem_set, if_neg (by omega)]
                  show keyEquals ((es.set idx ⟨k, hashKey k, v⟩)[i]).key
                    ((es.set idx ⟨k, hashKey k, v⟩)[j]).key = false
                  rw [hseti, hsetj]
                  exact hpair i j hi2 hj2 hij
          · intro P hP hPnew
            have hPes : ∀ e ∈ es, P e := by
              cases hP with
              | collision hp => exact hp
            refine .collision ?_
            intro e he
            rcases List.mem_or_eq_of_mem_set he with h1 | h1
            · exact hPes e h1
            · rw [h1]
              exact hPnew
          · intro gfuel hg
            obtain ⟨g, rfl⟩ : ∃ g, gfuel = g + 1 := ⟨gfuel - 1, by omega⟩
            rw [getNode_collision, findLeaf_of_findLeafIdx es k idx existing hfound hexist]
            rfl
          · intro k2 gfuel hk2 hg
            obtain ⟨g, rfl⟩ : ∃ g, gfuel = g + 1 := ⟨gfuel - 1, by omega⟩
            rw [getNode_collision]
            have hfset : findLeaf (es.set idx ⟨k, hashKey k, v⟩) k2 =
                some ⟨k, hashKey k, v⟩ := by
              refine findLeaf_set_of_prefix_false es idx _ k2 ?_ ?_ hidxlt
              · intro j hj e hje
                have := hpre j hj e hje
                rw [← keyEquals_iff_of_equiv hk2 e.key]
                exact this
              · exact hk2
            rw [hfset]
            rfl
          · intro k2 gfuel hk2f hg
            obtain ⟨g, rfl⟩ : ∃ g, gfuel = g + 1 := ⟨gfuel - 1, by omega⟩
            rw [getNode_collision, getNode_collision]
            have hfset : findLeaf (es.set idx ⟨k, hashKey k, v⟩) k2 = findLeaf es k2 := by
              refine findLeaf_set_both_false es idx _ k2 ?_ ?_
              · intro e hje
                have hre : e = existing := by
                  rw [hexist] at hje
                  exact Option.some_inj.mp hje.symm
                rw [hre]
                exact keyEquals_false_of_ne_rel hexkey hk2f
              · exact keyEquals_false_symm hk2f
            rw [hfset]
          · intro hcon
            exact absurd hcon (by simp)
          · intro gfuel hg hsome
            obtain ⟨g, rfl⟩ : ∃ g, gfuel = g + 1 := ⟨gfuel - 1, by omega⟩
            rw [getNode_collision,
              findLeaf_of_findLeafIdx es k idx existing hfound hexist] at hsome
            exact absurd (Option.some_inj.mp hsome) hveq
      | none =>
        have hall : ∀ e ∈ es, keyEquals e.key k = false :=
          (findLeafIdx_none_iff es k).mp hfound
        refine ⟨?_, ?_, ?_, ?_, ?_, ?_, ?_⟩
        · refine WfAt.collision ?_ ?_ (by simp; omega)
          · intro e he
            rcases List.mem_append.mp he with h1 | h1
            · exact heshash e h1
            · simp at h1
              rw [h1]
          · rw [List.pairwise_append]
            refine ⟨hespair, by simp, ?_⟩
            intro a ha b hb
            simp at hb
            rw [hb]
            exact hall a ha
        · intro P hP hPnew
          have hPes : ∀ e ∈ es, P e := by
            cases hP with
            | collision hp => exact hp
          refine .collision ?_
          intro e he
          rcases List.mem_append.mp he with h1 | h1
          · exact hPes e h1
          · simp at h1
            rw [h1]
            exact hPnew
        · intro gfuel hg
          obtain ⟨g, rfl⟩ : ∃ g, gfuel = g + 1 := ⟨gfuel - 1, by omega⟩
          rw [getNode_collision, (findLeaf_none_iff es k).mpr hall]
          rfl
        · intro k2 gfuel hk2 hg
          obtain ⟨g, rfl⟩ : ∃ g, gfuel = g + 1 := ⟨gfuel - 1, by omega⟩
          rw [getNode_collision, findLeaf_append_single]
          have hno2 : findLeaf es k2 = none := by
            rw [← findLeaf_congr es hk2]
            exact (findLeaf_none_iff es k).mpr hall
          rw [hno2]
          show (if keyEquals k k2 = true then some (⟨k, hashKey k, v⟩ : HLeafS V)
            else none).map (·.value) = some v
          rw [hk2, if_pos rfl]
          rfl
        · intro k2 gfuel hk2f hg
          obtain ⟨g, rfl⟩ : ∃ g, gfuel = g + 1 := ⟨gfuel - 1, by omega⟩
          rw [getNode_collision, getNode_collision, findLeaf_append_single]
          have hnewf : keyEquals k k2 = false := keyEquals_false_symm hk2f
          cases hf2 : findLeaf es k2 with
          | some e => rfl
          | none =>
            show (if keyEquals k k2 = true then some (⟨k, hashKey k, v⟩ : HLeafS V)
              else none).map (·.value) = _
            rw [hnewf, if_neg neFalseTrue]
        · intro hcon
          exact absurd hcon (by simp)
        · intro gfuel hg hsome
          obtain ⟨g, rfl⟩ : ∃ g, gfuel = g + 1 := ⟨gfuel - 1, by omega⟩
          rw [getNode_collision, (findLeaf_none_iff es k).mpr hall] at hsome
          exact absurd hsome (by simp)
    | node ow bm cs =>
      have hbm32 : bm < pow32 := by
        cases hwf with
        | node h1 _ _ _ _ _ => exact h1
      have hpc : popcount bm = cs.length := by
        cases hwf with
        | node _ h2 _ _ _ _ => exact h2
      have hs30 : s ≤ 30 := by
        cases hwf with
        | node _ _ h3 _ _ _ => exact h3
      have hwfslots : ∀ idx, idx < 32 → ∀ c, slot bm cs idx = some c →
          WfAt c (s + 5) := by
        cases hwf with
        | node _ _ _ _ h5 _ => exact h5
      have hchslots : ∀ idx, idx < 32 → ∀ c, slot bm cs idx = some c →
          EveryLeaf (fun l => chunk l.hash s = idx) c := by
        cases hwf with
        | node _ _ _ _ _ h6 => exact h6
      have hagreecs : ∀ c ∈ cs, EveryLeaf
          (fun l => agreeBelow l.hash (hashKey k) s) c := by
        cases hagree with
        | node h1 => exact h1
      rw [hamtInsert_node_eq]
      cases hslot : slot bm cs (chunk (hashKey k) s) with
      | some child =>
        obtain ⟨htb, hgetc⟩ := slot_some_elim hslot
        have hchildmem : child ∈ cs := List.getElem?_mem hgetc
        have hwfchild : WfAt child (s + 5) :=
          hwfslots _ (chunk_lt _ _) child hslot
        have hagchild : EveryLeaf
            (fun l => agreeBelow l.hash (hashKey k) (s + 5)) child := by
          have hcomb := EveryLeaf_and (hagreecs child hchildmem)
            (hchslots _ (chunk_lt _ _) child hslot)
          refine EveryLeaf_mono ?_ hcomb
          intro l hl
          exact agreeBelow_step hl.1 hs5 hl.2
        obtain ⟨ihwf, ihev, ihadd, ihget, ihframe, ihchf, ihchb⟩ :=
          ih (s + 5) child hwfchild hagchild (by omega) (by omega) (by omega)
        dsimp only
        by_cases hcond :
            (hamtInsert f (some child) owner (hashKey k) k v (s + 5)).changed = false ∧
            (hamtInsert f (some child) owner (hashKey k) k v (s + 5)).added = false
        · rw [if_pos hcond]
          refine ⟨hwf, ?_, ?_, ?_, ?_, ?_, ?_⟩
          · intro P hP _
            exact hP
          · intro gfuel hg
            obtain ⟨g, rfl⟩ : ∃ g, gfuel = g + 1 := ⟨gfuel - 1, by omega⟩
            rw [getNode_node_eq_slot, hslot]
            show false = (getNode g child (hashKey k) k (s + 5)).isNone
            rw [← ihadd g (by omega)]
            exact hcond.2.symm
          · intro k2 gfuel hk2 hg
            obtain ⟨g, rfl⟩ : ∃ g, gfuel = g + 1 := ⟨gfuel - 1, by omega⟩
            have hh : hashKey k = hashKey k2 := keyEquals_hash_eq hk2
            rw [getNode_node_eq_slot]
            have hchk2 : chunk (hashKey k2) s = chunk (hashKey k) s := by
              rw [hh]
            rw [hchk2, hslot]
            have := ihget k2 g hk2 (by omega)
            rw [ihchf hcond.1] at this
            exact this
          · intro k2 gfuel _ _
            rfl
          · intro _
            rfl
          · intro gfuel _ _
            rfl
        · rw [if_neg hcond]
          refine ⟨?_, ?_, ?_, ?_, ?_, ?_, ?_⟩
          · refine WfAt.node hbm32 ?_ hs30 hs5 ?_ ?_
            · rw [List.length_set]
              exact hpc
            · intro idx hidx c hsl
              rw [slot_set cs _ htb hpc hbm32] at hsl
              rcases eq_or_ne idx (chunk (hashKey k) s) with hie | hie
              · rw [if_pos hie] at hsl
                cases hsl
                exact ihwf
              · rw [if_neg hie] at hsl
                exact hwfslots idx hidx c hsl
            · intro idx hidx c hsl
              rw [slot_set cs _ htb hpc hbm32] at hsl
              rcases eq_or_ne idx (chunk (hashKey k) s) with hie | hie
              · rw [if_pos hie] at hsl
                cases hsl
                rw [hie]
                exact ihev _ (hchslots _ (chunk_lt _ _) child hslot) rfl
              · rw [if_neg hie] at hsl
                exact hchslots idx hidx c hsl
          · intro P hP hPnew
            have hPcs : ∀ c ∈ cs, EveryLeaf P c := by
              cases hP with
              | node hp => exact hp
            refine .node ?_
            intro c hc
            rcases List.mem_or_eq_of_mem_set hc with h1 | h1
            · exact hPcs c h1
            · rw [h1]
              exact ihev P (hPcs child hchildmem) hPnew
          · intro gfuel hg
            obtain ⟨g, rfl⟩ : ∃ g, gfuel = g + 1 := ⟨gfuel - 1, by omega⟩
            rw [getNode_node_eq_slot, hslot]
            exact ihadd g (by omega)
          · intro k2 gfuel hk2 hg
            obtain ⟨g, rfl⟩ : ∃ g, gfuel = g + 1 := ⟨gfuel - 1, by omega⟩
            have hh : hashKey k = hashKey k2 := keyEquals_hash_eq hk2
            rw [getNode_node_eq_slot]
            have hchk2 : chunk (hashKey k2) s = chunk (hashKey k) s := by
              rw [hh]
            rw [hchk2, slot_set cs _ htb hpc hbm32, if_pos rfl]
            exact ihget k2 g hk2 (by omega)
          · intro k2 gfuel hk2f hg
            obtain ⟨g, rfl⟩ : ∃ g, gfuel = g + 1 := ⟨gfuel - 1, by omega⟩
            rw [getNode_node_eq_slot, getNode_node_eq_slot,
              slot_set cs _ htb hpc hbm32]
            rcases eq_or_ne (chunk (hashKey k2) s) (chunk (hashKey k) s) with hie | hie
            · rw [if_pos hie, hie, hslot]
              exact ihframe k2 g hk2f (by omega)
            · rw [if_neg hie]
          · intro hcon
            exact absurd hcon (by simp)
          · intro gfuel hg hsome
            obtain ⟨g, rfl⟩ : ∃ g, gfuel = g + 1 := ⟨gfuel - 1, by omega⟩
            rw [getNode_node_eq_slot, hslot] at hsome
            dsimp only at hsome
            exfalso
            apply hcond
            refine ⟨ihchb g (by omega) hsome, ?_⟩
            rw [ihadd g (by omega), hsome]
            rfl
      | none =>
        dsimp only
        rcases Bool.eq_false_or_eq_true (bm.testBit (chunk (hashKey k) s)) with htb | htb
        · exfalso
          have hlt : popcount (bm % 2 ^ chunk (hashKey k) s) < cs.length := by
            rw [← hpc]
            exact popcount_lt_pow bm 32 hbm32 htb
          unfold slot at hslot
          rw [htb, if_pos rfl, List.getElem?_eq_getElem hlt] at hslot
          exact absurd hslot (by simp)
        · rw [htb, if_neg neFalseTrue]
          have hple : popcount (bm % 2 ^ chunk (hashKey k) s) ≤ cs.length := by
            rw [← hpc]
            exact popcount_le_sumBits bm 32 hbm32 _
          have hchlt : chunk (hashKey k) s < 32 := chunk_lt _ _
          have hbm32' : bm ||| 2 ^ chunk (hashKey k) s < pow32 := by
            unfold pow32
            exact Nat.bitwise_lt_two_pow hbm32 (Nat.pow_lt_pow_right (by norm_num) hchlt)
          refine ⟨?_, ?_, ?_, ?_, ?_, ?_, ?_⟩
          · refine WfAt.node hbm32' ?_ hs30 hs5 ?_ ?_
            · rw [popcount_lor_fresh hbm32 hchlt htb,
                List.length_insertIdx _ _ hple, hpc]
            · intro idx hidx c hsl
              rw [slot_insertIdx cs _ htb hpc hbm32] at hsl
              rcases eq_or_ne idx (chunk (hashKey k) s) with hie | hie
              · rw [if_pos hie] at hsl
                cases hsl
                exact WfAt.leaf rfl
              · rw [if_neg hie] at hsl
                exact hwfslots idx hidx c hsl
            · intro idx hidx c hsl
              rw [slot_insertIdx cs _ htb hpc hbm32] at hsl
              rcases eq_or_ne idx (chunk (hashKey k) s) with hie | hie
              · rw [if_pos hie] at hsl
                cases hsl
                exact .leaf hie.symm
              · rw [if_neg hie] at hsl
                exact hchslots idx hidx c hsl
          · intro P hP hPnew
            have hPcs : ∀ c ∈ cs, EveryLeaf P c := by
              cases hP with
              | node hp => exact hp
            refine .node ?_
            intro c hc
            rcases (List.mem_insertIdx hple).mp hc with h1 | h1
            · rw [h1]
              exact .leaf hPnew
            · exact hPcs c h1
          · intro gfuel hg
            obtain ⟨g, rfl⟩ : ∃ g, gfuel = g + 1 := ⟨gfuel - 1, by omega⟩
            rw [getNode_node_eq_slot, hslot]
            rfl
          · intro k2 gfuel hk2 hg
            obtain ⟨g, rfl⟩ : ∃ g, gfuel = g + 1 := ⟨gfuel - 1, by omega⟩
            have hh : hashKey k = hashKey k2 := keyEquals_hash_eq hk2
            rw [getNode_node_eq_slot]
            have hchk2 : chunk (hashKey k2) s = chunk (hashKey k) s := by
              rw [hh]
            rw [hchk2, slot_insertIdx cs _ htb hpc hbm32, if_pos rfl]
            dsimp only
            obtain ⟨g2, rfl⟩ : ∃ g2, g = g2 + 1 := ⟨g - 1, by omega⟩
            rw [getNode_leaf, if_pos ⟨hh, hk2⟩]
          · intro k2 gfuel hk2f hg
            obtain ⟨g, rfl⟩ : ∃ g, gfuel = g + 1 := ⟨gfuel - 1, by omega⟩
            have hnewf : keyEquals k k2 = false := keyEquals_false_symm hk2f
            rw [getNode_node_eq_slot, getNode_node_eq_slot,
              slot_insertIdx cs _ htb hpc hbm32]
            rcases eq_or_ne (chunk (hashKey k2) s) (chunk (hashKey k) s) with hie | hie
            · rw [if_pos hie, hie, slot_none_of_testBit_false cs htb]
              dsimp only
              obtain ⟨g2, rfl⟩ : ∃ g2, g = g2 + 1 := ⟨g - 1, by omega⟩
              rw [getNode_leaf, if_neg (by
                rintro ⟨_, hcon⟩
                have hcon2 : keyEquals k k2 = true := hcon
                rw [hnewf] at hcon2
                exact absurd hcon2 (by decide))]
            · rw [if_neg hie]
          · intro hcon
            exact absurd hcon (by simp)
          · intro gfuel hg hsome
            obtain ⟨g, rfl⟩ : ∃ g, gfuel = g + 1 := ⟨gfuel - 1, by omega⟩
            rw [getNode_node_eq_slot, hslot] at hsome
            exact absurd hsome (by simp)

theorem popcount_eq_zero : ∀ n : Nat, popcount n = 0 → n = 0 := by
  intro n
  induction n using Nat.strong_induction_on with
  | _ n ih =>
    intro h
    rcases Nat.eq_zero_or_pos n with h0 | hpos
    · exact h0
    · rw [popcount_div2] at h
      have h2 : popcount (n / 2) = 0 := by omega
      have hhalf := ih (n / 2) (Nat.div_lt_self hpos (by norm_num)) h2
      omega

theorem exists_bit_of_lt_sumBits {bm : Nat} :
    ∀ w q, q < sumBits bm w →
      ∃ idx, idx < w ∧ bm.testBit idx = true ∧ sumBits bm idx = q := by
  intro w
  induction w with
  | zero =>
    intro q hq
    have h0 : sumBits bm 0 = 0 := by
      unfold sumBits
      simp
    omega
  | succ w ih =>
    intro q hq
    have hs : sumBits bm (w + 1) = sumBits bm w + bitv bm w := by
      unfold sumBits
      rw [Finset.sum_range_succ]
    rcases Nat.lt_or_ge q (sumBits bm w) with hlt | hge
    · obtain ⟨idx, hi, hb, hsb⟩ := ih q hlt
      exact ⟨idx, by omega, hb, hsb⟩
    · have hb : bm.testBit w = true := by
        rcases Bool.eq_false_or_eq_true (bm.testBit w) with hb | hb
        · exact hb
        · exfalso
          have hbv : bitv bm w = 0 := by
            unfold bitv
            rw [hb]
            simp
          omega
      have hbv : bitv bm w = 1 := by
        unfold bitv
        rw [hb]
        simp
      exact ⟨w, by omega, hb, by omega⟩

theorem exists_slot_eq {α : Type} {bm : Nat} {cs : List α} (hbm : bm < pow32)
    (hpc : popcount bm = cs.length) (q : Nat) (hq : q < cs.length) :
    ∃ idx, idx < 32 ∧ bm.testBit idx = true ∧
      popcount (bm % 2 ^ idx) = q ∧ slot bm cs idx = cs[q]? := by
  have hbm' : bm < 2 ^ 32 := hbm
  have hq2 : q < sumBits bm 32 := by
    rw [← popcount_eq_sumBits hbm', hpc]
    exact hq
  obtain ⟨idx, hi, hb, hsb⟩ := exists_bit_of_lt_sumBits 32 q hq2
  refine ⟨idx, hi, hb, ?_, ?_⟩
  · rw [popcount_mod_two_pow]
    exact hsb
  · unfold slot
    rw [hb, if_pos rfl, popcount_mod_two_pow, hsb]

theorem popcount_mod_ne_of_bits_ne {bm i j : Nat} (hi : bm.testBit i = true)
    (hj : bm.testBit j = true) (hij : i ≠ j) :
    popcount (bm % 2 ^ i) ≠ popcount (bm % 2 ^ j) := by
  rcases Nat.lt_or_ge i j with h | h
  · have := sumBits_lt_of_testBit hi h
    rw [popcount_mod_two_pow, popcount_mod_two_pow]
    omega
  · have hlt : j < i := by omega
    have := sumBits_lt_of_testBit hj hlt
    rw [popcount_mod_two_pow, popcount_mod_two_pow]
    omega

theorem findLeaf_eraseIdx {V : Type} (es : List (HLeafS V)) (idx : Nat)
    (k2 : JSKey)
    (h : ∀ e, es[idx]? = some e → keyEquals e.key k2 = false) :
    findLeaf (es.eraseIdx idx) k2 = findLeaf es k2 := by
  induction es generalizing idx with
  | nil => rfl
  | cons e0 rest ih =>
    cases idx with
    | zero =>
      have h0 : keyEquals e0.key k2 = false := h e0 (by rw [List.getElem?_cons_zero])
      show findLeaf rest k2 = findLeaf (e0 :: rest) k2
      have hstep : findLeaf (e0 :: rest) k2 =
          if keyEquals e0.key k2 = true then some e0 else findLeaf rest k2 := rfl
      rw [hstep, h0, if_neg neFalseTrue]
    | succ m =>
      show findLeaf (e0 :: rest.eraseIdx m) k2 = findLeaf (e0 :: rest) k2
      unfold findLeaf
      rcases Bool.eq_false_or_eq_true (keyEquals e0.key k2) with hb | hb
      · rw [hb, if_pos rfl, if_pos rfl]
      · rw [hb, if_neg neFalseTrue, if_neg neFalseTrue]
        exact ih m (fun e he => h e (by rw [List.getElem?_cons_succ]; exact he))

theorem findLeaf_eraseIdx_none {V : Type} (es : List (HLeafS V)) (idx : Nat)
    (k2 : JSKey)
    (h : ∀ j (hj : j < es.length), j ≠ idx →
      keyEquals (es[j]).key k2 = false) :
    findLeaf (es.eraseIdx idx) k2 = none := by
  rw [findLeaf_none_iff]
  intro e he
  obtain ⟨j, hj, hje⟩ := List.mem_iff_getElem.mp he
  rw [List.getElem_eraseIdx] at hje
  by_cases hji : j < idx
  · rw [dif_pos hji] at hje
    have hjlt : j < es.length := by
      have hx := hj
      rw [List.length_eraseIdx] at hx
      split at hx <;> omega
    rw [← hje]
    exact h j hjlt (by omega)
  · rw [dif_neg hji] at hje
    have hjlt : j + 1 < es.length := by
      have hx := hj
      rw [List.length_eraseIdx] at hx
      split at hx <;> omega
    rw [← hje]
    exact h (j + 1) hjlt (by omega)

/-- Main correctness of hamtRemove on well-formed subtrees: well-formedness
and leaf-set preservation of the surviving node, the removed flag as presence
of the key, lookup of the removed key afterwards, the frame property for
other keys, and identity of the node when nothing was removed. -/
theorem hamtRemove_spec {V : Type} (owner : Option Nat) (k : JSKey) :
    ∀ (fuel : Nat) (s : Nat) (n : HChild V),
      WfAt n s →
      EveryLeaf (fun l => agreeBelow l.hash (hashKey k) s) n →
      s % 5 = 0 → s ≤ 35 → 40 ≤ s + 5 * fuel →
      (∀ m, (hamtRemove fuel (some n) owner (hashKey k) k s).node = some m →
        WfAt m s) ∧
      (∀ P : HLeafS V → Prop, EveryLeaf P n →
        ∀ m, (hamtRemove fuel (some n) owner (hashKey k) k s).node = some m →
          EveryLeaf P m) ∧
      (∀ gfuel, 40 ≤ s + 5 * gfuel →
        (hamtRemove fuel (some n) owner (hashKey k) k s).removed =
          (getNode gfuel n (hashKey k) k s).isSome) ∧
      (∀ k2 gfuel, keyEquals k k2 = true → 40 ≤ s + 5 * gfuel →
        optGetNode gfuel (hamtRemove fuel (some n) owner (hashKey k) k s).node
          (hashKey k2) k2 s = none) ∧
      (∀ k2 gfuel, keyEquals k2 k = false → 40 ≤ s + 5 * gfuel →
        optGetNode gfuel (hamtRemove fuel (some n) owner (hashKey k) k s).node
          (hashKey k2) k2 s = getNode gfuel n (hashKey k2) k2 s) ∧
      ((hamtRemove fuel (some n) owner (hashKey k) k s).removed = false →
        (hamtRemove fuel (some n) owner (hashKey k) k s).node = some n) := by
  intro fuel
  induction fuel with
  | zero =>
    intro s n _ _ _ hs35 hfuel
    omega
  | succ f ih =>
    intro s n hwf hagree hs5 hs35 hfuel
    cases n with
    | leaf l =>
      have hlh : l.hash = hashKey l.key := by
        cases hwf with
        | leaf hlh => exact hlh
      rw [hamtRemove_leaf_eq]
      by_cases hc1 : l.hash = hashKey k ∧ keyEquals l.key k = true
      · rw [if_pos hc1]
        refine ⟨?_, ?_, ?_, ?_, ?_, ?_⟩
        · intro m hm
          exact absurd hm (by simp)
        · intro P _ m hm
          exact absurd hm (by simp)
        · intro gfuel hg
          obtain ⟨g, rfl⟩ : ∃ g, gfuel = g + 1 := ⟨gfuel - 1, by omega⟩
          rw [getNode_leaf, if_pos hc1]
          rfl
        · intro k2 gfuel _ _
          rfl
        · intro k2 gfuel hk2f hg
          obtain ⟨g, rfl⟩ : ∃ g, gfuel = g + 1 := ⟨gfuel - 1, by omega⟩
          have holdf : keyEquals l.key k2 = false :=
            keyEquals_false_of_ne_rel hc1.2 hk2f
          dsimp only [optGetNode]
          rw [getNode_leaf, if_neg (by
            rintro ⟨_, hcon⟩
            rw [holdf] at hcon
            exact absurd hcon (by decide))]
        · intro hcon
          simp at hcon
      · rw [if_neg hc1]
        refine ⟨?_, ?_, ?_, ?_, ?_, ?_⟩
        · intro m hm
          obtain rfl := Option.some_inj.mp hm
          exact WfAt.leaf hlh
        · intro P hP m hm
          obtain rfl := Option.some_inj.mp hm
          exact hP
        · intro gfuel hg
          obtain ⟨g, rfl⟩ : ∃ g, gfuel = g + 1 := ⟨gfuel - 1, by omega⟩
          rw [getNode_leaf, if_neg hc1]
          rfl
        · intro k2 gfuel hk2 hg
          obtain ⟨g, rfl⟩ : ∃ g, gfuel = g + 1 := ⟨gfuel - 1, by omega⟩
          dsimp only [optGetNode]
          rw [getNode_leaf, if_neg (by
            rintro ⟨hh2, hcon⟩
            apply hc1
            constructor
            · rw [hh2, ← keyEquals_hash_eq hk2]
            · have hsym : keyEquals k2 k = true := by
                rw [keyEquals_symm]
                exact hk2
              exact keyEquals_trans hcon hsym)]
        · intro k2 gfuel hk2f hg
          rfl
        · intro _
          rfl
    | collision es =>
      have heshash : ∀ e ∈ es, e.hash = hashKey e.key := by
        cases hwf with
        | collision h1 _ _ => exact h1
      have hespair : es.Pairwise (fun a b => keyEquals a.key b.key = false) := by
        cases hwf with
        | collision _ h2 _ => exact h2
      have heslen : 2 ≤ es.length := by
        cases hwf with
        | collision _ _ h3 => exact h3
      rw [hamtRemove_collision_eq]
      cases hfound : findLeafIdx es k with
      | none =>
        dsimp only
        have hall : ∀ e ∈ es, keyEquals e.key k = false :=
          (findLeafIdx_none_iff es k).mp hfound
        refine ⟨?_, ?_, ?_, ?_, ?_, ?_⟩
        · intro m hm
          obtain rfl := Option.some_inj.mp hm
          exact hwf
        · intro P hP m hm
          obtain rfl := Option.some_inj.mp hm
          exact hP
        · intro gfuel hg
          obtain ⟨g, rfl⟩ : ∃ g, gfuel = g + 1 := ⟨gfuel - 1, by omega⟩
          rw [getNode_collision, (findLeaf_none_iff es k).mpr hall]
          rfl
        · intro k2 gfuel hk2 hg
          obtain ⟨g, rfl⟩ : ∃ g, gfuel = g + 1 := ⟨gfuel - 1, by omega⟩
          dsimp only [optGetNode]
          rw [getNode_collision]
          have hn2 : findLeaf es k2 = none := by
            rw [← findLeaf_congr es hk2]
            exact (findLeaf_none_iff es k).mpr hall
          rw [hn2]
          rfl
        · intro k2 gfuel hk2f hg
          rfl
        · intro _
          rfl
      | some idx =>
        obtain ⟨⟨existing, hexist, hexkey⟩, hpre⟩ := findLeafIdx_some es k idx hfound
        have hidxlt : idx < es.length := (List.getElem?_eq_some_iff.mp hexist).1
        dsimp only
        rw [if_neg (by omega)]
        have hremkey : ∀ j (hj : j < es.length), j ≠ idx →
            keyEquals (es[j]).key k = false := by
          intro j hj hjne
          rcases Bool.eq_false_or_eq_true (keyEquals (es[j]).key k) with ht | ht
          · exfalso
            have hpair := List.pairwise_iff_getElem.mp hespair
            have hexeq : es[idx] = existing :=
              (List.getElem?_eq_some_iff.mp hexist).2
            have hsym : keyEquals k existing.key = true := by
              rw [keyEquals_symm]
              exact hexkey
            have hje : keyEquals (es[j]).key existing.key = true :=
              keyEquals_trans ht hsym
            rcases Nat.lt_or_ge j idx with hlt | hge
            · have hpp := hpair j idx hj hidxlt hlt
              rw [hexeq] at hpp
              rw [hje] at hpp
              exact absurd hpp (by decide)
            · have hgt : idx < j := by omega
              have hpp := hpair idx j hidxlt hj hgt
              rw [hexeq] at hpp
              have hje2 : keyEquals existing.key (es[j]).key = true := by
                rw [keyEquals_symm]
                exact hje
              rw [hje2] at hpp
              exact absurd hpp (by decide)
          · exact ht
        have hfrAll : ∀ k2 : JSKey, keyEquals k2 k = false →
            findLeaf (es.eraseIdx idx) k2 = findLeaf es k2 := by
          intro k2 hk2f
          refine findLeaf_eraseIdx es idx k2 ?_
          intro e he
          have hee : e = existing := by
            rw [hexist] at he
            exact Option.some_inj.mp he.symm
          rw [hee]
          exact keyEquals_false_of_ne_rel hexkey hk2f
        have hnoneAll : ∀ k2 : JSKey, keyEquals k k2 = true →
            findLeaf (es.eraseIdx idx) k2 = none := by
          intro k2 hk2
          refine findLeaf_eraseIdx_none es idx k2 ?_
          intro j hj hjne
          rw [← keyEquals_iff_of_equiv hk2 (es[j]).key]
          exact hremkey j hj hjne
        cases hers : es.eraseIdx idx with
        | nil =>
          exfalso
          have hlen := List.length_eraseIdx es idx
          rw [hers, if_pos hidxlt] at hlen
          simp at hlen
          omega
        | cons e0 rest =>
          cases rest with
          | nil =>
            dsimp only
            have he0 : e0 ∈ es := by
              have hsub := List.eraseIdx_sublist es idx
              rw [hers] at hsub
              exact List.Sublist.mem (by simp) hsub
            refine ⟨?_, ?_, ?_, ?_, ?_, ?_⟩
            · intro m hm
              obtain rfl := Option.some_inj.mp hm
              exact WfAt.leaf (heshash e0 he0)
            · intro P hP m hm
              obtain rfl := Option.some_inj.mp hm
              have hPes : ∀ e ∈ es, P e := by
                cases hP with
                | collision hp => exact hp
              exact .leaf (hPes e0 he0)
            · intro gfuel hg
              obtain ⟨g, rfl⟩ : ∃ g, gfuel = g + 1 := ⟨gfuel - 1, by omega⟩
              rw [getNode_collision,
                findLeaf_of_findLeafIdx es k idx existing hfound hexist]
              rfl
            · intro k2 gfuel hk2 hg
              obtain ⟨g, rfl⟩ : ∃ g, gfuel = g + 1 := ⟨gfuel - 1, by omega⟩
              have hnone := hnoneAll k2 hk2
              rw [hers] at hnone
              dsimp only [optGetNode]
              rw [getNode_leaf, if_neg (by
                rintro ⟨_, hcon⟩
                have hstep : findLeaf [e0] k2 =
                    if keyEquals e0.key k2 = true then some e0
                    else findLeaf ([] : List (HLeafS V)) k2 := rfl
                rw [hstep, hcon, if_pos rfl] at hnone
                exact absurd hnone (by simp))]
            · intro k2 gfuel hk2f hg
              obtain ⟨g, rfl⟩ : ∃ g, gfuel = g + 1 := ⟨gfuel - 1, by omega⟩
              have hfr := hfrAll k2 hk2f
              rw [hers] at hfr
              dsimp only [optGetNode]
              rw [getNode_leaf, getNode_collision, ← hfr]
              have hstep : findLeaf [e0] k2 =
                  if keyEquals e0.key k2 = true then some e0
                  else findLeaf ([] : List (HLeafS V)) k2 := rfl
              rw [hstep]
              rcases Bool.eq_false_or_eq_true (keyEquals e0.key k2) with hb | hb
              · rw [hb, if_pos rfl]
                have hhe : e0.hash = hashKey k2 := by
                  rw [heshash e0 he0]
                  exact keyEquals_hash_eq hb
                rw [if_pos ⟨hhe, rfl⟩]
                rfl
              · rw [hb, if_neg neFalseTrue,
                  if_neg (by rintro ⟨_, hcon⟩; exact absurd hcon (by decide))]
                rfl
            · intro hcon
              simp at hcon
          | cons e1 rest2 =>
            dsimp only
            have hsub := List.eraseIdx_sublist es idx
            rw [hers] at hsub
            refine ⟨?_, ?_, ?_, ?_, ?_, ?_⟩
            · intro m hm
              obtain rfl := Option.some_inj.mp hm
              refine WfAt.collision ?_ ?_ (by simp)
              · intro e he
                exact heshash e (List.Sublist.mem he hsub)
              · exact List.Pairwise.sublist hsub hespair
            · intro P hP m hm
              obtain rfl := Option.some_inj.mp hm
              have hPes : ∀ e ∈ es, P e := by
                cases hP with
                | collision hp => exact hp
              exact .collision (fun e he => hPes e (List.Sublist.mem he hsub))
            · intro gfuel hg
              obtain ⟨g, rfl⟩ : ∃ g, gfuel = g + 1 := ⟨gfuel - 1, by omega⟩
              rw [getNode_collision,
                findLeaf_of_findLeafIdx es k idx existing hfound hexist]
              rfl
            · intro k2 gfuel hk2 hg
              obtain ⟨g, rfl⟩ : ∃ g, gfuel = g + 1 := ⟨gfuel - 1, by omega⟩
              have hnone := hnoneAll k2 hk2
              rw [hers] at hnone
              dsimp only [optGetNode]
              rw [getNode_collision, hnone]
              rfl
            · intro k2 gfuel hk2f hg
              obtain ⟨g, rfl⟩ : ∃ g, gfuel = g + 1 := ⟨gfuel - 1, by omega⟩
              have hfr := hfrAll k2 hk2f
              rw [hers] at hfr
              dsimp only [optGetNode]
              rw [getNode_collision, getNode_collision, hfr]
            · intro hcon
              simp at hcon
    | node ow bm cs =>
      have hbm32 : bm < pow32 := by
        cases hwf with
        | node h1 _ _ _ _ _ => exact h1
      have hpc : popcount bm = cs.length := by
        cases hwf with
        | node _ h2 _ _ _ _ => exact h2
      have hs30 : s ≤ 30 := by
        cases hwf with
        | node _ _ h3 _ _ _ => exact h3
      have hwfslots : ∀ idx, idx < 32 → ∀ c, slot bm cs idx = some c →
          WfAt c (s + 5) := by
        cases hwf with
        | node _ _ _ _ h5 _ => exact h5
      have hchslots : ∀ idx, idx < 32 → ∀ c, slot bm cs idx = some c →
          EveryLeaf (fun l => chunk l.hash s = idx) c := by
        cases hwf with
        | node _ _ _ _ _ h6 => exact h6
      have hagreecs : ∀ c ∈ cs, EveryLeaf
          (fun l => agreeBelow l.hash (hashKey k) s) c := by
        cases hagree with
        | node h1 => exact h1
      rw [hamtRemove_node_eq]
      cases hslot : slot bm cs (chunk (hashKey k) s) with
      | none =>
        dsimp only
        refine ⟨?_, ?_, ?_, ?_, ?_, ?_⟩
        · intro m hm
          obtain rfl := Option.some_inj.mp hm
          exact hwf
        · intro P hP m hm
          obtain rfl := Option.some_inj.mp hm
          exact hP
        · intro gfuel hg
          obtain ⟨g, rfl⟩ : ∃ g, gfuel = g + 1 := ⟨gfuel - 1, by omega⟩
          rw [getNode_node_eq_slot, hslot]
          rfl
        · intro k2 gfuel hk2 hg
          obtain ⟨g, rfl⟩ : ∃ g, gfuel = g + 1 := ⟨gfuel - 1, by omega⟩
          have hh : hashKey k = hashKey k2 := keyEquals_hash_eq hk2
          dsimp only [optGetNode]
          rw [getNode_node_eq_slot]
          have hchk2 : chunk (hashKey k2) s = chunk (hashKey k) s := by
            rw [hh]
          rw [hchk2, hslot]
        · intro k2 gfuel hk2f hg
          rfl
        · intro _
          rfl
      | some child =>
        obtain ⟨htb, hgetc⟩ := slot_some_elim hslot
        have hchildmem : child ∈ cs := List.getElem?_mem hgetc
        have hwfchild : WfAt child (s + 5) :=
          hwfslots _ (chunk_lt _ _) child hslot
        have hagchild : EveryLeaf
            (fun l => agreeBelow l.hash (hashKey k) (s + 5)) child := by
          have hcomb := EveryLeaf_and (hagreecs child hchildmem)
            (hchslots _ (chunk_lt _ _) child hslot)
          refine EveryLeaf_mono ?_ hcomb
          intro l hl
          exact agreeBelow_step hl.1 hs5 hl.2
        obtain ⟨ihwf, ihev, ihrm, ihget, ihframe, ihid⟩ :=
          ih (s + 5) child hwfchild hagchild (by omega) (by omega) (by omega)
        have hpcs : popcount (bm % 2 ^ chunk (hashKey k) s) < cs.length :=
          (List.getElem?_eq_some_iff.mp hgetc).1
        dsimp only
        by_cases hrm :
            (hamtRemove f (some child) owner (hashKey k) k (s + 5)).removed = false
        · rw [if_pos hrm]
          refine ⟨?_, ?_, ?_, ?_, ?_, ?_⟩
          · intro m hm
            obtain rfl := Option.some_inj.mp hm
            exact hwf
          · intro P hP m hm
            obtain rfl := Option.some_inj.mp hm
            exact hP
          · intro gfuel hg
            obtain ⟨g, rfl⟩ : ∃ g, gfuel = g + 1 := ⟨gfuel - 1, by omega⟩
            rw [getNode_node_eq_slot, hslot]
            dsimp only
            show false = _
            rw [← ihrm g (by omega)]
            exact hrm.symm
          · intro k2 gfuel hk2 hg
            obtain ⟨g, rfl⟩ : ∃ g, gfuel = g + 1 := ⟨gfuel - 1, by omega⟩
            have hh : hashKey k = hashKey k2 := keyEquals_hash_eq hk2
            dsimp only [optGetNode]
            rw [getNode_node_eq_slot]
            have hchk2 : chunk (hashKey k2) s = chunk (hashKey k) s := by
              rw [hh]
            rw [hchk2, hslot]
            dsimp only
            have hx := ihget k2 g hk2 (by omega)
            rw [ihid hrm] at hx
            exact hx
          · intro k2 gfuel hk2f hg
            rfl
          · intro _
            rfl
        · rw [if_neg hrm]
          have hrmt :
              (hamtRemove f (some child) owner (hashKey k) k (s + 5)).removed = true := by
            rcases Bool.eq_false_or_eq_true
              (hamtRemove f (some child) owner (hashKey k) k (s + 5)).removed with hx | hx
            · exact hx
            · exact absurd hx hrm
          cases hresn : (hamtRemove f (some child) owner (hashKey k) k (s + 5)).node with
          | some resNode =>
            dsimp only
            have hwfres : WfAt resNode (s + 5) := ihwf resNode hresn
            refine ⟨?_, ?_, ?_, ?_, ?_, ?_⟩
            · intro m hm
              obtain rfl := Option.some_inj.mp hm
              refine WfAt.node hbm32 ?_ hs30 hs5 ?_ ?_
              · rw [List.length_set]
                exact hpc
              · intro idx hidx c hsl
                rw [slot_set cs _ htb hpc hbm32] at hsl
                rcases eq_or_ne idx (chunk (hashKey k) s) with hie | hie
                · rw [if_pos hie] at hsl
                  cases hsl
                  exact hwfres
                · rw [if_neg hie] at hsl
                  exact hwfslots idx hidx c hsl
              · intro idx hidx c hsl
                rw [slot_set cs _ htb hpc hbm32] at hsl
                rcases eq_or_ne idx (chunk (hashKey k) s) with hie | hie
                · rw [if_pos hie] at hsl
                  cases hsl
                  rw [hie]
                  exact ihev _ (hchslots _ (chunk_lt _ _) child hslot) resNode hresn
                · rw [if_neg hie] at hsl
                  exact hchslots idx hidx c hsl
            · intro P hP m hm
              obtain rfl := Option.some_inj.mp hm
              have hPcs : ∀ c ∈ cs, EveryLeaf P c := by
                cases hP with
                | node hp => exact hp
              refine .node ?_
              intro c hc
              rcases List.mem_or_eq_of_mem_set hc with h1 | h1
              · exact hPcs c h1
              · rw [h1]
                exact ihev P (hPcs child hchildmem) resNode hresn
            · intro gfuel hg
              obtain ⟨g, rfl⟩ : ∃ g, gfuel = g + 1 := ⟨gfuel - 1, by omega⟩
              rw [getNode_node_eq_slot, hslot]
              dsimp only
              show true = _
              rw [← ihrm g (by omega)]
              exact hrmt.symm
            · intro k2 gfuel hk2 hg
              obtain ⟨g, rfl⟩ : ∃ g, gfuel = g + 1 := ⟨gfuel - 1, by omega⟩
              have hh : hashKey k = hashKey k2 := keyEquals_hash_eq hk2
              dsimp only [optGetNode]
              rw [getNode_node_eq_slot]
              have hchk2 : chunk (hashKey k2) s = chunk (hashKey k) s := by
                rw [hh]
              rw [hchk2, slot_set cs _ htb hpc hbm32, if_pos rfl]
              dsimp only
              have hx := ihget k2 g hk2 (by omega)
              rw [hresn] at hx
              exact hx
            · intro k2 gfuel hk2f hg
              obtain ⟨g, rfl⟩ : ∃ g, gfuel = g + 1 := ⟨gfuel - 1, by omega⟩
              dsimp only [optGetNode]
              rw [getNode_node_eq_slot, getNode_node_eq_slot,
                slot_set cs _ htb hpc hbm32]
              rcases eq_or_ne (chunk (hashKey k2) s) (chunk (hashKey k) s) with hie | hie
              · rw [if_pos hie, hie, hslot]
                dsimp only
                have hx := ihframe k2 g hk2f (by omega)
                rw [hresn] at hx
                exact hx
              · rw [if_neg hie]
            · intro hcon
              simp at hcon
          | none =>
            dsimp only
            by_cases hbm0 : bm ^^^ 2 ^ chunk (hashKey k) s = 0
            · rw [if_pos hbm0]
              have hbmeq : bm = 2 ^ chunk (hashKey k) s := Nat.xor_eq_zero.mp hbm0
              refine ⟨?_, ?_, ?_, ?_, ?_, ?_⟩
              · intro m hm
                exact absurd hm (by simp)
              · intro P _ m hm
                exact absurd hm (by simp)
              · intro gfuel hg
                obtain ⟨g, rfl⟩ : ∃ g, gfuel = g + 1 := ⟨gfuel - 1, by omega⟩
                rw [getNode_node_eq_slot, hslot]
                dsimp only
                show true = _
                rw [← ihrm g (by omega)]
                exact hrmt.symm
              · intro k2 gfuel _ _
                rfl
              · intro k2 gfuel hk2f hg
                obtain ⟨g, rfl⟩ : ∃ g, gfuel = g + 1 := ⟨gfuel - 1, by omega⟩
                show (none : Option V) =
                  getNode (g + 1) (.node ow bm cs) (hashKey k2) k2 s
                rw [getNode_node_eq_slot]
                rcases eq_or_ne (chunk (hashKey k2) s) (chunk (hashKey k) s) with hie | hie
                · rw [hie, hslot]
                  dsimp only
                  have hx := ihframe k2 g hk2f (by omega)
                  rw [hresn] at hx
                  exact hx
                · have htb2 : bm.testBit (chunk (hashKey k2) s) = false := by
                    rw [hbmeq, Nat.testBit_two_pow]
                    simp [Ne.symm hie]
                  rw [slot_none_of_testBit_false cs htb2]
              · intro hcon
                simp at hcon
            · rw [if_neg hbm0]
              cases hers : cs.eraseIdx (popcount (bm % 2 ^ chunk (hashKey k) s)) with
              | nil =>
                exfalso
                have hlen := List.length_eraseIdx cs
                  (popcount (bm % 2 ^ chunk (hashKey k) s))
                rw [hers, if_pos hpcs] at hlen
                simp at hlen
                have hdrop := popcount_xor_drop hbm32 (chunk_lt (hashKey k) s) htb
                have hz : popcount (bm ^^^ 2 ^ chunk (hashKey k) s) = 0 := by omega
                exact hbm0 (popcount_eq_zero _ hz)
              | cons c0 rest =>
                cases rest with
                | cons c1 rest2 =>
                  cases c0 with
                  | leaf l0 =>
                    dsimp only
                    refine ⟨?_, ?_, ?_, ?_, ?_, ?_⟩
                    · intro m hm
                      obtain rfl := Option.some_inj.mp hm
                      refine WfAt.node (xor_lt_pow32 hbm32
                        (Nat.pow_lt_pow_right (by norm_num) (chunk_lt (hashKey k) s))) ?_ hs30 hs5 ?_ ?_
                      · have hdrop := popcount_xor_drop hbm32 (chunk_lt (hashKey k) s) htb
                        have hlen := List.length_eraseIdx cs (popcount (bm % 2 ^ chunk (hashKey k) s))
                        rw [hers, if_pos hpcs] at hlen
                        omega
                      · intro idx hidx c hsl
                        rw [← hers, slot_eraseIdx cs htb hpc hbm32] at hsl
                        rcases eq_or_ne idx (chunk (hashKey k) s) with hie | hie
                        · rw [if_pos hie] at hsl
                          exact absurd hsl (by simp)
                        · rw [if_neg hie] at hsl
                          exact hwfslots idx hidx c hsl
                      · intro idx hidx c hsl
                        rw [← hers, slot_eraseIdx cs htb hpc hbm32] at hsl
                        rcases eq_or_ne idx (chunk (hashKey k) s) with hie | hie
                        · rw [if_pos hie] at hsl
                          exact absurd hsl (by simp)
                        · rw [if_neg hie] at hsl
                          exact hchslots idx hidx c hsl
                    · intro P hP m hm
                      obtain rfl := Option.some_inj.mp hm
                      have hPcs : ∀ c ∈ cs, EveryLeaf P c := by
                        cases hP with
                        | node hp => exact hp
                      refine .node ?_
                      intro c hc
                      have hcin : c ∈ cs.eraseIdx (popcount (bm % 2 ^ chunk (hashKey k) s)) := by
                        rw [hers]
                        exact hc
                      exact hPcs c (List.Sublist.mem hcin (List.eraseIdx_sublist _ _))
                    · intro gfuel hg
                      obtain ⟨g, rfl⟩ : ∃ g, gfuel = g + 1 := ⟨gfuel - 1, by omega⟩
                      rw [getNode_node_eq_slot, hslot]
                      dsimp only
                      show true = _
                      rw [← ihrm g (by omega)]
                      exact hrmt.symm
                    · intro k2 gfuel hk2 hg
                      obtain ⟨g, rfl⟩ : ∃ g, gfuel = g + 1 := ⟨gfuel - 1, by omega⟩
                      have hh : hashKey k = hashKey k2 := keyEquals_hash_eq hk2
                      dsimp only [optGetNode]
                      rw [getNode_node_eq_slot]
                      have hchk2 : chunk (hashKey k2) s = chunk (hashKey k) s := by
                        rw [hh]
                      rw [hchk2, ← hers, slot_eraseIdx cs htb hpc hbm32, if_pos rfl]
                    · intro k2 gfuel hk2f hg
                      obtain ⟨g, rfl⟩ : ∃ g, gfuel = g + 1 := ⟨gfuel - 1, by omega⟩
                      dsimp only [optGetNode]
                      rw [getNode_node_eq_slot, getNode_node_eq_slot, ← hers,
                        slot_eraseIdx cs htb hpc hbm32]
                      rcases eq_or_ne (chunk (hashKey k2) s) (chunk (hashKey k) s) with hie | hie
                      · rw [if_pos hie, hie, hslot]
                        dsimp only
                        have hx := ihframe k2 g hk2f (by omega)
                        rw [hresn] at hx
                        exact hx
                      · rw [if_neg hie]
                    · intro hcon
                      simp at hcon
                  | collision es0 =>
                    dsimp only
                    refine ⟨?_, ?_, ?_, ?_, ?_, ?_⟩
                    · intro m hm
                      obtain rfl := Option.some_inj.mp hm
                      refine WfAt.node (xor_lt_pow32 hbm32
                        (Nat.pow_lt_pow_right (by norm_num) (chunk_lt (hashKey k) s))) ?_ hs30 hs5 ?_ ?_
                      · have hdrop := popcount_xor_drop hbm32 (chunk_lt (hashKey k) s) htb
                        have hlen := List.length_eraseIdx cs (popcount (bm % 2 ^ chunk (hashKey k) s))
                        rw [hers, if_pos hpcs] at hlen
                        omega
                      · intro idx hidx c hsl
                        rw [← hers, slot_eraseIdx cs htb hpc hbm32] at hsl
                        rcases eq_or_ne idx (chunk (hashKey k) s) with hie | hie
                        · rw [if_pos hie] at hsl
                          exact absurd hsl (by simp)
                        · rw [if_neg hie] at hsl
                          exact hwfslots idx hidx c hsl
                      · intro idx hidx c hsl
                        rw [← hers, slot_eraseIdx cs htb hpc hbm32] at hsl
                        rcases eq_or_ne idx (chunk (hashKey k) s) with hie | hie
                        · rw [if_pos hie] at hsl
                          exact absurd hsl (by simp)
                        · rw [if_neg hie] at hsl
                          exact hchslots idx hidx c hsl
                    · intro P hP m hm
                      obtain rfl := Option.some_inj.mp hm
                      have hPcs : ∀ c ∈ cs, EveryLeaf P c := by
                        cases hP with
                        | node hp => exact hp
                      refine .node ?_
                      intro c hc
                      have hcin : c ∈ cs.eraseIdx (popcount (bm % 2 ^ chunk (hashKey k) s)) := by
                        rw [hers]
                        exact hc
                      exact hPcs c (List.Sublist.mem hcin (List.eraseIdx_sublist _ _))
                    · intro gfuel hg
                      obtain ⟨g, rfl⟩ : ∃ g, gfuel = g + 1 := ⟨gfuel - 1, by omega⟩
                      rw [getNode_node_eq_slot, hslot]
                      dsimp only
                      show true = _
                      rw [← ihrm g (by omega)]
                      exact hrmt.symm
                    · intro k2 gfuel hk2 hg
                      obtain ⟨g, rfl⟩ : ∃ g, gfuel = g + 1 := ⟨gfuel - 1, by omega⟩
                      have hh : hashKey k = hashKey k2 := keyEquals_hash_eq hk2
                      dsimp only [optGetNode]
                      rw [getNode_node_eq_slot]
                      have hchk2 : chunk (hashKey k2) s = chunk (hashKey k) s := by
                        rw [hh]
                      rw [hchk2, ← hers, slot_eraseIdx cs htb hpc hbm32, if_pos rfl]
                    · intro k2 gfuel hk2f hg
                      obtain ⟨g, rfl⟩ : ∃ g, gfuel = g + 1 := ⟨gfuel - 1, by omega⟩
                      dsimp only [optGetNode]
                      rw [getNode_node_eq_slot, getNode_node_eq_slot, ← hers,
                        slot_eraseIdx cs htb hpc hbm32]
                      rcases eq_or_ne (chunk (hashKey k2) s) (chunk (hashKey k) s) with hie | hie
                      · rw [if_pos hie, hie, hslot]
                        dsimp only
                        have hx := ihframe k2 g hk2f (by omega)
                        rw [hresn] at hx
                        exact hx
                      · rw [if_neg hie]
                    · intro hcon
                      simp at hcon
                  | node owx bmx csx =>
                    dsimp only
                    refine ⟨?_, ?_, ?_, ?_, ?_, ?_⟩
                    · intro m hm
                      obtain rfl := Option.some_inj.mp hm
                      refine WfAt.node (xor_lt_pow32 hbm32
                        (Nat.pow_lt_pow_right (by norm_num) (chunk_lt (hashKey k) s))) ?_ hs30 hs5 ?_ ?_
                      · have hdrop := popcount_xor_drop hbm32 (chunk_lt (hashKey k) s) htb
                        have hlen := List.length_eraseIdx cs (popcount (bm % 2 ^ chunk (hashKey k) s))
                        rw [hers, if_pos hpcs] at hlen
                        omega
                      · intro idx hidx c hsl
                        rw [← hers, slot_eraseIdx cs htb hpc hbm32] at hsl
                        rcases eq_or_ne idx (chunk (hashKey k) s) with hie | hie
                        · rw [if_pos hie] at hsl
                          exact absurd hsl (by simp)
                        · rw [if_neg hie] at hsl
                          exact hwfslots idx hidx c hsl
                      · intro idx hidx c hsl
                        rw [← hers, slot_eraseIdx cs htb hpc hbm32] at hsl
                        rcases eq_or_ne idx (chunk (hashKey k) s) with hie | hie
                        · rw [if_pos hie] at hsl
                          exact absurd hsl (by simp)
                        · rw [if_neg hie] at hsl
                          exact hchslots idx hidx c hsl
                    · intro P hP m hm
                      obtain rfl := Option.some_inj.mp hm
                      have hPcs : ∀ c ∈ cs, EveryLeaf P c := by
                        cases hP with
                        | node hp => exact hp
                      refine .node ?_
                      intro c hc
                      have hcin : c ∈ cs.eraseIdx (popcount (bm % 2 ^ chunk (hashKey k) s)) := by
                        rw [hers]
                        exact hc
                      exact hPcs c (List.Sublist.mem hcin (List.eraseIdx_sublist _ _))
                    · intro gfuel hg
                      obtain ⟨g, rfl⟩ : ∃ g, gfuel = g + 1 := ⟨gfuel - 1, by omega⟩
                      rw [getNode_node_eq_slot, hslot]
                      dsimp only
                      show true = _
                      rw [← ihrm g (by omega)]
                      exact hrmt.symm
                    · intro k2 gfuel hk2 hg
                      obtain ⟨g, rfl⟩ : ∃ g, gfuel = g + 1 := ⟨gfuel - 1, by omega⟩
                      have hh : hashKey k = hashKey k2 := keyEquals_hash_eq hk2
                      dsimp only [optGetNode]
                      rw [getNode_node_eq_slot]
                      have hchk2 : chunk (hashKey k2) s = chunk (hashKey k) s := by
                        rw [hh]
                      rw [hchk2, ← hers, slot_eraseIdx cs htb hpc hbm32, if_pos rfl]
                    · intro k2 gfuel hk2f hg
                      obtain ⟨g, rfl⟩ : ∃ g, gfuel = g + 1 := ⟨gfuel - 1, by omega⟩
                      dsimp only [optGetNode]
                      rw [getNode_node_eq_slot, getNode_node_eq_slot, ← hers,
                        slot_eraseIdx cs htb hpc hbm32]
                      rcases eq_or_ne (chunk (hashKey k2) s) (chunk (hashKey k) s) with hie | hie
                      · rw [if_pos hie, hie, hslot]
                        dsimp only
                        have hx := ihframe k2 g hk2f (by omega)
                        rw [hresn] at hx
                        exact hx
                      · rw [if_neg hie]
                    · intro hcon
                      simp at hcon
                | nil =>
                  have hlen := List.length_eraseIdx cs
                    (popcount (bm % 2 ^ chunk (hashKey k) s))
                  rw [hers, if_pos hpcs] at hlen
                  simp at hlen
                  have hcs2 : cs.length = 2 := by omega
                  have hc0pos : (cs.eraseIdx
                      (popcount (bm % 2 ^ chunk (hashKey k) s)))[0]? = some c0 := by
                    rw [hers, List.getElem?_cons_zero]
                  obtain ⟨hb0len, hgel⟩ := List.getElem?_eq_some_iff.mp hc0pos
                  rw [List.getElem_eraseIdx] at hgel
                  have hq0ex : ∃ q0, q0 < cs.length ∧ cs[q0]? = some c0 ∧
                      q0 ≠ popcount (bm % 2 ^ chunk (hashKey k) s) := by
                    by_cases hp0 : 0 < popcount (bm % 2 ^ chunk (hashKey k) s)
                    · rw [dif_pos hp0] at hgel
                      refine ⟨0, by omega, ?_, by omega⟩
                      exact List.getElem?_eq_some_iff.mpr ⟨by omega, hgel⟩
                    · rw [dif_neg hp0] at hgel
                      refine ⟨1, by omega, ?_, by omega⟩
                      exact List.getElem?_eq_some_iff.mpr ⟨by omega, hgel⟩
                  obtain ⟨q0, hq0lt, hq0get, hq0ne⟩ := hq0ex
                  obtain ⟨idx0, hidx0lt, hb0, hpc0, hidxslot⟩ :=
                    exists_slot_eq hbm32 hpc q0 hq0lt
                  have hslot0 : slot bm cs idx0 = some c0 := by
                    rw [hidxslot, hq0get]
                  have hidx0ne : idx0 ≠ chunk (hashKey k) s := by
                    intro he
                    rw [he] at hpc0
                    exact hq0ne hpc0.symm
                  have hwfc0 : WfAt c0 (s + 5) := hwfslots idx0 hidx0lt c0 hslot0
                  have hchc0 : EveryLeaf (fun l => chunk l.hash s = idx0) c0 :=
                    hchslots idx0 hidx0lt c0 hslot0
                  have hmemc0 : c0 ∈ cs := slot_some_mem hslot0
                  have hslot_other : ∀ j, j < 32 → j ≠ chunk (hashKey k) s →
                      bm.testBit j = true → slot bm cs j = some c0 := by
                    intro j hj hjne hbj
                    have hqj : popcount (bm % 2 ^ j) < cs.length := by
                      have := popcount_lt_pow bm 32 hbm32 hbj
                      omega
                    have hqne : popcount (bm % 2 ^ j) ≠
                        popcount (bm % 2 ^ chunk (hashKey k) s) :=
                      popcount_mod_ne_of_bits_ne hbj htb hjne
                    have hqq0 : popcount (bm % 2 ^ j) = q0 := by omega
                    unfold slot
                    rw [hbj, if_pos rfl, hqq0, hq0get]
                  cases c0 with
                  | leaf l =>
                    dsimp only
                    have hlh0 : l.hash = hashKey l.key := by
                      cases hwfc0 with
                      | leaf hx => exact hx
                    have hlc : chunk l.hash s = idx0 := by
                      cases hchc0 with
                      | leaf hx => exact hx
                    refine ⟨?_, ?_, ?_, ?_, ?_, ?_⟩
                    · intro m hm
                      obtain rfl := Option.some_inj.mp hm
                      exact WfAt.leaf hlh0
                    · intro P hP m hm
                      obtain rfl := Option.some_inj.mp hm
                      have hPcs : ∀ c ∈ cs, EveryLeaf P c := by
                        cases hP with
                        | node hp => exact hp
                      exact hPcs _ hmemc0
                    · intro gfuel hg
                      obtain ⟨g, rfl⟩ : ∃ g, gfuel = g + 1 := ⟨gfuel - 1, by omega⟩
                      rw [getNode_node_eq_slot, hslot]
                      dsimp only
                      show true = _
                      rw [← ihrm g (by omega)]
                      exact hrmt.symm
                    · intro k2 gfuel hk2 hg
                      obtain ⟨g, rfl⟩ : ∃ g, gfuel = g + 1 := ⟨gfuel - 1, by omega⟩
                      have hh : hashKey k = hashKey k2 := keyEquals_hash_eq hk2
                      dsimp only [optGetNode]
                      rw [getNode_leaf, if_neg (by
                        rintro ⟨hh2, _⟩
                        apply hidx0ne
                        rw [← hlc, hh2, ← hh])]
                    · intro k2 gfuel hk2f hg
                      obtain ⟨g, rfl⟩ : ∃ g, gfuel = g + 1 := ⟨gfuel - 1, by omega⟩
                      dsimp only [optGetNode]
                      rw [getNode_node_eq_slot]
                      rcases eq_or_ne (chunk (hashKey k2) s) (chunk (hashKey k) s) with hie | hie
                      · rw [hie, hslot]
                        dsimp only
                        have hx := ihframe k2 g hk2f (by omega)
                        rw [hresn] at hx
                        rw [getNode_leaf, if_neg (by
                          rintro ⟨hh2, _⟩
                          apply hidx0ne
                          rw [← hlc, hh2, hie])]
                        exact hx
                      · cases htb2 : bm.testBit (chunk (hashKey k2) s) with
                        | false =>
                          rw [slot_none_of_testBit_false cs htb2]
                          rw [getNode_leaf, if_neg (by
                            rintro ⟨hh2, _⟩
                            have hx2 : idx0 = chunk (hashKey k2) s := by
                              rw [← hlc, hh2]
                            rw [hx2] at hb0
                            rw [htb2] at hb0
                            exact absurd hb0 (by decide))]
                        | true =>
                          rw [hslot_other (chunk (hashKey k2) s)
                            (chunk_lt (hashKey k2) s) hie htb2]
                          dsimp only
                          obtain ⟨g2, rfl⟩ : ∃ g2, g = g2 + 1 := ⟨g - 1, by omega⟩
                          rw [getNode_leaf, getNode_leaf]
                    · intro hcon
                      simp at hcon
                  | collision es2 =>
                    dsimp only
                    have hwfes2 : (∀ e ∈ es2, e.hash = hashKey e.key) ∧
                        es2.Pairwise (fun a b => keyEquals a.key b.key = false) ∧
                        2 ≤ es2.length := by
                      cases hwfc0 with
                      | collision h1 h2 h3 => exact ⟨h1, h2, h3⟩
                    have hches2 : ∀ e ∈ es2, chunk e.hash s = idx0 := by
                      cases hchc0 with
                      | collision hx => exact hx
                    have hfalse_of_chunk : ∀ k2 : JSKey, chunk (hashKey k2) s ≠ idx0 →
                        findLeaf es2 k2 = none := by
                      intro k2 hne
                      rw [findLeaf_none_iff]
                      intro e he
                      rcases Bool.eq_false_or_eq_true (keyEquals e.key k2) with htx | htx
                      · exfalso
                        apply hne
                        rw [← keyEquals_hash_eq htx, ← hwfes2.1 e he]
                        exact hches2 e he
                      · exact htx
                    refine ⟨?_, ?_, ?_, ?_, ?_, ?_⟩
                    · intro m hm
                      obtain rfl := Option.some_inj.mp hm
                      exact WfAt.collision hwfes2.1 hwfes2.2.1 hwfes2.2.2
                    · intro P hP m hm
                      obtain rfl := Option.some_inj.mp hm
                      have hPcs : ∀ c ∈ cs, EveryLeaf P c := by
                        cases hP with
                        | node hp => exact hp
                      exact hPcs _ hmemc0
                    · intro gfuel hg
                      obtain ⟨g, rfl⟩ : ∃ g, gfuel = g + 1 := ⟨gfuel - 1, by omega⟩
                      rw [getNode_node_eq_slot, hslot]
                      dsimp only
                      show true = _
                      rw [← ihrm g (by omega)]
                      exact hrmt.symm
                    · intro k2 gfuel hk2 hg
                      obtain ⟨g, rfl⟩ : ∃ g, gfuel = g + 1 := ⟨gfuel - 1, by omega⟩
                      have hh : hashKey k = hashKey k2 := keyEquals_hash_eq hk2
                      dsimp only [optGetNode]
                      rw [getNode_collision, hfalse_of_chunk k2 (by
                        rw [← hh]
                        exact fun hcon => hidx0ne hcon.symm)]
                      rfl
                    · intro k2 gfuel hk2f hg
                      obtain ⟨g, rfl⟩ : ∃ g, gfuel = g + 1 := ⟨gfuel - 1, by omega⟩
                      dsimp only [optGetNode]
                      rw [getNode_node_eq_slot]
                      rcases eq_or_ne (chunk (hashKey k2) s) (chunk (hashKey k) s) with hie | hie
                      · rw [hie, hslot]
                        dsimp only
                        have hx := ihframe k2 g hk2f (by omega)
                        rw [hresn] at hx
                        rw [getNode_collision, hfalse_of_chunk k2 (by
                          rw [hie]
                          exact fun hcon => hidx0ne hcon.symm)]
                        exact hx
                      · cases htb2 : bm.testBit (chunk (hashKey k2) s) with
                        | false =>
                          rw [slot_none_of_testBit_false cs htb2]
                          rw [getNode_collision, hfalse_of_chunk k2 (by
                            intro hcon
                            rw [← hcon] at hb0
                            rw [htb2] at hb0
                            exact absurd hb0 (by decide))]
                          rfl
                        | true =>
                          rw [hslot_other (chunk (hashKey k2) s)
                            (chunk_lt (hashKey k2) s) hie htb2]
                          dsimp only
                          obtain ⟨g2, rfl⟩ : ∃ g2, g = g2 + 1 := ⟨g - 1, by omega⟩
                          rw [getNode_collision, getNode_collision]
                    · intro hcon
                      simp at hcon
                  | node ow2 bm2 cs2 =>
                    dsimp only
                    refine ⟨?_, ?_, ?_, ?_, ?_, ?_⟩
                    · intro m hm
                      obtain rfl := Option.some_inj.mp hm
                      refine WfAt.node (xor_lt_pow32 hbm32
                        (Nat.pow_lt_pow_right (by norm_num) (chunk_lt (hashKey k) s))) ?_ hs30 hs5 ?_ ?_
                      · have hdrop := popcount_xor_drop hbm32 (chunk_lt (hashKey k) s) htb
                        have hlen := List.length_eraseIdx cs (popcount (bm % 2 ^ chunk (hashKey k) s))
                        rw [hers, if_pos hpcs] at hlen
                        omega
                      · intro idx hidx c hsl
                        rw [← hers, slot_eraseIdx cs htb hpc hbm32] at hsl
                        rcases eq_or_ne idx (chunk (hashKey k) s) with hie | hie
                        · rw [if_pos hie] at hsl
                          exact absurd hsl (by simp)
                        · rw [if_neg hie] at hsl
                          exact hwfslots idx hidx c hsl
                      · intro idx hidx c hsl
                        rw [← hers, slot_eraseIdx cs htb hpc hbm32] at hsl
                        rcases eq_or_ne idx (chunk (hashKey k) s) with hie | hie
                        · rw [if_pos hie] at hsl
                          exact absurd hsl (by simp)
                        · rw [if_neg hie] at hsl
                          exact hchslots idx hidx c hsl
                    · intro P hP m hm
                      obtain rfl := Option.some_inj.mp hm
                      have hPcs : ∀ c ∈ cs, EveryLeaf P c := by
                        cases hP with
                        | node hp => exact hp
                      refine .node ?_
                      intro c hc
                      have hcin : c ∈ cs.eraseIdx (popcount (bm % 2 ^ chunk (hashKey k) s)) := by
                        rw [hers]
                        exact hc
                      exact hPcs c (List.Sublist.mem hcin (List.eraseIdx_sublist _ _))
                    · intro gfuel hg
                      obtain ⟨g, rfl⟩ : ∃ g, gfuel = g + 1 := ⟨gfuel - 1, by omega⟩
                      rw [getNode_node_eq_slot, hslot]
                      dsimp only
                      show true = _
                      rw [← ihrm g (by omega)]
                      exact hrmt.symm
                    · intro k2 gfuel hk2 hg
                      obtain ⟨g, rfl⟩ : ∃ g, gfuel = g + 1 := ⟨gfuel - 1, by omega⟩
                      have hh : hashKey k = hashKey k2 := keyEquals_hash_eq hk2
                      dsimp only [optGetNode]
                      rw [getNode_node_eq_slot]
                      have hchk2 : chunk (hashKey k2) s = chunk (hashKey k) s := by
                        rw [hh]
                      rw [hchk2, ← hers, slot_eraseIdx cs htb hpc hbm32, if_pos rfl]
                    · intro k2 gfuel hk2f hg
                      obtain ⟨g, rfl⟩ : ∃ g, gfuel = g + 1 := ⟨gfuel - 1, by omega⟩
                      dsimp only [optGetNode]
                      rw [getNode_node_eq_slot, getNode_node_eq_slot, ← hers,
                        slot_eraseIdx cs htb hpc hbm32]
                      rcases eq_or_ne (chunk (hashKey k2) s) (chunk (hashKey k) s) with hie | hie
                      · rw [if_pos hie, hie, hslot]
                        dsimp only
                        have hx := ihframe k2 g hk2f (by omega)
                        rw [hresn] at hx
                        exact hx
                      · rw [if_neg hie]
                    · intro hcon
                      simp at hcon

/-- Well-formedness of a whole map: a present root is well-formed at shift 0. -/
def WfMap {V : Type} (m : HMap V) : Prop :=
  ∀ n, m.root = some n → WfAt n 0

/-- The maps the library can build: hamtEmpty closed under hamtSet and
hamtDelete. -/
inductive ReachableMap {V : Type} [DecidableEq V] : HMap V → Prop
  | empty : ReachableMap (hamtEmpty V)
  | set {m : HMap V} (owner : Option Nat) (k : JSKey) (v : V) :
      ReachableMap m → ReachableMap (hamtSet m owner k v)
  | del {m : HMap V} (owner : Option Nat) (k : JSKey) :
      ReachableMap m → ReachableMap (hamtDelete m owner k)

theorem hamtFuel_succ : hamtFuel = 7 + 1 := rfl

theorem hamtSet_wf {V : Type} [DecidableEq V] (m : HMap V) (owner : Option Nat)
    (k : JSKey) (v : V) (hwf : WfMap m) : WfMap (hamtSet m owner k v) := by
  intro n hn
  unfold hamtSet at hn
  cases hroot : m.root with
  | none =>
    rw [hroot] at hn
    dsimp only at hn
    have hres : hamtInsert hamtFuel (none : Option (HChild V)) owner
        (hashKey k) k v 0 = InsRes.mk (.leaf ⟨k, hashKey k, v⟩) true true := rfl
    rw [hres, if_neg (by simp)] at hn
    obtain rfl := Option.some_inj.mp hn
    exact WfAt.leaf rfl
  | some root =>
    rw [hroot] at hn
    dsimp only at hn
    obtain ⟨hwfr, _, _, _, _, _, _⟩ :=
      hamtInsert_spec owner k v hamtFuel 0 root (hwf root hroot)
        (EveryLeaf_of_true _ (fun l => agreeBelow_zero _ _) root)
        (by decide) (by decide) (by decide)
    by_cases hch :
        (hamtInsert hamtFuel (some root) owner (hashKey k) k v 0).changed = false
    · rw [if_pos hch] at hn
      exact hwf n hn
    · rw [if_neg hch] at hn
      obtain rfl := Option.some_inj.mp hn
      exact hwfr

theorem hamtDelete_wf {V : Type} (m : HMap V) (owner : Option Nat)
    (k : JSKey) (hwf : WfMap m) : WfMap (hamtDelete m owner k) := by
  intro n hn
  unfold hamtDelete at hn
  cases hroot : m.root with
  | none =>
    rw [hroot] at hn
    dsimp only at hn
    exact hwf n hn
  | some root =>
    rw [hroot] at hn
    dsimp only at hn
    obtain ⟨ihwf, _, _, _, _, _⟩ :=
      hamtRemove_spec owner k hamtFuel 0 root (hwf root hroot)
        (EveryLeaf_of_true _ (fun l => agreeBelow_zero _ _) root)
        (by decide) (by decide) (by decide)
    by_cases hrm :
        (hamtRemove hamtFuel (some root) owner (hashKey k) k 0).removed = false
    · rw [if_pos hrm] at hn
      exact hwf n hn
    · rw [if_neg hrm] at hn
      exact ihwf n hn

theorem hamtGet_eq_opt {V : Type} (m : HMap V) (k : JSKey) (hwf : WfMap m) :
    hamtGet m k = optGetNode hamtFuel m.root (hashKey k) k 0 := by
  unfold hamtGet optGetNode
  cases hroot : m.root with
  | none => rfl
  | some n =>
    cases n with
    | leaf l =>
      have hlh : l.hash = hashKey l.key := by
        cases hwf _ hroot with
        | leaf h => exact h
      show (if keyEquals l.key k = true then some l.value else none) =
        getNode hamtFuel (.leaf l) (hashKey k) k 0
      rw [hamtFuel_succ, getNode_leaf]
      rcases Bool.eq_false_or_eq_true (keyEquals l.key k) with hb | hb
      · rw [hb, if_pos rfl,
          if_pos ⟨by rw [hlh]; exact keyEquals_hash_eq hb, rfl⟩]
      · rw [hb, if_neg neFalseTrue,
          if_neg (by rintro ⟨_, hcon⟩; exact absurd hcon (by decide))]
    | collision es => rfl
    | node now nbm ncs => rfl

theorem hamtGet_hamtSet_equiv {V : Type} [DecidableEq V] (m : HMap V)
    (owner : Option Nat) (k : JSKey) (v : V) (k2 : JSKey) (hwf : WfMap m)
    (hk2 : keyEquals k k2 = true) :
    hamtGet (hamtSet m owner k v) k2 = some v := by
  rw [hamtGet_eq_opt _ _ (hamtSet_wf m owner k v hwf)]
  unfold hamtSet
  cases hroot : m.root with
  | none =>
    dsimp only
    have hres : hamtInsert hamtFuel (none : Option (HChild V)) owner
        (hashKey k) k v 0 = InsRes.mk (.leaf ⟨k, hashKey k, v⟩) true true := rfl
    rw [hres, if_neg (by simp)]
    show getNode hamtFuel (.leaf ⟨k, hashKey k, v⟩) (hashKey k2) k2 0 = some v
    rw [hamtFuel_succ, getNode_leaf, if_pos ⟨keyEquals_hash_eq hk2, hk2⟩]
  | some root =>
    dsimp only
    obtain ⟨_, _, _, hget, _, hchf, _⟩ :=
      hamtInsert_spec owner k v hamtFuel 0 root (hwf root hroot)
        (EveryLeaf_of_true _ (fun l => agreeBelow_zero _ _) root)
        (by decide) (by decide) (by decide)
    by_cases hch :
        (hamtInsert hamtFuel (some root) owner (hashKey k) k v 0).changed = false
    · rw [if_pos hch, hroot]
      show getNode hamtFuel root (hashKey k2) k2 0 = some v
      have hx := hget k2 hamtFuel hk2 (by decide)
      rw [hchf hch] at hx
      exact hx
    · rw [if_neg hch]
      show getNode hamtFuel
        (hamtInsert hamtFuel (some root) owner (hashKey k) k v 0).node
        (hashKey k2) k2 0 = some v
      exact hget k2 hamtFuel hk2 (by decide)

theorem hamtGet_hamtSet_frame {V : Type} [DecidableEq V] (m : HMap V)
    (owner : Option Nat) (k : JSKey) (v : V) (k2 : JSKey) (hwf : WfMap m)
    (hk2f : keyEquals k2 k = false) :
    hamtGet (hamtSet m owner k v) k2 = hamtGet m k2 := by
  rw [hamtGet_eq_opt _ _ (hamtSet_wf m owner k v hwf), hamtGet_eq_opt _ _ hwf]
  unfold hamtSet
  cases hroot : m.root with
  | none =>
    dsimp only
    have hres : hamtInsert hamtFuel (none : Option (HChild V)) owner
        (hashKey k) k v 0 = InsRes.mk (.leaf ⟨k, hashKey k, v⟩) true true := rfl
    rw [hres, if_neg (by simp)]
    have hnewf : keyEquals k k2 = false := keyEquals_false_symm hk2f
    show getNode hamtFuel (.leaf ⟨k, hashKey k, v⟩) (hashKey k2) k2 0 =
      optGetNode hamtFuel none (hashKey k2) k2 0
    rw [hamtFuel_succ, getNode_leaf, if_neg (by
      rintro ⟨_, hcon⟩
      rw [hnewf] at hcon
      exact absurd hcon (by decide))]
    rfl
  | some root =>
    dsimp only
    obtain ⟨_, _, _, _, hframe, _, _⟩ :=
      hamtInsert_spec owner k v hamtFuel 0 root (hwf root hroot)
        (EveryLeaf_of_true _ (fun l => agreeBelow_zero _ _) root)
        (by decide) (by decide) (by decide)
    by_cases hch :
        (hamtInsert hamtFuel (some root) owner (hashKey k) k v 0).changed = false
    · rw [if_pos hch, hroot]
    · rw [if_neg hch]
      show getNode hamtFuel
        (hamtInsert hamtFuel (some root) owner (hashKey k) k v 0).node
        (hashKey k2) k2 0 = getNode hamtFuel root (hashKey k2) k2 0
      exact hframe k2 hamtFuel hk2f (by decide)

theorem hamtSet_identity {V : Type} [DecidableEq V] (m : HMap V)
    (owner : Option Nat) (k : JSKey) (v : V) (hwf : WfMap m)
    (hval : hamtGet m k = some v) :
    hamtSet m owner k v = m := by
  unfold hamtSet
  cases hroot : m.root with
  | none =>
    exfalso
    rw [hamtGet_eq_opt m k hwf, hroot] at hval
    have hx : (none : Option V) = some v := hval
    exact absurd hx (by simp)
  | some root =>
    dsimp only
    obtain ⟨_, _, _, _, _, _, hchb⟩ :=
      hamtInsert_spec owner k v hamtFuel 0 root (hwf root hroot)
        (EveryLeaf_of_true _ (fun l => agreeBelow_zero _ _) root)
        (by decide) (by decide) (by decide)
    have hvx : getNode hamtFuel root (hashKey k) k 0 = some v := by
      rw [hamtGet_eq_opt m k hwf, hroot] at hval
      exact hval
    rw [if_pos (hchb hamtFuel (by decide) hvx)]

theorem hamtDelete_identity {V : Type} (m : HMap V) (owner : Option Nat)
    (k : JSKey) (hwf : WfMap m) (habs : hamtGet m k = none) :
    hamtDelete m owner k = m := by
  unfold hamtDelete
  cases hroot : m.root with
  | none => rfl
  | some root =>
    dsimp only
    obtain ⟨_, _, ihrm, _, _, _⟩ :=
      hamtRemove_spec owner k hamtFuel 0 root (hwf root hroot)
        (EveryLeaf_of_true _ (fun l => agreeBelow_zero _ _) root)
        (by decide) (by decide) (by decide)
    have hvx : getNode hamtFuel root (hashKey k) k 0 = none := by
      rw [hamtGet_eq_opt m k hwf, hroot] at habs
      exact habs
    have hrmf :
        (hamtRemove hamtFuel (some root) owner (hashKey k) k 0).removed = false := by
      rw [ihrm hamtFuel (by decide), hvx]
      rfl
    rw [if_pos hrmf]

theorem hamtGet_hamtDelete_equiv {V : Type} (m : HMap V) (owner : Option Nat)
    (k k2 : JSKey) (hwf : WfMap m) (hk2 : keyEquals k k2 = true) :
    hamtGet (hamtDelete m owner k) k2 = none := by
  rw [hamtGet_eq_opt _ _ (hamtDelete_wf m owner k hwf)]
  unfold hamtDelete
  cases hroot : m.root with
  | none =>
    dsimp only
    rw [hroot]
    rfl
  | some root =>
    dsimp only
    obtain ⟨_, _, _, ihget, _, ihid⟩ :=
      hamtRemove_spec owner k hamtFuel 0 root (hwf root hroot)
        (EveryLeaf_of_true _ (fun l => agreeBelow_zero _ _) root)
        (by decide) (by decide) (by decide)
    by_cases hrm :
        (hamtRemove hamtFuel (some root) owner (hashKey k) k 0).removed = false
    · rw [if_pos hrm, hroot]
      show getNode hamtFuel root (hashKey k2) k2 0 = none
      have hx := ihget k2 hamtFuel hk2 (by decide)
      rw [ihid hrm] at hx
      exact hx
    · rw [if_neg hrm]
      show optGetNode hamtFuel
        (hamtRemove hamtFuel (some root) owner (hashKey k) k 0).node
        (hashKey k2) k2 0 = none
      exact ihget k2 hamtFuel hk2 (by decide)

theorem hamtGet_hamtDelete_frame {V : Type} (m : HMap V) (owner : Option Nat)
    (k k2 : JSKey) (hwf : WfMap m) (hk2f : keyEquals k2 k = false) :
    hamtGet (hamtDelete m owner k) k2 = hamtGet m k2 := by
  rw [hamtGet_eq_opt _ _ (hamtDelete_wf m owner k hwf), hamtGet_eq_opt _ _ hwf]
  unfold hamtDelete
  cases hroot : m.root with
  | none =>
    dsimp only
    rw [hroot]
  | some root =>
    dsimp only
    obtain ⟨_, _, _, _, ihframe, _⟩ :=
      hamtRemove_spec owner k hamtFuel 0 root (hwf root hroot)
        (EveryLeaf_of_true _ (fun l => agreeBelow_zero _ _) root)
        (by decide) (by decide) (by decide)
    by_cases hrm :
        (hamtRemove hamtFuel (some root) owner (hashKey k) k 0).removed = false
    · rw [if_pos hrm, hroot]
    · rw [if_neg hrm]
      show optGetNode hamtFuel
        (hamtRemove hamtFuel (some root) owner (hashKey k) k 0).node
        (hashKey k2) k2 0 = getNode hamtFuel root (hashKey k2) k2 0
      exact ihframe k2 hamtFuel hk2f (by decide)

theorem ReachableMap_wf {V : Type} [DecidableEq V] {m : HMap V}
    (h : ReachableMap m) : WfMap m := by
  induction h with
  | empty =>
    intro n hn
    exact Option.noConfusion hn
  | set owner k v _ ih => exact hamtSet_wf _ owner k v ih
  | del owner k _ ih => exact hamtDelete_wf _ owner k ih

/-- C1: for every map built from hamtEmpty by any sequence of hamtSet and
hamtDelete, every owner, key and value, a hamtGet after hamtSet finds the
written value, and hamtGet of any key that is not equal to the written key
under keyEquals is unchanged. -/
theorem C1_get_after_set {V : Type} [DecidableEq V] (m : HMap V)
    (owner : Option Nat) (k : JSKey) (v : V) (hm : ReachableMap m) :
    hamtGet (hamtSet m owner k v) k = some v ∧
    ∀ k2, keyEquals k2 k = false →
      hamtGet (hamtSet m owner k v) k2 = hamtGet m k2 :=
  ⟨hamtGet_hamtSet_equiv m owner k v k (ReachableMap_wf hm) (keyEquals_refl k),
   fun k2 hk2 => hamtGet_hamtSet_frame m owner k v k2 (ReachableMap_wf hm) hk2⟩

theorem C1_witness :
    hamtGet (hamtSet (hamtEmpty Nat) none (.num (.int 1)) 42) (.num (.int 1)) =
      some 42 ∧
    hamtGet (hamtSet (hamtEmpty Nat) none (.num (.int 1)) 42) (.num (.int 2)) =
      hamtGet (hamtEmpty Nat) (.num (.int 2)) :=
  ⟨(C1_get_after_set (hamtEmpty Nat) none (.num (.int 1)) 42 ReachableMap.empty).1,
   (C1_get_after_set (hamtEmpty Nat) none (.num (.int 1)) 42 ReachableMap.empty).2
     (.num (.int 2)) (by decide)⟩

/-- C7: hamtSet of a value equal to the stored one returns the map unchanged,
and hamtDelete of an absent key returns the map unchanged. -/
theorem C7_identity_short_circuit {V : Type} [DecidableEq V] (m : HMap V)
    (owner : Option Nat) (k : JSKey) (v : V) (hwf : WfMap m) :
    (hamtGet m k = some v → hamtSet m owner k v = m) ∧
    (hamtGet m k = none → hamtDelete m owner k = m) :=
  ⟨hamtSet_identity m owner k v hwf, hamtDelete_identity m owner k hwf⟩

theorem C7_witness :
    hamtSet (hamtSet (hamtEmpty Nat) none (.num (.int 3)) 5) none
      (.num (.int 3)) 5 = hamtSet (hamtEmpty Nat) none (.num (.int 3)) 5 ∧
    hamtDelete (hamtSet (hamtEmpty Nat) none (.num (.int 3)) 5) none
      (.num (.int 4)) = hamtSet (hamtEmpty Nat) none (.num (.int 3)) 5 :=
  ⟨(C7_identity_short_circuit (hamtSet (hamtEmpty Nat) none (.num (.int 3)) 5)
      none (.num (.int 3)) 5
      (ReachableMap_wf (ReachableMap.set none (.num (.int 3)) 5
        ReachableMap.empty))).1 rfl,
   (C7_identity_short_circuit (hamtSet (hamtEmpty Nat) none (.num (.int 3)) 5)
      none (.num (.int 4)) 5
      (ReachableMap_wf (ReachableMap.set none (.num (.int 3)) 5
        ReachableMap.empty))).2 rfl⟩

/-- C9: +0 and -0 are the same key under keyEquals and hash identically under
hashKey; every pair of keys that are not both zero-valued numbers is compared
by Object.is; consequently a value written at -0 is found at +0. -/
theorem C9_zero_keys {V : Type} [DecidableEq V] (m : HMap V)
    (owner : Option Nat) (v : V) (hwf : WfMap m) :
    keyEquals (.num (.int 0)) (.num .negZero) = true ∧
    hashKey (.num (.int 0)) = hashKey (.num .negZero) ∧
    (∀ a b : JSKey, ¬(isZeroNum a = true ∧ isZeroNum b = true) →
      keyEquals a b = objectIs a b) ∧
    hamtGet (hamtSet m owner (.num .negZero) v) (.num (.int 0)) = some v := by
  refine ⟨by decide, by decide, ?_, ?_⟩
  · intro a b hab
    unfold keyEquals
    rw [if_neg (by
      intro hcon
      apply hab
      simpa using hcon)]
  · exact hamtGet_hamtSet_equiv m owner (.num .negZero) v (.num (.int 0)) hwf
      (by decide)

theorem C9_witness :
    keyEquals (.num (.int 0)) (.num .negZero) = true ∧
    hashKey (.num (.int 0)) = hashKey (.num .negZero) ∧
    keyEquals (JSKey.bool true) (JSKey.bool false) =
      objectIs (JSKey.bool true) (JSKey.bool false) ∧
    hamtGet (hamtSet (hamtEmpty Nat) none (.num .negZero) 9) (.num (.int 0)) =
      some 9 := by
  obtain ⟨h1, h2, h3, h4⟩ := C9_zero_keys (hamtEmpty Nat) none 9
    (fun n hn => Option.noConfusion hn)
  exact ⟨h1, h2, h3 (JSKey.bool true) (JSKey.bool false) (by decide), h4⟩

/-- Whether the root of a map is a branch node with exactly one child that is
not itself a branch: the shape the C4 sentence says never survives a delete. -/
def soloNonBranchAtRoot {V : Type} (m : HMap V) : Bool :=
  match m.root with
  | some (.node _ _ [c]) =>
    match c with
    | .node _ _ _ => false
    | _ => true
  | _ => false

/-- C4 counterexample: deleting key 0 from the reachable map holding integer
keys 0 and 6 leaves the root branch with a single leaf child. The two hashes
share their lowest 5 bits (chunk 14) and split at shift 5, so the two leaves
live in a depth-5 subnode; the removal collapses that subnode to a leaf, but
the root branch above it keeps that single leaf as its only child instead of
being collapsed as the sentence claims. -/
theorem C4_counterexample :
    ReachableMap (hamtDelete (hamtSet (hamtSet (hamtEmpty Nat) none
      (.num (.int 0)) 10) none (.num (.int 6)) 20) none (.num (.int 0))) ∧
    soloNonBranchAtRoot (hamtDelete (hamtSet (hamtSet (hamtEmpty Nat) none
      (.num (.int 0)) 10) none (.num (.int 6)) 20) none (.num (.int 0))) =
      true :=
  ⟨.del none (.num (.int 0)) (.set none (.num (.int 6)) 20
    (.set none (.num (.int 0)) 10 .empty)), by decide⟩

/-- The node hamtRemove leaves when a branch is reduced to the single child c:
the child itself when it is a leaf or collision, a branch holding it when it
is itself a branch. -/
def collapseResult {V : Type} (owner : Option Nat) (newBitmap : Nat)
    (c : HChild V) : Option (HChild V) :=
  match c with
  | .node _ _ _ => some (.node owner newBitmap [c])
  | _ => some c

/-- C4: the collapse hamtRemove actually performs is local: at the branch
whose child slot was emptied by the removal, a single remaining child
replaces the branch exactly when it is a leaf or a collision, and the branch
is kept when the remaining child is itself a branch. No collapse happens at
outer levels (the counterexample exhibits a surviving solo-child branch one
level above the collapsed one). -/
theorem C4_local_collapse {V : Type} (f : Nat) (ow owner : Option Nat)
    (bm : Nat) (cs : List (HChild V)) (k : JSKey) (s : Nat)
    (child c : HChild V)
    (hchild : slot bm cs (chunk (hashKey k) s) = some child)
    (hres : hamtRemove f (some child) owner (hashKey k) k (s + 5) =
      RmRes.mk none true)
    (hbm0 : bm ^^^ 2 ^ chunk (hashKey k) s ≠ 0)
    (hers : cs.eraseIdx (popcount (bm % 2 ^ chunk (hashKey k) s)) = [c]) :
    (hamtRemove (f + 1) (some (.node ow bm cs)) owner (hashKey k) k s).node =
      collapseResult owner (bm ^^^ 2 ^ chunk (hashKey k) s) c := by
  have hresn : (hamtRemove f (some child) owner (hashKey k) k (s + 5)).node =
      none := by
    rw [hres]
  have hresr : (hamtRemove f (some child) owner (hashKey k) k (s + 5)).removed =
      true := by
    rw [hres]
  rw [hamtRemove_node_eq, hchild]
  dsimp only
  rw [if_neg (by
    intro hcon
    rw [hresr] at hcon
    exact absurd hcon (by decide)), hresn]
  dsimp only
  rw [if_neg hbm0, hers]
  cases c with
  | leaf l => rfl
  | collision es => rfl
  | node a b d => rfl

theorem C4_local_collapse_witness :
    (hamtRemove (7 + 1) (some (HChild.node none ((1 <<< 14) ||| (1 <<< 11))
      [.leaf ⟨.num (.int 1), hashKey (.num (.int 1)), (11 : Nat)⟩,
       .leaf ⟨.num (.int 0), hashKey (.num (.int 0)), 10⟩]))
      none (hashKey (.num (.int 0))) (.num (.int 0)) 0).node =
      some (.leaf ⟨.num (.int 1), hashKey (.num (.int 1)), 11⟩) :=
  C4_local_collapse 7 none none ((1 <<< 14) ||| (1 <<< 11))
    [.leaf ⟨.num (.int 1), hashKey (.num (.int 1)), 11⟩,
     .leaf ⟨.num (.int 0), hashKey (.num (.int 0)), 10⟩]
    (.num (.int 0)) 0
    (.leaf ⟨.num (.int 0), hashKey (.num (.int 0)), 10⟩)
    (.leaf ⟨.num (.int 1), hashKey (.num (.int 1)), 11⟩)
    rfl rfl (by decide) rfl

/-- Modelled from the spec: the persistent vector vec.ts (its source file is
not under src/) as the sequence of elements it stores; count is the length.
Owner tokens only steer internal node reuse and are not observable, so the
owner argument is ignored by the model. -/
def vecPush {T : Type} (v : List T) (owner : Option Nat) (x : T) : List T :=
  v ++ [x]

/-- Modelled from the spec: vecPop returns the vector without its last
element together with the removed element; popping an empty vector returns it
unchanged with no value. -/
def vecPop {T : Type} (v : List T) (owner : Option Nat) :
    List T × Option T :=
  match v.getLast? with
  | none => (v, none)
  | some x => (v.dropLast, some x)

/-- Modelled from the spec: vecGet is positional access. -/
def vecGet {T : Type} (v : List T) (i : Nat) : Option T := v[i]?

/-- Modelled from the spec: vecAssoc replaces the element at an in-range
position. -/
def vecAssoc {T : Type} (v : List T) (owner : Option Nat) (i : Nat) (x : T) :
    List T := v.set i x

/-- Modelled from the spec: vecFromArray builds a vector holding exactly the
array's elements. -/
def vecFromArray {T : Type} (v : List T) : List T := v

theorem hamtHas_eq {V : Type} (m : HMap V) (k : JSKey) :
    hamtHas m k = (hamtGet m k).isSome := by
  unfold hamtHas hamtGet
  cases hroot : m.root with
  | none => rfl
  | some n =>
    cases n with
    | leaf l =>
      show keyEquals l.key k =
        (if keyEquals l.key k = true then some l.value else none).isSome
      rcases Bool.eq_false_or_eq_true (keyEquals l.key k) with hb | hb
      · rw [hb]
        rfl
      · rw [hb]
        rfl
    | collision es => rfl
    | node now nbm ncs => rfl

theorem hamtInsert_changed_of_added {V : Type} [DecidableEq V] :
    ∀ (fuel : Nat) (r : Option (HChild V)) (owner : Option Nat) (h : Nat)
      (k : JSKey) (v : V) (s : Nat),
      (hamtInsert fuel r owner h k v s).added = true →
      (hamtInsert fuel r owner h k v s).changed = true := by
  intro fuel
  induction fuel with
  | zero =>
    intro r owner h k v s hx
    have hx2 : false = true := hx
    exact absurd hx2 (by decide)
  | succ f ih =>
    intro r owner h k v s hx
    cases r with
    | none => rfl
    | some n =>
      cases n with
      | leaf l =>
        rw [hamtInsert_leaf_eq] at hx ⊢
        by_cases hc1 : l.hash = h ∧ keyEquals l.key k = true
        · rw [if_pos hc1] at hx
          by_cases hveq : l.value = v
          · rw [if_pos hveq] at hx
            have hx2 : false = true := hx
            exact absurd hx2 (by decide)
          · rw [if_neg hveq] at hx
            have hx2 : false = true := hx
            exact absurd hx2 (by decide)
        · rw [if_neg hc1] at hx ⊢
          by_cases hc2 : l.hash = h ∧ ¬(keyEquals l.key k = true)
          · rw [if_pos hc2]
          · rw [if_neg hc2]
      | collision es =>
        rw [hamtInsert_collision_eq] at hx ⊢
        cases hfound : findLeafIdx es k with
        | some idx =>
          rw [hfound] at hx
          dsimp only at hx
          cases hexist : es[idx]? with
          | some existing =>
            rw [hexist] at hx
            dsimp only at hx
            by_cases hveq : existing.value = v
            · rw [if_pos hveq] at hx
              have hx2 : false = true := hx
              exact absurd hx2 (by decide)
            · rw [if_neg hveq] at hx
              have hx2 : false = true := hx
              exact absurd hx2 (by decide)
          | none =>
            rw [hexist] at hx
            dsimp only at hx
            have hx2 : false = true := hx
            exact absurd hx2 (by decide)
        | none => rfl
      | node ow bm cs =>
        rw [hamtInsert_node_eq] at hx ⊢
        cases hslot : slot bm cs (chunk h s) with
        | some child =>
          rw [hslot] at hx
          dsimp only at hx ⊢
          by_cases hcond :
              (hamtInsert f (some child) owner h k v (s + 5)).changed = false ∧
              (hamtInsert f (some child) owner h k v (s + 5)).added = false
          · rw [if_pos hcond] at hx
            have hx2 : false = true := hx
            exact absurd hx2 (by decide)
          · rw [if_neg hcond]
        | none =>
          dsimp only
          rcases Bool.eq_false_or_eq_true (bm.testBit (chunk h s)) with hb | hb
          · rw [hb, if_pos rfl]
          · rw [hb, if_neg neFalseTrue]

theorem hamtSet_size {V : Type} [DecidableEq V] (m : HMap V)
    (owner : Option Nat) (k : JSKey) (v : V) (hwf : WfMap m) :
    (hamtSet m owner k v).size =
      m.size + (if hamtGet m k = none then 1 else 0) := by
  unfold hamtSet
  cases hroot : m.root with
  | none =>
    dsimp only
    have hres : hamtInsert hamtFuel (none : Option (HChild V)) owner
        (hashKey k) k v 0 = InsRes.mk (.leaf ⟨k, hashKey k, v⟩) true true := rfl
    rw [hres, if_neg (by simp)]
    have hg : hamtGet m k = none := by
      rw [hamtGet_eq_opt m k hwf, hroot]
      rfl
    rw [hg, if_pos rfl]
    rfl
  | some root =>
    dsimp only
    obtain ⟨_, _, hadd, _, _, _, hchb⟩ :=
      hamtInsert_spec owner k v hamtFuel 0 root (hwf root hroot)
        (EveryLeaf_of_true _ (fun l => agreeBelow_zero _ _) root)
        (by decide) (by decide) (by decide)
    have hg : hamtGet m k = getNode hamtFuel root (hashKey k) k 0 := by
      rw [hamtGet_eq_opt m k hwf, hroot]
      rfl
    by_cases hch :
        (hamtInsert hamtFuel (some root) owner (hashKey k) k v 0).changed = false
    · rw [if_pos hch]
      cases hlook : getNode hamtFuel root (hashKey k) k 0 with
      | some w =>
        rw [hg, hlook, if_neg (by simp)]
        rfl
      | none =>
        exfalso
        have hx := hadd hamtFuel (by decide)
        rw [hlook] at hx
        have hy : (hamtInsert hamtFuel (some root) owner (hashKey k) k v 0).added =
            true := hx
        have hz := hamtInsert_changed_of_added hamtFuel (some root) owner
          (hashKey k) k v 0 hy
        rw [hch] at hz
        exact absurd hz (by decide)
    · rw [if_neg hch]
      show m.size + (if (hamtInsert hamtFuel (some root) owner
          (hashKey k) k v 0).added = true then 1 else 0) = _
      rw [hadd hamtFuel (by decide), hg]
      cases hlook : getNode hamtFuel root (hashKey k) k 0 with
      | some w => simp
      | none => simp

theorem hamtDelete_size {V : Type} [DecidableEq V] (m : HMap V)
    (owner : Option Nat) (k : JSKey) (hwf : WfMap m) :
    (hamtDelete m owner k).size =
      m.size - (if hamtGet m k = none then 0 else 1) := by
  unfold hamtDelete
  cases hroot : m.root with
  | none =>
    dsimp only
    have hg : hamtGet m k = none := by
      rw [hamtGet_eq_opt m k hwf, hroot]
      rfl
    rw [hg, if_pos rfl]
    omega
  | some root =>
    dsimp only
    obtain ⟨_, _, ihrm, _, _, _⟩ :=
      hamtRemove_spec owner k hamtFuel 0 root (hwf root hroot)
        (EveryLeaf_of_true _ (fun l => agreeBelow_zero _ _) root)
        (by decide) (by decide) (by decide)
    have hg : hamtGet m k = getNode hamtFuel root (hashKey k) k 0 := by
      rw [hamtGet_eq_opt m k hwf, hroot]
      rfl
    cases hlook : getNode hamtFuel root (hashKey k) k 0 with
    | some w =>
      have hrm : (hamtRemove hamtFuel (some root) owner (hashKey k) k 0).removed =
          true := by
        rw [ihrm hamtFuel (by decide), hlook]
        rfl
      rw [if_neg (by rw [hrm]; exact fun hcon => absurd hcon (by decide)), hg,
        hlook, if_neg (by simp)]
    | none =>
      have hrm : (hamtRemove hamtFuel (some root) owner (hashKey k) k 0).removed =
          false := by
        rw [ihrm hamtFuel (by decide), hlook]
        rfl
      rw [if_pos hrm, hg, hlook, if_pos rfl]
      omega

/-- The numeric-index branch of the createArrayProxy set trap: indexes below
the current count are written through vecAssoc, the index equal to the count
appends through vecPush, and larger indexes are rejected with a false trap
result and an unchanged vector. -/
def arraySetIndex {T : Type} (vec : List T) (owner : Option Nat) (idx : Nat)
    (value : T) : List T × Bool :=
  if idx < vec.length then (vecAssoc vec owner idx value, true)
  else if idx = vec.length then (vecPush vec owner value, true)
  else (vec, false)

/-- C10: assigning to the index equal to the current length appends and grows
the length by exactly one; assigning beyond the length is rejected and leaves
the vector unchanged; assigning within range replaces exactly that element
and no other, keeping the length. -/
theorem C10_set_trap {T : Type} (vec : List T) (owner : Option Nat)
    (idx : Nat) (value : T) :
    (idx = vec.length →
      arraySetIndex vec owner idx value = (vec ++ [value], true) ∧
      (vec ++ [value]).length = vec.length + 1) ∧
    (vec.length < idx → arraySetIndex vec owner idx value = (vec, false)) ∧
    (idx < vec.length →
      (arraySetIndex vec owner idx value).2 = true ∧
      (arraySetIndex vec owner idx value).1.length = vec.length ∧
      (arraySetIndex vec owner idx value).1[idx]? = some value ∧
      ∀ j, j ≠ idx → (arraySetIndex vec owner idx value).1[j]? = vec[j]?) := by
  refine ⟨?_, ?_, ?_⟩
  · intro he
    unfold arraySetIndex
    rw [if_neg (by omega), if_pos he]
    exact ⟨rfl, by simp⟩
  · intro hgt
    unfold arraySetIndex
    rw [if_neg (by omega), if_neg (by omega)]
  · intro hlt
    unfold arraySetIndex
    rw [if_pos hlt]
    refine ⟨rfl, by simp [vecAssoc], ?_, ?_⟩
    · exact List.getElem?_set_self hlt
    · intro j hj
      exact List.getElem?_set_ne (Ne.symm hj)

theorem C10_witness :
    (arraySetIndex ([10, 20] : List Nat) none 2 30 = ([10, 20, 30], true) ∧
      ([10, 20] ++ [30] : List Nat).length = 3) ∧
    arraySetIndex ([10, 20] : List Nat) none 5 30 = ([10, 20], false) ∧
    ((arraySetIndex ([10, 20] : List Nat) none 0 30).2 = true ∧
      (arraySetIndex ([10, 20] : List Nat) none 0 30).1[1]? = some 20) := by
  refine ⟨?_, ?_, ?_⟩
  · obtain ⟨h1, h2⟩ := (C10_set_trap ([10, 20] : List Nat) none 2 30).1 rfl
    exact ⟨h1, h2⟩
  · exact (C10_set_trap ([10, 20] : List Nat) none 5 30).2.1 (by decide)
  · obtain ⟨h1, _, _, h4⟩ :=
      (C10_set_trap ([10, 20] : List Nat) none 0 30).2.2 (by decide)
    exact ⟨h1, h4 1 (by decide)⟩

/-- The state behind an array wrapper: the vector, whether the wrapper is a
draft, its owner token and the modified flag. -/
structure PuraArrayState (T : Type) where
  vec : List T
  isDraft : Bool
  owner : Option Nat
  modified : Bool

/-- The push method of createArrayProxy with one item: the state's vector is
replaced by the pushed one and modified is raised; the source has no isDraft
guard around this. -/
def arrayPush {T : Type} (s : PuraArrayState T) (x : T) : PuraArrayState T :=
  { s with vec := vecPush s.vec s.owner x, modified := true }

/-- The pop method of createArrayProxy: the vector always becomes the popped
one; modified is raised only when a value actually came off. -/
def arrayPop {T : Type} (s : PuraArrayState T) : PuraArrayState T × Option T :=
  let res := vecPop s.vec s.owner
  match res.2 with
  | some v => ({ s with vec := res.1, modified := true }, some v)
  | none => ({ s with vec := res.1 }, none)

/-- The state behind a map wrapper. -/
structure HMapState (V : Type) where
  map : HMap V
  isDraft : Bool
  owner : Option Nat
  modified : Bool

/-- The set method of createMapProxy on an unordered map: the state's map is
replaced and modified is raised unconditionally; no isDraft guard. -/
def mapProxySet {V : Type} [DecidableEq V] (s : HMapState V) (k : JSKey)
    (v : V) : HMapState V :=
  { s with map := hamtSet s.map s.owner k v, modified := true }

/-- The delete method of createMapProxy on an unordered map: the map always
becomes the deleted one; modified is raised when the size changed. -/
def mapProxyDelete {V : Type} (s : HMapState V) (k : JSKey) :
    HMapState V × Bool :=
  let newMap := hamtDelete s.map s.owner k
  if newMap.size = s.map.size then ({ s with map := newMap }, false)
  else ({ s with map := newMap, modified := true }, true)

/-- C2, corrected: push on an array wrapper and set on a map wrapper update
that wrapper's own state unconditionally, whether or not it is a draft; the
untouched wrappers sharing structure are unaffected because the operations
build new vectors and maps rather than editing shared nodes. -/
theorem C2_wrapper_ops_mutate {T V : Type} [DecidableEq V]
    (s : PuraArrayState T) (x : T) (sm : HMapState V) (k : JSKey) (v : V) :
    (arrayPush s x).vec = s.vec ++ [x] ∧
    (arrayPush s x).isDraft = s.isDraft ∧
    (arrayPush s x).modified = true ∧
    (arrayPush s x).vec.length = s.vec.length + 1 ∧
    (mapProxySet sm k v).map = hamtSet sm.map sm.owner k v ∧
    (mapProxySet sm k v).modified = true ∧
    (WfMap sm.map → hamtGet (mapProxySet sm k v).map k = some v) := by
  refine ⟨rfl, rfl, rfl, by simp [arrayPush, vecPush], rfl, rfl, ?_⟩
  intro hwf
  exact hamtGet_hamtSet_equiv sm.map sm.owner k v k hwf (keyEquals_refl k)

/-- C2 counterexample to the frozen sentence: a non-draft wrapper as pura
returns it, holding [1, 2], has its observable length changed from 2 to 3 by
calling push on it. -/
theorem C2_counterexample :
    (PuraArrayState.mk ([1, 2] : List Nat) false none false).isDraft = false ∧
    (PuraArrayState.mk ([1, 2] : List Nat) false none false).vec.length = 2 ∧
    (arrayPush (PuraArrayState.mk ([1, 2] : List Nat) false none false)
      5).vec.length = 3 :=
  ⟨rfl, rfl, rfl⟩

theorem C2_witness :
    (arrayPush (PuraArrayState.mk ([7] : List Nat) false none false) 8).vec =
      [7, 8] ∧
    hamtGet (mapProxySet (HMapState.mk (hamtEmpty Nat) false none false)
      (.num (.int 2)) 6).map (.num (.int 2)) = some 6 := by
  obtain ⟨h1, _, _, _, _, _, h7⟩ :=
    C2_wrapper_ops_mutate (PuraArrayState.mk ([7] : List Nat) false none false)
      8 (HMapState.mk (hamtEmpty Nat) false none false) (.num (.int 2)) 6
  exact ⟨h1, h7 (fun n hn => Option.noConfusion hn)⟩

/-- The mutating operations a recipe can invoke on an array draft, plus a
thrown error; reads do not change the draft state and are not represented. -/
inductive ArrayOp (T : Type) where
  | push : T → ArrayOp T
  | pop : ArrayOp T
  | setIdx : Nat → T → ArrayOp T
  | throwErr : Nat → ArrayOp T

/-- Running a recipe body over the array draft state; a thrown error aborts
the run, mirroring the absence of any try/catch in produceArray. -/
def runArrayOps {T : Type} : PuraArrayState T → List (ArrayOp T) →
    Except Nat (PuraArrayState T)
  | s, [] => .ok s
  | s, .push x :: rest => runArrayOps (arrayPush s x) rest
  | s, .pop :: rest => runArrayOps (arrayPop s).1 rest
  | s, .setIdx i x :: rest =>
    runArrayOps
      (if (arraySetIndex s.vec s.owner i x).2 = true then
        { s with vec := (arraySetIndex s.vec s.owner i x).1, modified := true }
      else s) rest
  | _, .throwErr e :: _ => .error e

/-- produceArray: run the recipe on a fresh draft over the base vector and
return the base itself when the draft was never modified. The draft's nested
value proxies are not represented; an uncaught recipe error propagates. -/
def produceArray {T : Type} (base : List T) (ops : List (ArrayOp T)) :
    Except Nat (List T) :=
  match runArrayOps ⟨base, true, some 0, false⟩ ops with
  | .error e => .error e
  | .ok d => .ok (if d.modified = false then base else d.vec)

/-- The mutating operations a recipe can invoke on a map draft, plus a thrown
error. -/
inductive MapOp (V : Type) where
  | set : JSKey → V → MapOp V
  | del : JSKey → MapOp V
  | throwErr : Nat → MapOp V

/-- Running a recipe body over the map draft state. -/
def runMapOps {V : Type} [DecidableEq V] : HMapState V → List (MapOp V) →
    Except Nat (HMapState V)
  | s, [] => .ok s
  | s, .set k v :: rest => runMapOps (mapProxySet s k v) rest
  | s, .del k :: rest => runMapOps (mapProxyDelete s k).1 rest
  | _, .throwErr e :: _ => .error e

/-- produceMap: run the recipe on a fresh draft over the base map and return
the base itself when the draft was never modified; errors propagate. -/
def produceMap {V : Type} [DecidableEq V] (base : HMap V)
    (ops : List (MapOp V)) : Except Nat (HMap V) :=
  match runMapOps ⟨base, true, some 0, false⟩ ops with
  | .error e => .error e
  | .ok d => .ok (if d.modified = false then base else d.map)

/-- The add method of createSetProxy: the source compares the new map against
the old one by reference, which distinguishes exactly the hamtSet
short-circuit (changed = false returns the map object itself), so the model
branches on that flag; modified is raised only when the value was absent. -/
def setProxyAdd (s : HMapState Bool) (k : JSKey) : HMapState Bool :=
  let had := hamtHas s.map k
  let newMap := hamtSet s.map s.owner k true
  if (hamtInsert hamtFuel s.map.root s.owner (hashKey k) k true 0).changed =
      false then s
  else { s with map := newMap, modified := if had then s.modified else true }

/-- The mutating operations a recipe can invoke on a set draft. -/
inductive SetOp where
  | add : JSKey → SetOp
  | del : JSKey → SetOp
  | throwErr : Nat → SetOp

/-- Running a recipe body over the set draft state (the set wrapper stores a
map to true). -/
def runSetOps : HMapState Bool → List SetOp → Except Nat (HMapState Bool)
  | s, [] => .ok s
  | s, .add k :: rest => runSetOps (setProxyAdd s k) rest
  | s, .del k :: rest => runSetOps (mapProxyDelete s k).1 rest
  | _, .throwErr e :: _ => .error e

/-- produceSet, as produceMap. -/
def produceSet (base : HMap Bool) (ops : List SetOp) :
    Except Nat (HMap Bool) :=
  match runSetOps ⟨base, true, some 0, false⟩ ops with
  | .error e => .error e
  | .ok d => .ok (if d.modified = false then base else d.map)

/-- Assignment into the plain-object model (an association list keyed by
field tag). -/
def objAssign (o : List (Nat × Nat)) (f v : Nat) : List (Nat × Nat) :=
  (f, v) :: o.filter (fun p => p.1 ≠ f)

/-- The draft state createNestedProxy keeps for a plain object: the base and
the lazily created copy. Child proxies are not represented. -/
structure NestedDraft where
  base : List (Nat × Nat)
  copy : Option (List (Nat × Nat))

/-- The mutating operations a recipe can invoke on an object draft. -/
inductive ObjOp where
  | setField : Nat → Nat → ObjOp
  | throwErr : Nat → ObjOp

/-- Running a recipe body over the object draft: the first write creates the
copy, later writes update it. -/
def runObjOps : NestedDraft → List ObjOp → Except Nat NestedDraft
  | d, [] => .ok d
  | d, .setField f v :: rest =>
    runObjOps ⟨d.base, some (objAssign ((d.copy).getD d.base) f v)⟩ rest
  | _, .throwErr e :: _ => .error e

/-- isProxyModified on the modelled object draft: a copy exists. -/
def isProxyModifiedModel (d : NestedDraft) : Bool := (d.copy).isSome

/-- produceObject: run the recipe on a nested-proxy draft and return the base
itself when the draft was never modified. -/
def produceObject (base : List (Nat × Nat)) (ops : List ObjOp) :
    Except Nat (List (Nat × Nat)) :=
  match runObjOps ⟨base, none⟩ ops with
  | .error e => .error e
  | .ok d =>
    .ok (if isProxyModifiedModel d = false then base else (d.copy).getD d.base)

/-- produce on a non-aggregate base: the recipe is called (it can only throw)
and the base itself is returned. -/
def produceScalar {T : Type} (base : T) (thrown : Option Nat) :
    Except Nat T :=
  match thrown with
  | some e => .error e
  | none => .ok base

/-- C3: for every supported kind of base, a recipe that performs no mutation
leaves produce returning the base itself; for arrays this holds for any
recipe whose run ends with the modified flag still clear (for example pop on
an empty draft), not only the empty recipe. -/
theorem C3_no_mutation_identity {T V : Type} [DecidableEq V] (baseA : List T)
    (baseM : HMap V) (baseS : HMap Bool) (baseO : List (Nat × Nat)) (baseP : T)
    (opsA : List (ArrayOp T)) (d : PuraArrayState T) :
    produceArray baseA [] = .ok baseA ∧
    (runArrayOps ⟨baseA, true, some 0, false⟩ opsA = .ok d →
      d.modified = false → produceArray baseA opsA = .ok baseA) ∧
    produceMap baseM [] = .ok baseM ∧
    produceSet baseS [] = .ok baseS ∧
    produceObject baseO [] = .ok baseO ∧
    produceScalar baseP none = .ok baseP := by
  refine ⟨rfl, ?_, rfl, rfl, rfl, rfl⟩
  intro h hmod
  unfold produceArray
  rw [h]
  dsimp only
  rw [hmod, if_pos rfl]

theorem C3_witness :
    produceArray ([1, 2] : List Nat) [] = .ok [1, 2] ∧
    produceArray ([] : List Nat) [.pop] = .ok [] ∧
    produceMap (hamtEmpty Nat) [] = .ok (hamtEmpty Nat) ∧
    produceObject [(1, 5)] [] = .ok [(1, 5)] := by
  obtain ⟨h1, h2, h3, _, h5, _⟩ :=
    C3_no_mutation_identity ([1, 2] : List Nat) (hamtEmpty Nat)
      (hamtEmpty Bool) [(1, 5)] 0 ([] : List (ArrayOp Nat))
      (⟨[1, 2], true, some 0, false⟩ : PuraArrayState Nat)
  obtain ⟨_, h2b, _, _, _, _⟩ :=
    C3_no_mutation_identity ([] : List Nat) (hamtEmpty Nat)
      (hamtEmpty Bool) [(1, 5)] 0 [ArrayOp.pop]
      (⟨[], true, some 0, false⟩ : PuraArrayState Nat)
  exact ⟨h1, h2b rfl rfl, h3, h5⟩

theorem runArrayOps_append {T : Type} :
    ∀ (l1 : List (ArrayOp T)) (s : PuraArrayState T) (l2 : List (ArrayOp T)),
    runArrayOps s (l1 ++ l2) =
      match runArrayOps s l1 with
      | .ok d => runArrayOps d l2
      | .error e => .error e := by
  intro l1
  induction l1 with
  | nil => intro s l2; rfl
  | cons op rest ih =>
    intro s l2
    cases op with
    | push x => exact ih (arrayPush s x) l2
    | pop => exact ih (arrayPop s).1 l2
    | setIdx i x => exact ih _ l2
    | throwErr e => rfl

theorem runMapOps_append {V : Type} [DecidableEq V] :
    ∀ (l1 : List (MapOp V)) (s : HMapState V) (l2 : List (MapOp V)),
    runMapOps s (l1 ++ l2) =
      match runMapOps s l1 with
      | .ok d => runMapOps d l2
      | .error e => .error e := by
  intro l1
  induction l1 with
  | nil => intro s l2; rfl
  | cons op rest ih =>
    intro s l2
    cases op with
    | set k v => exact ih (mapProxySet s k v) l2
    | del k => exact ih (mapProxyDelete s k).1 l2
    | throwErr e => rfl

/-- C8: a recipe that throws makes produce propagate exactly that error: the
run aborts at the throw, no new value is returned, and the base value used to
build the draft is untouched because every executed operation rebuilt the
draft state rather than the base. -/
theorem C8_recipe_throw {T V : Type} [DecidableEq V] (base : List T)
    (baseM : HMap V) (pre : List (ArrayOp T)) (preM : List (MapOp V))
    (e : Nat) (post : List (ArrayOp T)) (postM : List (MapOp V))
    (d : PuraArrayState T) (dM : HMapState V) :
    (runArrayOps ⟨base, true, some 0, false⟩ pre = .ok d →
      produceArray base (pre ++ .throwErr e :: post) = .error e) ∧
    (runMapOps ⟨baseM, true, some 0, false⟩ preM = .ok dM →
      produceMap baseM (preM ++ .throwErr e :: postM) = .error e) := by
  constructor
  · intro h
    unfold produceArray
    rw [runArrayOps_append, h]
    rfl
  · intro h
    unfold produceMap
    rw [runMapOps_append, h]
    rfl

theorem C8_witness :
    produceArray ([0] : List Nat) [.push 1, .throwErr 42, .push 2] =
      .error 42 ∧
    produceMap (hamtEmpty Nat) [.set (.num (.int 1)) 3, .throwErr 7] =
      .error 7 := by
  obtain ⟨h1, _⟩ :=
    C8_recipe_throw ([0] : List Nat) (hamtEmpty Nat) [ArrayOp.push 1]
      [MapOp.set (.num (.int 1)) 3] 42 [ArrayOp.push 2] []
      ⟨[0, 1], true, some 0, true⟩
      ⟨hamtSet (hamtEmpty Nat) (some 0) (.num (.int 1)) 3, true, some 0, true⟩
  refine ⟨h1 rfl, ?_⟩
  obtain ⟨_, h2b⟩ :=
    C8_recipe_throw ([0] : List Nat) (hamtEmpty Nat) [ArrayOp.push 1]
      [MapOp.set (.num (.int 1)) 3] 7 [ArrayOp.push 2] []
      ⟨[0, 1], true, some 0, true⟩
      ⟨hamtSet (hamtEmpty Nat) (some 0) (.num (.int 1)) 3, true, some 0, true⟩
  exact h2b rfl

theorem getNode_congr_equiv {V : Type} {k k2 : JSKey}
    (hk : keyEquals k k2 = true) :
    ∀ (fuel : Nat) (n : HChild V) (s : Nat),
      getNode fuel n (hashKey k) k s = getNode fuel n (hashKey k2) k2 s := by
  have hh : hashKey k = hashKey k2 := keyEquals_hash_eq hk
  intro fuel
  induction fuel with
  | zero => intro n s; rfl
  | succ f ih =>
    intro n s
    cases n with
    | leaf l =>
      rw [getNode_leaf, getNode_leaf, hh, keyEquals_iff_of_equiv hk l.key]
    | collision es =>
      rw [getNode_collision, getNode_collision, findLeaf_congr es hk]
    | node ow bm cs =>
      rw [getNode_node_eq_slot, getNode_node_eq_slot]
      have hch : chunk (hashKey k) s = chunk (hashKey k2) s := by
        rw [hh]
      rw [hch]
      cases hslot : slot bm cs (chunk (hashKey k2) s) with
      | none => rfl
      | some child =>
        dsimp only
        exact ih child (s + 5)

theorem hamtGet_congr_equiv {V : Type} (m : HMap V) {k k2 : JSKey}
    (hwf : WfMap m) (hk : keyEquals k k2 = true) :
    hamtGet m k = hamtGet m k2 := by
  rw [hamtGet_eq_opt m k hwf, hamtGet_eq_opt m k2 hwf]
  cases hroot : m.root with
  | none => rfl
  | some root =>
    show getNode hamtFuel root (hashKey k) k 0 =
      getNode hamtFuel root (hashKey k2) k2 0
    exact getNode_congr_equiv hk hamtFuel root 0

/-- The DELETED marker of order.ts is rendered by Option: none is DELETED.
OrderIndex from order.ts (the source is kept in src/OPTIMIZATION_ANALYSIS.md);
its two vectors use the list model of vec.ts. -/
structure OrderIndex (V : Type) where
  next : Nat
  keyToIdx : HMap Nat
  idxToKey : List (Option JSKey)
  idxToVal : Option (List (Option V))
  holes : Nat

/-- orderEmpty from order.ts; no idxToVal field. -/
def orderEmpty (V : Type) : OrderIndex V :=
  ⟨0, hamtEmpty Nat, [], none, 0⟩

/-- orderAppend from order.ts; the built record carries no idxToVal field. -/
def orderAppend {V : Type} (ord : OrderIndex V) (owner : Option Nat)
    (key : JSKey) : OrderIndex V :=
  ⟨ord.next + 1, hamtSet ord.keyToIdx owner key ord.next,
    vecPush ord.idxToKey owner (some key), none, ord.holes⟩

/-- orderAppendWithValue from order.ts. -/
def orderAppendWithValue {V : Type} (ord : OrderIndex V) (owner : Option Nat)
    (key : JSKey) (value : V) : OrderIndex V :=
  ⟨ord.next + 1, hamtSet ord.keyToIdx owner key ord.next,
    vecPush ord.idxToKey owner (some key),
    (ord.idxToVal).map (fun vs => vecPush vs owner (some value)), ord.holes⟩

/-- orderUpdateValue from order.ts. -/
def orderUpdateValue {V : Type} (ord : OrderIndex V) (owner : Option Nat)
    (key : JSKey) (value : V) : OrderIndex V :=
  match ord.idxToVal with
  | none => ord
  | some vs =>
    match hamtGet ord.keyToIdx key with
    | none => ord
    | some idx =>
      ⟨ord.next, ord.keyToIdx, ord.idxToKey,
        some (vecAssoc vs owner idx (some value)), ord.holes⟩

/-- The incremental rebuild of keyToIdx inside orderCompact's loop. -/
def keyToIdxOf (owner : Option Nat) : List JSKey → Nat → HMap Nat → HMap Nat
  | [], _, acc => acc
  | k :: rest, startIdx, acc =>
    keyToIdxOf owner rest (startIdx + 1) (hamtSet acc owner k startIdx)

/-- orderCompact from order.ts: the single pass over the positions that skips
DELETED slots and renumbers the survivors is rendered as a filter of the
position list. -/
def orderCompact {V : Type} (ord : OrderIndex V) (owner : Option Nat) :
    OrderIndex V :=
  if ord.holes = 0 then ord
  else
    let newKeys := ord.idxToKey.filterMap id
    let newVals := (ord.idxToVal).map (fun vs =>
      (List.zip ord.idxToKey vs).filterMap
        (fun p => if p.1.isSome = true then some p.2 else none))
    ⟨newKeys.length, keyToIdxOf owner newKeys 0 (hamtEmpty Nat),
      newKeys.map some, newVals, 0⟩

/-- The record orderDelete builds for a present key before the compaction
check. -/
def rawDelete {V : Type} (ord : OrderIndex V) (owner : Option Nat)
    (k : JSKey) (idx : Nat) : OrderIndex V :=
  ⟨ord.next, hamtDelete ord.keyToIdx owner k,
    vecAssoc ord.idxToKey owner idx none,
    (ord.idxToVal).map (fun vs => vecAssoc vs owner idx none),
    ord.holes + 1⟩

/-- orderDelete from order.ts. The threshold newHoles > next * 0.5 with the
exact double 0.5 is the integer condition 2 * newHoles > next. -/
def orderDelete {V : Type} (ord : OrderIndex V) (owner : Option Nat)
    (k : JSKey) : OrderIndex V :=
  match hamtGet ord.keyToIdx k with
  | none => ord
  | some idx =>
    let result := rawDelete ord owner k idx
    if 2 * (ord.holes + 1) > ord.next ∧ 32 < ord.next then
      orderCompact result owner
    else result

/-- orderIter from order.ts: the live keys in slot order. -/
def orderIterModel {V : Type} (ord : OrderIndex V) : List JSKey :=
  (ord.idxToKey).filterMap id

/-- orderEntryIter from order.ts: walk the key and value vectors in step and
yield the pairs at live key slots; the yielded raw value keeps its Option so
the source's cast of a value slot is visible. -/
def liveEntries {V : Type} : List (Option JSKey) → List (Option V) →
    List (JSKey × Option V)
  | some k :: ks, v :: vs => (k, v) :: liveEntries ks vs
  | none :: ks, _ :: vs => liveEntries ks vs
  | _, _ => []

/-- The specification-level entry list of an ordered map: set updates the
value of the first entry with an equal key in place and otherwise appends. -/
def specSet {V : Type} : List (JSKey × V) → JSKey → V → List (JSKey × V)
  | [], k, v => [(k, v)]
  | (k0, v0) :: rest, k, v =>
    if keyEquals k0 k = true then (k0, v) :: rest
    else (k0, v0) :: specSet rest k v

/-- The specification-level delete: the first entry with an equal key is
dropped. -/
def specDelete {V : Type} : List (JSKey × V) → JSKey → List (JSKey × V)
  | [], _ => []
  | (k0, v0) :: rest, k =>
    if keyEquals k0 k = true then rest else (k0, v0) :: specDelete rest k

/-- The specification-level lookup. -/
def specLookup {V : Type} : List (JSKey × V) → JSKey → Option V
  | [], _ => none
  | (k0, v0) :: rest, k =>
    if keyEquals k0 k = true then some v0 else specLookup rest k

theorem specLookup_congr {V : Type} {k k2 : JSKey}
    (hk : keyEquals k k2 = true) :
    ∀ es : List (JSKey × V), specLookup es k = specLookup es k2 := by
  intro es
  induction es with
  | nil => rfl
  | cons e rest ih =>
    show (if keyEquals e.1 k = true then some e.2 else specLookup rest k) =
      (if keyEquals e.1 k2 = true then some e.2 else specLookup rest k2)
    rw [keyEquals_iff_of_equiv hk e.1, ih]

theorem specLookup_none_iff {V : Type} (k : JSKey) :
    ∀ es : List (JSKey × V),
      specLookup es k = none ↔ ∀ e ∈ es, keyEquals e.1 k = false := by
  intro es
  induction es with
  | nil => simp [specLookup]
  | cons e rest ih =>
    show (if keyEquals e.1 k = true then some e.2 else specLookup rest k) =
        none ↔ _
    rcases Bool.eq_false_or_eq_true (keyEquals e.1 k) with hb | hb
    · rw [hb, if_pos rfl]
      simp [hb]
    · rw [hb, if_neg neFalseTrue, ih]
      simp [hb]

theorem specSet_absent {V : Type} (k : JSKey) (v : V) :
    ∀ es : List (JSKey × V), specLookup es k = none →
      specSet es k v = es ++ [(k, v)] := by
  intro es
  induction es with
  | nil => intro _; rfl
  | cons e rest ih =>
    intro h
    have hall := (specLookup_none_iff k (e :: rest)).mp h
    have he : keyEquals e.1 k = false := hall e (by simp)
    show (if keyEquals e.1 k = true then (e.1, v) :: rest
      else (e.1, e.2) :: specSet rest k v) = _
    rw [he, if_neg neFalseTrue, ih ((specLookup_none_iff k rest).mpr
      (fun x hx => hall x (by simp [hx])))]
    rfl

theorem specDelete_absent {V : Type} (k : JSKey) :
    ∀ es : List (JSKey × V), specLookup es k = none →
      specDelete es k = es := by
  intro es
  induction es with
  | nil => intro _; rfl
  | cons e rest ih =>
    intro h
    have hall := (specLookup_none_iff k (e :: rest)).mp h
    have he : keyEquals e.1 k = false := hall e (by simp)
    show (if keyEquals e.1 k = true then rest
      else (e.1, e.2) :: specDelete rest k) = _
    rw [he, if_neg neFalseTrue, ih ((specLookup_none_iff k rest).mpr
      (fun x hx => hall x (by simp [hx])))]

theorem specSet_at {V : Type} (k : JSKey) (v : V) :
    ∀ (es : List (JSKey × V)) (p : Nat) (k0 : JSKey) (v0 : V),
      es[p]? = some (k0, v0) → keyEquals k0 k = true →
      (∀ q, q < p → ∀ e, es[q]? = some e → keyEquals e.1 k = false) →
      specSet es k v = es.set p (k0, v) := by
  intro es
  induction es with
  | nil =>
    intro p k0 v0 hp
    simp at hp
  | cons e rest ih =>
    intro p k0 v0 hp hk0 hpre
    cases p with
    | zero =>
      have he : e = (k0, v0) := by simpa using hp
      subst he
      show (if keyEquals k0 k = true then (k0, v) :: rest
        else (k0, v0) :: specSet rest k v) = _
      rw [hk0, if_pos rfl]
      rfl
    | succ m =>
      have he : keyEquals e.1 k = false := hpre 0 (by omega) e List.getElem?_cons_zero
      show (if keyEquals e.1 k = true then (e.1, v) :: rest
        else (e.1, e.2) :: specSet rest k v) = _
      rw [he, if_neg neFalseTrue,
        ih m k0 v0 (by simpa using hp) hk0
          (fun q hq x hx => hpre (q + 1) (by omega) x (by simpa using hx))]
      rfl

theorem specDelete_at {V : Type} (k : JSKey) :
    ∀ (es : List (JSKey × V)) (p : Nat) (k0 : JSKey) (v0 : V),
      es[p]? = some (k0, v0) → keyEquals k0 k = true →
      (∀ q, q < p → ∀ e, es[q]? = some e → keyEquals e.1 k = false) →
      specDelete es k = es.eraseIdx p := by
  intro es
  induction es with
  | nil =>
    intro p k0 v0 hp
    simp at hp
  | cons e rest ih =>
    intro p k0 v0 hp hk0 hpre
    cases p with
    | zero =>
      have he : e = (k0, v0) := by simpa using hp
      subst he
      show (if keyEquals k0 k = true then rest
        else (k0, v0) :: specDelete rest k) = _
      rw [hk0, if_pos rfl]
      rfl
    | succ m =>
      have he : keyEquals e.1 k = false := hpre 0 (by omega) e List.getElem?_cons_zero
      show (if keyEquals e.1 k = true then rest
        else (e.1, e.2) :: specDelete rest k) = _
      rw [he, if_neg neFalseTrue,
        ih m k0 v0 (by simpa using hp) hk0
          (fun q hq x hx => hpre (q + 1) (by omega) x (by simpa using hx))]
      rfl

theorem specLookup_at {V : Type} (k : JSKey) :
    ∀ (es : List (JSKey × V)) (p : Nat) (k0 : JSKey) (v0 : V),
      es[p]? = some (k0, v0) → keyEquals k0 k = true →
      (∀ q, q < p → ∀ e, es[q]? = some e → keyEquals e.1 k = false) →
      specLookup es k = some v0 := by
  intro es
  induction es with
  | nil =>
    intro p k0 v0 hp
    simp at hp
  | cons e rest ih =>
    intro p k0 v0 hp hk0 hpre
    cases p with
    | zero =>
      have he : e = (k0, v0) := by simpa using hp
      subst he
      show (if keyEquals k0 k = true then some v0 else specLookup rest k) = _
      rw [hk0, if_pos rfl]
    | succ m =>
      have he : keyEquals e.1 k = false := hpre 0 (by omega) e List.getElem?_cons_zero
      show (if keyEquals e.1 k = true then some e.2 else specLookup rest k) = _
      rw [he, if_neg neFalseTrue,
        ih m k0 v0 (by simpa using hp) hk0
          (fun q hq x hx => hpre (q + 1) (by omega) x (by simpa using hx))]

theorem specLookup_specSet {V : Type} (k : JSKey) (v : V) (k2 : JSKey) :
    ∀ es : List (JSKey × V),
      specLookup (specSet es k v) k2 =
        if keyEquals k k2 = true then some v else specLookup es k2 := by
  intro es
  induction es with
  | nil => rfl
  | cons e rest ih =>
    obtain ⟨k0, v0⟩ := e
    show specLookup (if keyEquals k0 k = true then (k0, v) :: rest
      else (k0, v0) :: specSet rest k v) k2 = _
    rcases Bool.eq_false_or_eq_true (keyEquals k0 k) with h0 | h0
    · rw [h0, if_pos rfl]
      show (if keyEquals k0 k2 = true then some v else specLookup rest k2) = _
      have h02 : keyEquals k0 k2 = keyEquals k k2 := by
        have hk0 : keyEquals k k0 = true := by
          rw [keyEquals_symm]; exact h0
        rw [keyEquals_symm k0 k2, keyEquals_symm k k2]
        exact (keyEquals_iff_of_equiv hk0 k2).symm
      rcases Bool.eq_false_or_eq_true (keyEquals k k2) with h | h
      · rw [h] at h02
        rw [h02, h, if_pos rfl, if_pos rfl]
      · rw [h] at h02
        rw [h02, h, if_neg neFalseTrue, if_neg neFalseTrue]
        show _ = if keyEquals k0 k2 = true then some v0 else specLookup rest k2
        rw [h02, if_neg neFalseTrue]
    · rw [h0, if_neg neFalseTrue]
      show (if keyEquals k0 k2 = true then some v0
        else specLookup (specSet rest k v) k2) = _
      rw [ih]
      rcases Bool.eq_false_or_eq_true (keyEquals k0 k2) with h2 | h2
      · have hk2 : keyEquals k k2 = false := by
          rcases Bool.eq_false_or_eq_true (keyEquals k k2) with h | h
          · have hk0 : keyEquals k0 k2 = keyEquals k0 k :=
              (keyEquals_iff_of_equiv h k0).symm
            rw [h2, h0] at hk0
            exact absurd hk0 (by decide)
          · exact h
        rw [h2, if_pos rfl, hk2, if_neg neFalseTrue]
        show _ = if keyEquals k0 k2 = true then some v0 else specLookup rest k2
        rw [h2, if_pos rfl]
      · rw [h2, if_neg neFalseTrue]
        show _ = if keyEquals k k2 = true then some v
          else if keyEquals k0 k2 = true then some v0 else specLookup rest k2
        rw [h2, if_neg neFalseTrue]

theorem mem_specSet_key {V : Type} (k : JSKey) (v : V) :
    ∀ (es : List (JSKey × V)) (e : JSKey × V), e ∈ specSet es k v →
      e.1 ∈ es.map Prod.fst ∨ e.1 = k := by
  intro es
  induction es with
  | nil =>
    intro e he
    right
    have he2 : e ∈ [(k, v)] := he
    have : e = (k, v) := by simpa using he2
    rw [this]
  | cons x rest ih =>
    obtain ⟨k0, v0⟩ := x
    intro e he
    have he3 : e ∈ (if keyEquals k0 k = true then (k0, v) :: rest
      else (k0, v0) :: specSet rest k v) := he
    rcases Bool.eq_false_or_eq_true (keyEquals k0 k) with h0 | h0
    · rw [h0, if_pos rfl] at he3
      rcases List.mem_cons.mp he3 with he1 | he2
      · left
        rw [he1]
        simp
      · left
        have : e.1 ∈ rest.map Prod.fst := List.mem_map_of_mem Prod.fst he2
        simp only [List.map_cons, List.mem_cons]
        right
        exact this
    · rw [h0, if_neg neFalseTrue] at he3
      rcases List.mem_cons.mp he3 with he1 | he2
      · left
        rw [he1]
        simp
      · rcases ih e he2 with hl | hr
        · left
          simp only [List.map_cons, List.mem_cons]
          right
          exact hl
        · right
          exact hr

theorem pairwise_specSet {V : Type} (k : JSKey) (v : V) :
    ∀ es : List (JSKey × V),
      List.Pairwise (fun a b => keyEquals a.1 b.1 = false) es →
      List.Pairwise (fun a b => keyEquals a.1 b.1 = false) (specSet es k v) := by
  intro es
  induction es with
  | nil =>
    intro _
    show List.Pairwise _ [(k, v)]
    simp
  | cons x rest ih =>
    obtain ⟨k0, v0⟩ := x
    intro hp
    rw [List.pairwise_cons] at hp
    show List.Pairwise _ (if keyEquals k0 k = true then (k0, v) :: rest
      else (k0, v0) :: specSet rest k v)
    rcases Bool.eq_false_or_eq_true (keyEquals k0 k) with h0 | h0
    · rw [h0, if_pos rfl, List.pairwise_cons]
      exact ⟨hp.1, hp.2⟩
    · rw [h0, if_neg neFalseTrue, List.pairwise_cons]
      refine ⟨?_, ih hp.2⟩
      intro b hb
      rcases mem_specSet_key k v rest b hb with hl | hr
      · rcases List.mem_map.mp hl with ⟨e, he, hfe⟩
        have := hp.1 e he
        rw [hfe] at this
        exact this
      · rw [hr]
        exact h0

theorem specDelete_sublist {V : Type} (k : JSKey) :
    ∀ es : List (JSKey × V), List.Sublist (specDelete es k) es := by
  intro es
  induction es with
  | nil => exact List.Sublist.refl _
  | cons x rest ih =>
    obtain ⟨k0, v0⟩ := x
    show List.Sublist (if keyEquals k0 k = true then rest
      else (k0, v0) :: specDelete rest k) _
    rcases Bool.eq_false_or_eq_true (keyEquals k0 k) with h0 | h0
    · rw [h0, if_pos rfl]
      exact List.Sublist.cons _ (List.Sublist.refl _)
    · rw [h0, if_neg neFalseTrue]
      exact List.Sublist.cons₂ _ ih

theorem pairwise_specDelete {V : Type} (k : JSKey) (es : List (JSKey × V))
    (hp : List.Pairwise (fun a b => keyEquals a.1 b.1 = false) es) :
    List.Pairwise (fun a b => keyEquals a.1 b.1 = false) (specDelete es k) :=
  hp.sublist (specDelete_sublist k es)

theorem specLookup_specDelete {V : Type} (k k2 : JSKey) :
    ∀ es : List (JSKey × V),
      List.Pairwise (fun a b => keyEquals a.1 b.1 = false) es →
      specLookup (specDelete es k) k2 =
        if keyEquals k k2 = true then none else specLookup es k2 := by
  intro es
  induction es with
  | nil =>
    intro _
    show (none : Option V) = if keyEquals k k2 = true then none else none
    rcases Bool.eq_false_or_eq_true (keyEquals k k2) with h | h
    · rw [h, if_pos rfl]
    · rw [h, if_neg neFalseTrue]
  | cons x rest ih =>
    obtain ⟨k0, v0⟩ := x
    intro hp
    rw [List.pairwise_cons] at hp
    show specLookup (if keyEquals k0 k = true then rest
      else (k0, v0) :: specDelete rest k) k2 = _
    rcases Bool.eq_false_or_eq_true (keyEquals k0 k) with h0 | h0
    · rw [h0, if_pos rfl]
      rcases Bool.eq_false_or_eq_true (keyEquals k k2) with h | h
      · rw [h, if_pos rfl]
        rw [specLookup_none_iff]
        intro e he
        rcases Bool.eq_false_or_eq_true (keyEquals e.1 k2) with hc | hc
        · have hk0k2 : keyEquals k0 k2 = true := keyEquals_trans h0 h
          have h2k0 : keyEquals k2 k0 = true := by
            rw [keyEquals_symm]; exact hk0k2
          have : keyEquals e.1 k0 = true := keyEquals_trans hc h2k0
          have hfalse := hp.1 e he
          rw [keyEquals_symm] at this
          rw [this] at hfalse
          exact absurd hfalse (by decide)
        · exact hc
      · have h0k2 : keyEquals k0 k2 = false := by
          rcases Bool.eq_false_or_eq_true (keyEquals k0 k2) with hc | hc
          · have hkk0 : keyEquals k k0 = true := by
              rw [keyEquals_symm]; exact h0
            have := keyEquals_trans hkk0 hc
            rw [h] at this
            exact absurd this (by decide)
          · exact hc
        rw [h, if_neg neFalseTrue]
        show _ = if keyEquals k0 k2 = true then some v0 else specLookup rest k2
        rw [h0k2, if_neg neFalseTrue]
    · rw [h0, if_neg neFalseTrue]
      show (if keyEquals k0 k2 = true then some v0
        else specLookup (specDelete rest k) k2) = _
      rw [ih hp.2]
      rcases Bool.eq_false_or_eq_true (keyEquals k0 k2) with h2 | h2
      · have hk2 : keyEquals k k2 = false := by
          rcases Bool.eq_false_or_eq_true (keyEquals k k2) with h | h
          · have hk0 : keyEquals k0 k2 = keyEquals k0 k :=
              (keyEquals_iff_of_equiv h k0).symm
            rw [h2, h0] at hk0
            exact absurd hk0 (by decide)
          · exact h
        rw [h2, if_pos rfl, hk2, if_neg neFalseTrue]
        show _ = if keyEquals k0 k2 = true then some v0 else specLookup rest k2
        rw [h2, if_pos rfl]
      · rw [h2, if_neg neFalseTrue]
        rcases Bool.eq_false_or_eq_true (keyEquals k k2) with h | h
        · rw [h, if_pos rfl, if_pos rfl]
        · rw [h, if_neg neFalseTrue, if_neg neFalseTrue]
          show specLookup rest k2 =
            if keyEquals k0 k2 = true then some v0 else specLookup rest k2
          rw [h2, if_neg neFalseTrue]

theorem specSet_map_fst {V : Type} (k : JSKey) (v : V) :
    ∀ es : List (JSKey × V), specLookup es k ≠ none →
      (specSet es k v).map Prod.fst = es.map Prod.fst := by
  intro es
  induction es with
  | nil =>
    intro h
    exact absurd rfl h
  | cons x rest ih =>
    obtain ⟨k0, v0⟩ := x
    intro h
    show (if keyEquals k0 k = true then (k0, v) :: rest
      else (k0, v0) :: specSet rest k v).map Prod.fst = _
    rcases Bool.eq_false_or_eq_true (keyEquals k0 k) with h0 | h0
    · rw [h0, if_pos rfl]
      rfl
    · rw [h0, if_neg neFalseTrue]
      have hr : specLookup rest k ≠ none := by
        intro hc
        apply h
        show (if keyEquals k0 k = true then some v0 else specLookup rest k) =
          none
        rw [h0, if_neg neFalseTrue, hc]
      show k0 :: (specSet rest k v).map Prod.fst = k0 :: rest.map Prod.fst
      rw [ih hr]

theorem specSet_length {V : Type} (k : JSKey) (v : V) :
    ∀ es : List (JSKey × V),
      (specSet es k v).length =
        es.length + (if (specLookup es k).isNone = true then 1 else 0) := by
  intro es
  induction es with
  | nil => rfl
  | cons x rest ih =>
    obtain ⟨k0, v0⟩ := x
    show (if keyEquals k0 k = true then (k0, v) :: rest
      else (k0, v0) :: specSet rest k v).length = _
    rcases Bool.eq_false_or_eq_true (keyEquals k0 k) with h0 | h0
    · rw [h0, if_pos rfl]
      show rest.length + 1 = _
      have hs : specLookup ((k0, v0) :: rest) k = some v0 := by
        show (if keyEquals k0 k = true then some v0 else specLookup rest k) = _
        rw [h0, if_pos rfl]
      rw [hs]
      simp
    · rw [h0, if_neg neFalseTrue]
      show (specSet rest k v).length + 1 = _
      have hs : specLookup ((k0, v0) :: rest) k = specLookup rest k := by
        show (if keyEquals k0 k = true then some v0 else specLookup rest k) = _
        rw [h0, if_neg neFalseTrue]
      rw [hs, ih]
      cases hc : specLookup rest k with
      | none => simp [List.length_cons, Nat.add_assoc, Nat.add_comm]
      | some w => simp [List.length_cons]

theorem specLookup_some_pos {V : Type} (k : JSKey) :
    ∀ (es : List (JSKey × V)) (w : V), specLookup es k = some w →
      ∃ (p : Nat) (k1 : JSKey), es[p]? = some (k1, w) ∧
        keyEquals k1 k = true ∧
        ∀ q, q < p → ∀ e, es[q]? = some e → keyEquals e.1 k = false := by
  intro es
  induction es with
  | nil =>
    intro w h
    exact absurd h (by simp [specLookup])
  | cons x rest ih =>
    obtain ⟨k0, v0⟩ := x
    intro w h
    have h2 : (if keyEquals k0 k = true then some v0 else specLookup rest k) =
      some w := h
    rcases Bool.eq_false_or_eq_true (keyEquals k0 k) with h0 | h0
    · rw [h0, if_pos rfl] at h2
      have hw : v0 = w := by simpa using h2
      refine ⟨0, k0, ?_, h0, ?_⟩
      · rw [hw]
        exact List.getElem?_cons_zero
      · intro q hq
        omega
    · rw [h0, if_neg neFalseTrue] at h2
      obtain ⟨p, k1, hp, hk1, hpre⟩ := ih w h2
      refine ⟨p + 1, k1, by simpa using hp, hk1, ?_⟩
      intro q hq e he
      cases q with
      | zero =>
        have : (k0, v0) = e := by simpa using he
        rw [← this]
        exact h0
      | succ m =>
        exact hpre m (by omega) e (by simpa using he)

theorem filterMap_id_map_some {A : Type} :
    ∀ l : List A, (l.map some).filterMap id = l := by
  intro l
  induction l with
  | nil => rfl
  | cons a rest ih =>
    show List.filterMap id (some a :: rest.map some) = a :: rest
    rw [List.filterMap_cons]
    show a :: List.filterMap id (rest.map some) = a :: rest
    rw [ih]

theorem eraseIdx_map {A B : Type} (f : A → B) :
    ∀ (l : List A) (p : Nat), (l.eraseIdx p).map f = (l.map f).eraseIdx p := by
  intro l
  induction l with
  | nil => intro p; rfl
  | cons a rest ih =>
    intro p
    cases p with
    | zero => rfl
    | succ m =>
      show f a :: (rest.eraseIdx m).map f = f a :: (rest.map f).eraseIdx m
      rw [ih m]

theorem set_append_len {A : Type} :
    ∀ (l1 : List A) (a : A) (l2 : List A) (b : A),
      (l1 ++ a :: l2).set l1.length b = l1 ++ b :: l2 := by
  intro l1
  induction l1 with
  | nil => intro a l2 b; rfl
  | cons x rest ih =>
    intro a l2 b
    show x :: (rest ++ a :: l2).set rest.length b = x :: (rest ++ b :: l2)
    rw [ih]

theorem eraseIdx_append_len {A : Type} :
    ∀ (l1 : List A) (a : A) (l2 : List A),
      (l1 ++ a :: l2).eraseIdx l1.length = l1 ++ l2 := by
  intro l1
  induction l1 with
  | nil => intro a l2; rfl
  | cons x rest ih =>
    intro a l2
    show x :: (rest ++ a :: l2).eraseIdx rest.length = x :: (rest ++ l2)
    rw [ih]

theorem getElem?_append_mid {A : Type} (l1 : List A) (a : A) (l2 : List A) :
    (l1 ++ a :: l2)[l1.length]? = some a := by
  rw [List.getElem?_append, if_neg (by omega), Nat.sub_self]
  exact List.getElem?_cons_zero

theorem getElem?_append_left2 {A : Type} (l1 l2 : List A) (q : Nat)
    (h : q < l1.length) : (l1 ++ l2)[q]? = l1[q]? := by
  rw [List.getElem?_append, if_pos h]

theorem liveEntries_append {V : Type} :
    ∀ (ks : List (Option JSKey)) (vs : List (Option V))
      (ks2 : List (Option JSKey)) (vs2 : List (Option V)),
      vs.length = ks.length →
      liveEntries (ks ++ ks2) (vs ++ vs2) =
        liveEntries ks vs ++ liveEntries ks2 vs2 := by
  intro ks
  induction ks with
  | nil =>
    intro vs ks2 vs2 hlen
    have : vs = [] := List.length_eq_zero.mp hlen
    rw [this]
    rfl
  | cons c rest ih =>
    intro vs ks2 vs2 hlen
    cases vs with
    | nil => simp at hlen
    | cons v vrest =>
      have hlen2 : vrest.length = rest.length := by simpa using hlen
      cases c with
      | some k0 =>
        show (k0, v) :: liveEntries (rest ++ ks2) (vrest ++ vs2) = _
        rw [ih vrest ks2 vs2 hlen2]
        rfl
      | none =>
        show liveEntries (rest ++ ks2) (vrest ++ vs2) = _
        rw [ih vrest ks2 vs2 hlen2]
        rfl

theorem liveKeys_eq {V : Type} :
    ∀ (ks : List (Option JSKey)) (vs : List (Option V)),
      vs.length = ks.length →
      (liveEntries ks vs).map Prod.fst = ks.filterMap id := by
  intro ks
  induction ks with
  | nil => intro vs _; rfl
  | cons c rest ih =>
    intro vs hlen
    cases vs with
    | nil => simp at hlen
    | cons v vrest =>
      have hlen2 : vrest.length = rest.length := by simpa using hlen
      cases c with
      | some k0 =>
        show k0 :: (liveEntries rest vrest).map Prod.fst = _
        rw [ih vrest hlen2]
        rfl
      | none =>
        show (liveEntries rest vrest).map Prod.fst = _
        rw [ih vrest hlen2]
        rfl

theorem liveEntries_nil_right {V : Type} :
    ∀ ks : List (Option JSKey), liveEntries ks ([] : List (Option V)) = [] := by
  intro ks
  cases ks with
  | nil => rfl
  | cons c rest => cases c <;> rfl

theorem liveEntries_decomp {V : Type} :
    ∀ (ks : List (Option JSKey)) (vs : List (Option V)) (i : Nat) (k0 : JSKey),
      ks[i]? = some (some k0) → vs.length = ks.length →
      ∃ (w : Option V) (pre suf : List (JSKey × Option V)),
        vs[i]? = some w ∧
        pre.length = ((ks.take i).filterMap id).length ∧
        liveEntries ks vs = pre ++ (k0, w) :: suf ∧
        ks.filterMap id = pre.map Prod.fst ++ k0 :: suf.map Prod.fst ∧
        (∀ e ∈ pre, ∃ j, j < i ∧ ks[j]? = some (some e.1)) ∧
        (∀ v2 : Option V,
          liveEntries ks (vs.set i v2) = pre ++ (k0, v2) :: suf) ∧
        liveEntries (ks.set i none) (vs.set i none) = pre ++ suf ∧
        (ks.set i none).filterMap id =
          pre.map Prod.fst ++ suf.map Prod.fst := by
  intro ks
  induction ks with
  | nil =>
    intro vs i k0 hi
    simp at hi
  | cons c rest ih =>
    intro vs i k0 hi hlen
    cases vs with
    | nil => simp at hlen
    | cons v vrest =>
      have hlen2 : vrest.length = rest.length := by simpa using hlen
      cases i with
      | zero =>
        have hc : c = some k0 := by simpa using hi
        subst hc
        refine ⟨v, [], liveEntries rest vrest, List.getElem?_cons_zero,
          rfl, rfl, ?_, ?_, ?_, rfl, ?_⟩
        · show k0 :: rest.filterMap id = [] ++ k0 :: _
          rw [liveKeys_eq rest vrest hlen2]
          rfl
        · intro e he
          simp at he
        · intro v2
          rfl
        · show rest.filterMap id = [] ++ _
          rw [liveKeys_eq rest vrest hlen2]
          rfl
      | succ m =>
        have hi2 : rest[m]? = some (some k0) := by simpa using hi
        obtain ⟨w, pre2, suf2, h1, h2, h3, h4, h5, h6, h7, h8⟩ :=
          ih vrest m k0 hi2 hlen2
        cases c with
        | some k1 =>
          refine ⟨w, (k1, v) :: pre2, suf2, by simpa using h1, ?_, ?_, ?_,
            ?_, ?_, ?_, ?_⟩
          · show pre2.length + 1 =
              ((some k1 :: rest.take m).filterMap id).length
            show pre2.length + 1 = ((rest.take m).filterMap id).length + 1
            rw [h2]
          · show (k1, v) :: liveEntries rest vrest = _
            rw [h3]
            rfl
          · show k1 :: rest.filterMap id = _
            rw [h4]
            rfl
          · intro e he
            rcases List.mem_cons.mp he with he1 | he2
            · exact ⟨0, by omega, by
                rw [he1]
                exact List.getElem?_cons_zero⟩
            · obtain ⟨j, hj, hjks⟩ := h5 e he2
              exact ⟨j + 1, by omega, by simpa using hjks⟩
          · intro v2
            show (k1, v) :: liveEntries rest (vrest.set m v2) = _
            rw [h6 v2]
            rfl
          · show (k1, v) :: liveEntries (rest.set m none) (vrest.set m none) =
              _
            rw [h7]
            rfl
          · show k1 :: (rest.set m none).filterMap id = _
            rw [h8]
            rfl
        | none =>
          refine ⟨w, pre2, suf2, by simpa using h1, ?_, ?_, ?_, ?_, ?_, ?_,
            ?_⟩
          · show pre2.length = ((none :: rest.take m).filterMap id).length
            show pre2.length = ((rest.take m).filterMap id).length
            exact h2
          · show liveEntries rest vrest = _
            exact h3
          · show rest.filterMap id = _
            exact h4
          · intro e he
            obtain ⟨j, hj, hjks⟩ := h5 e he
            exact ⟨j + 1, by omega, by simpa using hjks⟩
          · intro v2
            show liveEntries rest (vrest.set m v2) = _
            exact h6 v2
          · show liveEntries (rest.set m none) (vrest.set m none) = _
            exact h7
          · show (rest.set m none).filterMap id = _
            exact h8

theorem liveEntries_compact {V : Type} :
    ∀ (ks : List (Option JSKey)) (vs : List (Option V)),
      liveEntries ((ks.filterMap id).map some)
        ((List.zip ks vs).filterMap
          (fun p => if p.1.isSome = true then some p.2 else none)) =
      liveEntries ks vs := by
  intro ks
  induction ks with
  | nil =>
    intro vs
    cases vs with
    | nil => rfl
    | cons v vrest => rfl
  | cons c rest ih =>
    intro vs
    cases vs with
    | nil =>
      have hz : List.zip (c :: rest) ([] : List (Option V)) = [] := by
        cases c <;> rfl
      rw [hz]
      show liveEntries _ [] = liveEntries (c :: rest) []
      rw [liveEntries_nil_right, liveEntries_nil_right]
    | cons v vrest =>
      cases c with
      | some k0 =>
        show liveEntries (some k0 :: (rest.filterMap id).map some)
          (v :: (List.zip rest vrest).filterMap _) = _
        show (k0, v) :: liveEntries ((rest.filterMap id).map some)
          ((List.zip rest vrest).filterMap _) = _
        rw [ih vrest]
        rfl
      | none =>
        show liveEntries ((rest.filterMap id).map some)
          ((List.zip rest vrest).filterMap _) = _
        rw [ih vrest]
        rfl

theorem compactVals_length {V : Type} :
    ∀ (ks : List (Option JSKey)) (vs : List (Option V)),
      vs.length = ks.length →
      ((List.zip ks vs).filterMap
        (fun p => if p.1.isSome = true then some p.2 else none)).length =
      (ks.filterMap id).length := by
  intro ks
  induction ks with
  | nil =>
    intro vs hlen
    have : vs = [] := List.length_eq_zero.mp hlen
    rw [this]
    rfl
  | cons c rest ih =>
    intro vs hlen
    cases vs with
    | nil => simp at hlen
    | cons v vrest =>
      have hlen2 : vrest.length = rest.length := by simpa using hlen
      cases c with
      | some k0 =>
        show (v :: (List.zip rest vrest).filterMap _).length =
          (k0 :: rest.filterMap id).length
        show ((List.zip rest vrest).filterMap _).length + 1 =
          (rest.filterMap id).length + 1
        rw [ih vrest hlen2]
      | none =>
        show ((List.zip rest vrest).filterMap _).length =
          (rest.filterMap id).length
        exact ih vrest hlen2

theorem mem_of_getElemOpt {A : Type} {l : List A} {n : Nat} {a : A}
    (h : l[n]? = some a) : a ∈ l := by
  obtain ⟨hl, he⟩ := List.getElem?_eq_some_iff.mp h
  exact he ▸ List.getElem_mem hl

/-- Position of the first key equal (in the SameValueZero sense) to k. -/
def findKeyPos (k : JSKey) : List JSKey → Option Nat
  | [] => none
  | k0 :: rest =>
    if keyEquals k0 k = true then some 0
    else (findKeyPos k rest).map (fun n => n + 1)

theorem findKeyPos_some (k : JSKey) :
    ∀ (ks : List JSKey) (p : Nat), findKeyPos k ks = some p →
      ∃ kp, ks[p]? = some kp ∧ keyEquals kp k = true := by
  intro ks
  induction ks with
  | nil =>
    intro p h
    exact absurd h (by simp [findKeyPos])
  | cons k0 rest ih =>
    intro p h
    have h2 : (if keyEquals k0 k = true then some 0
      else (findKeyPos k rest).map (fun n => n + 1)) = some p := h
    rcases Bool.eq_false_or_eq_true (keyEquals k0 k) with h0 | h0
    · rw [h0, if_pos rfl] at h2
      have hp : p = 0 := by simpa using h2.symm
      subst hp
      exact ⟨k0, List.getElem?_cons_zero, h0⟩
    · rw [h0, if_neg neFalseTrue] at h2
      cases hf : findKeyPos k rest with
      | none =>
        rw [hf] at h2
        exact absurd h2 (by simp)
      | some m =>
        rw [hf] at h2
        have hp : p = m + 1 := by simpa using h2.symm
        subst hp
        obtain ⟨kp, hkp, hkeq⟩ := ih m hf
        exact ⟨kp, by simpa using hkp, hkeq⟩

theorem findKeyPos_at (k : JSKey) :
    ∀ (ks : List JSKey) (i : Nat) (kp : JSKey), ks[i]? = some kp →
      keyEquals kp k = true →
      (∀ j, j < i → ∀ kj, ks[j]? = some kj → keyEquals kj k = false) →
      findKeyPos k ks = some i := by
  intro ks
  induction ks with
  | nil =>
    intro i kp h
    simp at h
  | cons k0 rest ih =>
    intro i kp hi hk hpre
    show (if keyEquals k0 k = true then some 0
      else (findKeyPos k rest).map (fun n => n + 1)) = some i
    cases i with
    | zero =>
      have : k0 = kp := by simpa using hi
      rw [this, hk, if_pos rfl]
    | succ m =>
      have h0 : keyEquals k0 k = false :=
        hpre 0 (by omega) k0 List.getElem?_cons_zero
      rw [h0, if_neg neFalseTrue,
        ih m kp (by simpa using hi) hk
          (fun j hj kj hkj => hpre (j + 1) (by omega) kj (by simpa using hkj))]
      rfl

theorem wf_hamtEmpty {V : Type} : WfMap (hamtEmpty V) := by
  intro n hn
  exact Option.noConfusion hn

theorem keyToIdxOf_wf (owner : Option Nat) :
    ∀ (ks : List JSKey) (start : Nat) (acc : HMap Nat), WfMap acc →
      WfMap (keyToIdxOf owner ks start acc) := by
  intro ks
  induction ks with
  | nil => intro start acc hacc; exact hacc
  | cons k0 rest ih =>
    intro start acc hacc
    exact ih (start + 1) _ (hamtSet_wf acc owner k0 start hacc)

theorem keyToIdxOf_get (owner : Option Nat) :
    ∀ (ks : List JSKey) (start : Nat) (acc : HMap Nat), WfMap acc →
      List.Pairwise (fun a b => keyEquals a b = false) ks →
      ∀ k : JSKey, hamtGet (keyToIdxOf owner ks start acc) k =
        (match findKeyPos k ks with
          | some p => some (start + p)
          | none => hamtGet acc k) := by
  intro ks
  induction ks with
  | nil =>
    intro start acc _ _ k
    rfl
  | cons k0 rest ih =>
    intro start acc hacc hp k
    rw [List.pairwise_cons] at hp
    show hamtGet (keyToIdxOf owner rest (start + 1)
      (hamtSet acc owner k0 start)) k = _
    rw [ih (start + 1) _ (hamtSet_wf acc owner k0 start hacc) hp.2 k]
    rcases Bool.eq_false_or_eq_true (keyEquals k0 k) with h0 | h0
    · have hrest : findKeyPos k rest = none := by
        cases hf : findKeyPos k rest with
        | none => rfl
        | some m =>
          obtain ⟨kp, hkp, hkeq⟩ := findKeyPos_some k rest m hf
          have hkkp : keyEquals k kp = true := by
            rw [keyEquals_symm]; exact hkeq
          have h0kp : keyEquals k0 kp = true := keyEquals_trans h0 hkkp
          have := hp.1 kp (mem_of_getElemOpt hkp)
          rw [this] at h0kp
          exact absurd h0kp (by decide)
      rw [hrest]
      show hamtGet (hamtSet acc owner k0 start) k = _
      rw [hamtGet_hamtSet_equiv acc owner k0 start k hacc h0]
      show _ = (match (if keyEquals k0 k = true then some 0
        else (findKeyPos k rest).map (fun n => n + 1)) with
          | some p => some (start + p)
          | none => hamtGet acc k)
      rw [h0, if_pos rfl]
      rfl
    · have hkf : keyEquals k k0 = false := by
        rw [keyEquals_symm]; exact h0
      show (match findKeyPos k rest with
        | some p => some (start + 1 + p)
        | none => hamtGet (hamtSet acc owner k0 start) k) = _
      show _ = (match (if keyEquals k0 k = true then some 0
        else (findKeyPos k rest).map (fun n => n + 1)) with
          | some p => some (start + p)
          | none => hamtGet acc k)
      rw [h0, if_neg neFalseTrue]
      cases hf : findKeyPos k rest with
      | none =>
        show hamtGet (hamtSet acc owner k0 start) k = hamtGet acc k
        exact hamtGet_hamtSet_frame acc owner k0 start k hacc hkf
      | some m =>
        show some (start + 1 + m) = some (start + (m + 1))
        exact congrArg some (by omega)

theorem pairwise_getElemOpt {A : Type} {R : A → A → Prop} :
    ∀ l : List A, List.Pairwise R l →
      ∀ i j : Nat, i < j → ∀ a b, l[i]? = some a → l[j]? = some b → R a b := by
  intro l
  induction l with
  | nil =>
    intro _ i j _ a b ha
    simp at ha
  | cons x rest ih =>
    intro hp i j hij a b ha hb
    rw [List.pairwise_cons] at hp
    cases i with
    | zero =>
      have hxa : x = a := by simpa using ha
      cases j with
      | zero => omega
      | succ m =>
        have hbm : rest[m]? = some b := by simpa using hb
        rw [← hxa]
        exact hp.1 b (mem_of_getElemOpt hbm)
    | succ n =>
      cases j with
      | zero => omega
      | succ m =>
        exact ih hp.2 n m (by omega) a b (by simpa using ha)
          (by simpa using hb)

theorem pairwise_filterMap_id :
    ∀ ks : List (Option JSKey),
      (∀ i j : Nat, i < j → ∀ ki kj, ks[i]? = some (some ki) →
        ks[j]? = some (some kj) → keyEquals ki kj = false) →
      List.Pairwise (fun a b => keyEquals a b = false) (ks.filterMap id) := by
  intro ks
  induction ks with
  | nil =>
    intro _
    simp
  | cons c rest ih =>
    intro hd
    have hrest : List.Pairwise (fun a b => keyEquals a b = false)
        (rest.filterMap id) :=
      ih (fun i j hij ki kj hki hkj =>
        hd (i + 1) (j + 1) (by omega) ki kj (by simpa using hki)
          (by simpa using hkj))
    cases c with
    | none =>
      show List.Pairwise _ (rest.filterMap id)
      exact hrest
    | some k0 =>
      show List.Pairwise _ (k0 :: rest.filterMap id)
      rw [List.pairwise_cons]
      refine ⟨?_, hrest⟩
      intro b hb
      obtain ⟨ob, hob, hid⟩ := List.mem_filterMap.mp hb
      have hob2 : ob = some b := by
        cases ob with
        | none => exact absurd hid (by simp [id])
        | some x => simpa [id] using hid
      rw [hob2] at hob
      obtain ⟨m, hm, hme⟩ := List.mem_iff_getElem.mp hob
      have hmq : rest[m]? = some (some b) := by
        rw [List.getElem?_eq_getElem hm, hme]
      exact hd 0 (m + 1) (by omega) k0 b List.getElem?_cons_zero
        (by simpa using hmq)

/-- The draft state of an ordered map proxy (createMapProxy with an ordered
field): the HAMT, the order index and the owner tag. -/
structure OMapState (V : Type) where
  map : HMap V
  ordered : OrderIndex V
  owner : Option Nat

/-- The set handler of createMapProxy on an ordered map: assign the HAMT,
then update the value in place when the key was present and append otherwise. -/
def omapSet {V : Type} [DecidableEq V] (s : OMapState V) (k : JSKey) (v : V) :
    OMapState V :=
  ⟨hamtSet s.map s.owner k v,
    if hamtHas s.map k = true then orderUpdateValue s.ordered s.owner k v
    else orderAppendWithValue s.ordered s.owner k v,
    s.owner⟩

/-- The delete handler of createMapProxy on an ordered map: assign the HAMT;
when the size changed, also delete from the order index. -/
def omapDelete {V : Type} (s : OMapState V) (k : JSKey) : OMapState V :=
  if (hamtDelete s.map s.owner k).size ≠ s.map.size then
    ⟨hamtDelete s.map s.owner k, orderDelete s.ordered s.owner k, s.owner⟩
  else
    ⟨hamtDelete s.map s.owner k, s.ordered, s.owner⟩

/-- The add handler of createSetProxy on an ordered set. Set entries carry
the constant value true, rendered as Unit. The source compares the reference
returned by hamtSet against the stored map; hamtSet returns the stored map
itself exactly when the insert reports changed = false, so that reference
test is the changed flag. -/
def osetAdd (s : OMapState Unit) (k : JSKey) : OMapState Unit :=
  if (hamtInsert hamtFuel s.map.root s.owner (hashKey k) k () 0).changed
      = false then s
  else
    ⟨hamtSet s.map s.owner k (),
      if hamtHas s.map k = true then s.ordered
      else orderAppend s.ordered s.owner k,
      s.owner⟩

/-- The delete handler of createSetProxy on an ordered set; its body is the
map delete handler's. -/
def osetDelete (s : OMapState Unit) (k : JSKey) : OMapState Unit :=
  if (hamtDelete s.map s.owner k).size ≠ s.map.size then
    ⟨hamtDelete s.map s.owner k, orderDelete s.ordered s.owner k, s.owner⟩
  else
    ⟨hamtDelete s.map s.owner k, s.ordered, s.owner⟩

/-- One map operation applied through the proxy. -/
inductive OMapOp (V : Type) where
  | setO : JSKey → V → OMapOp V
  | delO : JSKey → OMapOp V

/-- One set operation applied through the proxy. -/
inductive OSetOp where
  | addO : JSKey → OSetOp
  | delO : JSKey → OSetOp

def applyOMapOp {V : Type} [DecidableEq V] (s : OMapState V) :
    OMapOp V → OMapState V
  | .setO k v => omapSet s k v
  | .delO k => omapDelete s k

def runOMapOps {V : Type} [DecidableEq V] (s : OMapState V) :
    List (OMapOp V) → OMapState V
  | [] => s
  | op :: ops => runOMapOps (applyOMapOp s op) ops

def applyOSetOp (s : OMapState Unit) : OSetOp → OMapState Unit
  | .addO k => osetAdd s k
  | .delO k => osetDelete s k

def runOSetOps (s : OMapState Unit) : List OSetOp → OMapState Unit
  | [] => s
  | op :: ops => runOSetOps (applyOSetOp s op) ops

def applySpecOp {V : Type} (es : List (JSKey × V)) :
    OMapOp V → List (JSKey × V)
  | .setO k v => specSet es k v
  | .delO k => specDelete es k

def specRunOMap {V : Type} (es : List (JSKey × V)) :
    List (OMapOp V) → List (JSKey × V)
  | [] => es
  | op :: ops => specRunOMap (applySpecOp es op) ops

def applySpecSetOp (es : List (JSKey × Unit)) : OSetOp → List (JSKey × Unit)
  | .addO k => specSet es k ()
  | .delO k => specDelete es k

def specRunOSet (es : List (JSKey × Unit)) : List OSetOp → List (JSKey × Unit)
  | [] => es
  | op :: ops => specRunOSet (applySpecSetOp es op) ops

/-- The keys an ordered map proxy iterates (keys, and the key component of
entries and forEach): the live slots of the order index. -/
def omapKeysModel {V : Type} (s : OMapState V) : List JSKey :=
  orderIterModel s.ordered

/-- The values an ordered set proxy iterates. -/
def osetValuesModel (s : OMapState Unit) : List JSKey :=
  orderIterModel s.ordered

/-- The invariant tying an ordered map draft state to its specification
entry list: the HAMT agrees with first-match lookup on the entries, the
order index's live slots list the entry keys in order, keyToIdx and
idxToKey are inverse on live slots, live keys are pairwise distinct, and
the value vector (when the index carries one) pairs each live key with its
current value. -/
structure OrdInv {V : Type} (s : OMapState V) (es : List (JSKey × V)) :
    Prop where
  wf_map : WfMap s.map
  wf_idx : WfMap s.ordered.keyToIdx
  lookup : ∀ k, hamtGet s.map k = specLookup es k
  size_eq : s.map.size = es.length
  keys_live : s.ordered.idxToKey.filterMap id = es.map Prod.fst
  next_eq : s.ordered.next = s.ordered.idxToKey.length
  fwd : ∀ (k : JSKey) (i : Nat), hamtGet s.ordered.keyToIdx k = some i →
    ∃ k0, s.ordered.idxToKey[i]? = some (some k0) ∧ keyEquals k0 k = true
  bwd : ∀ (i : Nat) (k0 : JSKey),
    s.ordered.idxToKey[i]? = some (some k0) →
    hamtGet s.ordered.keyToIdx k0 = some i
  distinct : ∀ i j : Nat, i < j → ∀ ki kj,
    s.ordered.idxToKey[i]? = some (some ki) →
    s.ordered.idxToKey[j]? = some (some kj) → keyEquals ki kj = false
  vals : ∀ vs, s.ordered.idxToVal = some vs →
    vs.length = s.ordered.idxToKey.length ∧
    liveEntries s.ordered.idxToKey vs = es.map (fun p => (p.1, some p.2))
  spec_distinct : List.Pairwise (fun a b => keyEquals a.1 b.1 = false) es

/-- The initial state of an ordered map or set built from an empty base:
orderFromBase gives an empty value vector, orderFromSetBase and orderEmpty
give no value vector. -/
theorem OrdInv_empty {V : Type} [DecidableEq V] (ow : Option Nat)
    (iv : Option (List (Option V))) (hiv : ∀ vs, iv = some vs → vs = []) :
    OrdInv ⟨hamtEmpty V, ⟨0, hamtEmpty Nat, [], iv, 0⟩, ow⟩
      ([] : List (JSKey × V)) := by
  refine ⟨wf_hamtEmpty, wf_hamtEmpty, fun k => rfl, rfl, rfl, rfl,
    ?_, ?_, ?_, ?_, List.Pairwise.nil⟩
  · intro k i h
    exact absurd h (by simp [hamtGet, hamtEmpty])
  · intro i k0 h
    simp at h
  · intro i j _ ki kj h
    simp at h
  · intro vs hvs
    rw [hiv vs hvs]
    exact ⟨rfl, rfl⟩

theorem OrdInv_live_ne {V : Type} {s : OMapState V} {es : List (JSKey × V)}
    (h : OrdInv s es) {k : JSKey} (habs : specLookup es k = none) :
    ∀ (i : Nat) (k0 : JSKey), s.ordered.idxToKey[i]? = some (some k0) →
      keyEquals k0 k = false := by
  intro i k0 hk0
  rcases Bool.eq_false_or_eq_true (keyEquals k0 k) with ht | hf
  · exfalso
    have hmem : k0 ∈ s.ordered.idxToKey.filterMap id :=
      List.mem_filterMap.mpr ⟨some k0, mem_of_getElemOpt hk0, rfl⟩
    rw [h.keys_live] at hmem
    obtain ⟨e, he, hfe⟩ := List.mem_map.mp hmem
    have hno := (specLookup_none_iff k es).mp habs e he
    rw [hfe] at hno
    rw [ht] at hno
    exact absurd hno (by decide)
  · exact hf

theorem OrdInv_idx_present {V : Type} {s : OMapState V}
    {es : List (JSKey × V)} (h : OrdInv s es) (k : JSKey) (w : V)
    (hp : specLookup es k = some w) :
    ∃ (i : Nat) (k0 : JSKey), hamtGet s.ordered.keyToIdx k = some i ∧
      s.ordered.idxToKey[i]? = some (some k0) ∧ keyEquals k0 k = true := by
  obtain ⟨p, k1, hep, hk1, _⟩ := specLookup_some_pos k es w hp
  have hk1mem : k1 ∈ es.map Prod.fst :=
    List.mem_map_of_mem Prod.fst (mem_of_getElemOpt hep)
  rw [← h.keys_live] at hk1mem
  obtain ⟨ok, hok, hid⟩ := List.mem_filterMap.mp hk1mem
  have hok2 : ok = some k1 := by
    cases ok with
    | none => exact absurd hid (by simp [id])
    | some x => simpa [id] using hid
  rw [hok2] at hok
  obtain ⟨m, hm, hme⟩ := List.mem_iff_getElem.mp hok
  have hmq : s.ordered.idxToKey[m]? = some (some k1) := by
    rw [List.getElem?_eq_getElem hm, hme]
  have hcongr := hamtGet_congr_equiv s.ordered.keyToIdx h.wf_idx hk1
  exact ⟨m, k1, by rw [← hcongr]; exact h.bwd m k1 hmq, hmq, hk1⟩

theorem omapSet_inv {V : Type} [DecidableEq V] (s : OMapState V)
    (es : List (JSKey × V)) (k : JSKey) (v : V) (h : OrdInv s es) :
    OrdInv (omapSet s k v) (specSet es k v) := by
  have hlookup : ∀ k2, hamtGet (hamtSet s.map s.owner k v) k2 =
      specLookup (specSet es k v) k2 := by
    intro k2
    rw [specLookup_specSet]
    rcases Bool.eq_false_or_eq_true (keyEquals k k2) with ht | hf
    · rw [ht, if_pos rfl]
      exact hamtGet_hamtSet_equiv s.map s.owner k v k2 h.wf_map ht
    · rw [hf, if_neg neFalseTrue,
        hamtGet_hamtSet_frame s.map s.owner k v k2 h.wf_map
          (keyEquals_false_symm hf)]
      exact h.lookup k2
  have hsize : (hamtSet s.map s.owner k v).size = (specSet es k v).length := by
    rw [hamtSet_size s.map s.owner k v h.wf_map, h.lookup k, specSet_length,
      h.size_eq]
    cases hsl : specLookup es k with
    | none => simp
    | some w => simp
  have hhad : hamtHas s.map k = (specLookup es k).isSome := by
    rw [hamtHas_eq, h.lookup k]
  cases habs : specLookup es k with
  | none =>
    have hhadf : hamtHas s.map k = false := by
      rw [hhad, habs]
      rfl
    have hset : specSet es k v = es ++ [(k, v)] := specSet_absent k v es habs
    have hlive := OrdInv_live_ne h habs
    have hord : (omapSet s k v).ordered =
        orderAppendWithValue s.ordered s.owner k v := by
      show (if hamtHas s.map k = true then _ else _) = _
      rw [hhadf, if_neg neFalseTrue]
    refine ⟨hamtSet_wf s.map s.owner k v h.wf_map, ?_, hlookup, hsize,
      ?_, ?_, ?_, ?_, ?_, ?_, ?_⟩
    · rw [hord]
      exact hamtSet_wf _ s.owner k s.ordered.next h.wf_idx
    · rw [hord, hset]
      show (s.ordered.idxToKey ++ [some k]).filterMap id =
        (es ++ [(k, v)]).map Prod.fst
      rw [List.filterMap_append, List.map_append, h.keys_live]
      rfl
    · rw [hord]
      show s.ordered.next + 1 = (s.ordered.idxToKey ++ [some k]).length
      rw [List.length_append, h.next_eq]
      rfl
    · rw [hord]
      intro k2 i hg
      rcases Bool.eq_false_or_eq_true (keyEquals k k2) with ht | hf
      · rw [show (orderAppendWithValue s.ordered s.owner k v).keyToIdx =
            hamtSet s.ordered.keyToIdx s.owner k s.ordered.next from rfl,
          hamtGet_hamtSet_equiv _ s.owner k s.ordered.next k2 h.wf_idx ht]
          at hg
        have hi : s.ordered.next = i := by simpa using hg
        refine ⟨k, ?_, ht⟩
        show (s.ordered.idxToKey ++ [some k])[i]? = some (some k)
        rw [← hi, h.next_eq]
        exact getElem?_append_mid _ (some k) []
      · rw [show (orderAppendWithValue s.ordered s.owner k v).keyToIdx =
            hamtSet s.ordered.keyToIdx s.owner k s.ordered.next from rfl,
          hamtGet_hamtSet_frame _ s.owner k s.ordered.next k2 h.wf_idx
            (keyEquals_false_symm hf)] at hg
        obtain ⟨k0, hk0, hke⟩ := h.fwd k2 i hg
        have hlt : i < s.ordered.idxToKey.length :=
          (List.getElem?_eq_some_iff.mp hk0).1
        refine ⟨k0, ?_, hke⟩
        show (s.ordered.idxToKey ++ [some k])[i]? = some (some k0)
        rw [getElem?_append_left2 _ _ i hlt]
        exact hk0
    · rw [hord]
      intro i k0 hk0
      have hk0b : (s.ordered.idxToKey ++ [some k])[i]? = some (some k0) := hk0
      show hamtGet (hamtSet s.ordered.keyToIdx s.owner k s.ordered.next) k0 =
        some i
      by_cases hi : i < s.ordered.idxToKey.length
      · rw [getElem?_append_left2 _ _ i hi] at hk0b
        rw [hamtGet_hamtSet_frame _ s.owner k s.ordered.next k0 h.wf_idx
          (hlive i k0 hk0b)]
        exact h.bwd i k0 hk0b
      · rw [List.getElem?_append, if_neg hi] at hk0b
        cases hd : i - s.ordered.idxToKey.length with
        | zero =>
          rw [hd] at hk0b
          have hk0k : k0 = k := by
            have : some (some k) = some (some k0) := by simpa using hk0b
            injection this with h2
            injection h2 with h3
            exact h3.symm
          have hieq : i = s.ordered.idxToKey.length := by omega
          rw [hk0k,
            hamtGet_hamtSet_equiv _ s.owner k s.ordered.next k h.wf_idx
              (keyEquals_refl k),
            h.next_eq, hieq]
        | succ m =>
          rw [hd] at hk0b
          simp at hk0b
    · rw [hord]
      intro i j hij ki kj hki hkj
      have hkib : (s.ordered.idxToKey ++ [some k])[i]? = some (some ki) := hki
      have hkjb : (s.ordered.idxToKey ++ [some k])[j]? = some (some kj) := hkj
      by_cases hj : j < s.ordered.idxToKey.length
      · have hilt : i < s.ordered.idxToKey.length := by omega
        rw [getElem?_append_left2 _ _ i hilt] at hkib
        rw [getElem?_append_left2 _ _ j hj] at hkjb
        exact h.distinct i j hij ki kj hkib hkjb
      · rw [List.getElem?_append, if_neg hj] at hkjb
        cases hd : j - s.ordered.idxToKey.length with
        | zero =>
          rw [hd] at hkjb
          have hkjk : kj = k := by
            have : some (some k) = some (some kj) := by simpa using hkjb
            injection this with h2
            injection h2 with h3
            exact h3.symm
          have hilt : i < s.ordered.idxToKey.length := by omega
          rw [getElem?_append_left2 _ _ i hilt] at hkib
          rw [hkjk]
          exact hlive i ki hkib
        | succ m =>
          rw [hd] at hkjb
          simp at hkjb
    · rw [hord]
      intro vs hvs
      cases hv0 : s.ordered.idxToVal with
      | none =>
        rw [show (orderAppendWithValue s.ordered s.owner k v).idxToVal =
          (s.ordered.idxToVal).map (fun vs => vecPush vs s.owner (some v))
          from rfl, hv0] at hvs
        exact absurd hvs (by simp)
      | some vs0 =>
        rw [show (orderAppendWithValue s.ordered s.owner k v).idxToVal =
          (s.ordered.idxToVal).map (fun vs => vecPush vs s.owner (some v))
          from rfl, hv0] at hvs
        have hvs2 : vs = vs0 ++ [some v] := by
          have h2 : some (vs0 ++ [some v]) = some vs := by
            simpa [vecPush] using hvs
          injection h2 with h3
          exact h3.symm
        obtain ⟨hlen0, hle0⟩ := h.vals vs0 hv0
        subst hvs2
        constructor
        · show (vs0 ++ [some v]).length =
            (s.ordered.idxToKey ++ [some k]).length
          rw [List.length_append, List.length_append, hlen0]
          rfl
        · rw [hset]
          show liveEntries (s.ordered.idxToKey ++ [some k])
            (vs0 ++ [some v]) = _
          rw [liveEntries_append _ _ _ _ hlen0, hle0, List.map_append]
          rfl
    · rw [hset, List.pairwise_append]
      refine ⟨h.spec_distinct, by simp, ?_⟩
      intro a ha b hb
      have hbk : b = (k, v) := by simpa using hb
      rw [hbk]
      show keyEquals a.1 k = false
      exact (specLookup_none_iff k es).mp habs a ha
  | some w =>
    have hhadt : hamtHas s.map k = true := by
      rw [hhad, habs]
      rfl
    have hnn : specLookup es k ≠ none := by
      rw [habs]
      exact fun hc => Option.noConfusion hc
    obtain ⟨idx, k0, hidx, hk0, hke⟩ := OrdInv_idx_present h k w habs
    have hord : (omapSet s k v).ordered =
        orderUpdateValue s.ordered s.owner k v := by
      show (if hamtHas s.map k = true then _ else _) = _
      rw [hhadt, if_pos rfl]
    have hsd : List.Pairwise (fun a b => keyEquals a.1 b.1 = false)
        (specSet es k v) := pairwise_specSet k v es h.spec_distinct
    cases hv0 : s.ordered.idxToVal with
    | none =>
      have hord2 : (omapSet s k v).ordered = s.ordered := by
        rw [hord]
        unfold orderUpdateValue
        rw [hv0]
      refine ⟨hamtSet_wf s.map s.owner k v h.wf_map, ?_, hlookup, hsize,
        ?_, ?_, ?_, ?_, ?_, ?_, hsd⟩
      · rw [hord2]; exact h.wf_idx
      · rw [hord2, specSet_map_fst k v es hnn]; exact h.keys_live
      · rw [hord2]; exact h.next_eq
      · rw [hord2]; exact h.fwd
      · rw [hord2]; exact h.bwd
      · rw [hord2]; exact h.distinct
      · rw [hord2]
        intro vs hvs
        rw [hv0] at hvs
        exact absurd hvs (fun hc => Option.noConfusion hc)
    | some vs0 =>
      have hord3 : (omapSet s k v).ordered =
          ⟨s.ordered.next, s.ordered.keyToIdx, s.ordered.idxToKey,
            some (vs0.set idx (some v)), s.ordered.holes⟩ := by
        rw [hord]
        unfold orderUpdateValue
        rw [hv0, hidx]
        rfl
      obtain ⟨hlen0, hle0⟩ := h.vals vs0 hv0
      obtain ⟨w2, pre, suf, hw2, hprelen, hdec, hkeys, htrack, hsetv, _, _⟩ :=
        liveEntries_decomp s.ordered.idxToKey vs0 idx k0 hk0 hlen0
      have hmapf : es.map (fun p => (p.1, some p.2)) = pre ++ (k0, w2) :: suf :=
        hle0.symm.trans hdec
      have hmid : (es.map (fun p => (p.1, some p.2)))[pre.length]? =
          some (k0, w2) := by
        rw [hmapf]
        exact getElem?_append_mid pre (k0, w2) suf
      rw [List.getElem?_map] at hmid
      have he0ex : ∃ e0, es[pre.length]? = some e0 ∧ e0.1 = k0 ∧
          some e0.2 = w2 := by
        cases he0 : es[pre.length]? with
        | none =>
          rw [he0] at hmid
          exact absurd hmid (by simp)
        | some e0 =>
          rw [he0] at hmid
          have h2 : (e0.1, some e0.2) = (k0, w2) := by simpa using hmid
          exact ⟨e0, rfl, congrArg Prod.fst h2, congrArg Prod.snd h2⟩
      obtain ⟨e0, he0, he01, he02⟩ := he0ex
      have hpre_nomatch : ∀ q, q < pre.length → ∀ e, es[q]? = some e →
          keyEquals e.1 k = false := by
        intro q hq e he
        have h1 : (es.map (fun p => (p.1, some p.2)))[q]? = pre[q]? := by
          rw [hmapf]
          exact getElem?_append_left2 pre _ q hq
        rw [List.getElem?_map, he] at h1
        have hmem : (e.1, some e.2) ∈ pre := by
          have := mem_of_getElemOpt h1.symm
          simpa using this
        obtain ⟨j, hj, hjks⟩ := htrack (e.1, some e.2) hmem
        have hne : keyEquals e.1 k0 = false :=
          h.distinct j idx hj e.1 k0 hjks hk0
        rcases Bool.eq_false_or_eq_true (keyEquals e.1 k) with ht | hf
        · have hkk0 : keyEquals k k0 = true := by
            rw [keyEquals_symm]
            exact hke
          have h2 := keyEquals_trans ht hkk0
          rw [h2] at hne
          exact absurd hne (by decide)
        · exact hf
      have hke0 : keyEquals e0.1 k = true := by
        rw [he01]
        exact hke
      have hsetspec : specSet es k v = es.set pre.length (e0.1, v) :=
        specSet_at k v es pre.length e0.1 e0.2 he0 hke0 hpre_nomatch
      refine ⟨hamtSet_wf s.map s.owner k v h.wf_map, ?_, hlookup, hsize,
        ?_, ?_, ?_, ?_, ?_, ?_, hsd⟩
      · rw [hord3]; exact h.wf_idx
      · rw [hord3, specSet_map_fst k v es hnn]; exact h.keys_live
      · rw [hord3]; exact h.next_eq
      · rw [hord3]; exact h.fwd
      · rw [hord3]; exact h.bwd
      · rw [hord3]; exact h.distinct
      · rw [hord3]
        intro vs hvs
        have hvs2 : vs = vs0.set idx (some v) := by
          have h2 : some (vs0.set idx (some v)) = some vs := hvs
          injection h2 with h3
          exact h3.symm
        subst hvs2
        constructor
        · show (vs0.set idx (some v)).length = s.ordered.idxToKey.length
          rw [List.length_set]
          exact hlen0
        · show liveEntries s.ordered.idxToKey (vs0.set idx (some v)) = _
          rw [hsetv (some v), hsetspec, List.map_set, hmapf, he01,
            set_append_len]

theorem orderCompact_inv {V : Type} (mm : HMap V) (ord2 : OrderIndex V)
    (ow2 : Option Nat) (cow : Option Nat) (es : List (JSKey × V))
    (h : OrdInv ⟨mm, ord2, ow2⟩ es) :
    OrdInv ⟨mm, orderCompact ord2 cow, ow2⟩ es := by
  by_cases hh : ord2.holes = 0
  · have hid : orderCompact ord2 cow = ord2 := by
      unfold orderCompact
      rw [if_pos hh]
    rw [hid]
    exact h
  · have hrec : orderCompact ord2 cow =
        ⟨(ord2.idxToKey.filterMap id).length,
          keyToIdxOf cow (ord2.idxToKey.filterMap id) 0 (hamtEmpty Nat),
          (ord2.idxToKey.filterMap id).map some,
          (ord2.idxToVal).map (fun vs =>
            (List.zip ord2.idxToKey vs).filterMap
              (fun p => if p.1.isSome = true then some p.2 else none)),
          0⟩ := by
      unfold orderCompact
      rw [if_neg hh]
    have hpair : List.Pairwise (fun a b => keyEquals a b = false)
        (ord2.idxToKey.filterMap id) :=
      pairwise_filterMap_id ord2.idxToKey
        (fun i j hij ki kj hki hkj => h.distinct i j hij ki kj hki hkj)
    have hget : ∀ k2 : JSKey,
        hamtGet (keyToIdxOf cow (ord2.idxToKey.filterMap id) 0
          (hamtEmpty Nat)) k2 =
        (match findKeyPos k2 (ord2.idxToKey.filterMap id) with
          | some p => some p
          | none => none) := by
      intro k2
      rw [keyToIdxOf_get cow (ord2.idxToKey.filterMap id) 0 (hamtEmpty Nat)
        wf_hamtEmpty hpair k2]
      cases hf : findKeyPos k2 (ord2.idxToKey.filterMap id) with
      | none => rfl
      | some p =>
        show some (0 + p) = some p
        rw [Nat.zero_add]
    refine ⟨h.wf_map, ?_, h.lookup, h.size_eq, ?_, ?_, ?_, ?_, ?_, ?_,
      h.spec_distinct⟩
    · rw [hrec]
      exact keyToIdxOf_wf cow _ 0 (hamtEmpty Nat) wf_hamtEmpty
    · rw [hrec]
      show ((ord2.idxToKey.filterMap id).map some).filterMap id = _
      rw [filterMap_id_map_some]
      exact h.keys_live
    · rw [hrec]
      show (ord2.idxToKey.filterMap id).length =
        ((ord2.idxToKey.filterMap id).map some).length
      rw [List.length_map]
    · rw [hrec]
      intro k2 i hg
      rw [hget k2] at hg
      cases hf : findKeyPos k2 (ord2.idxToKey.filterMap id) with
      | none =>
        rw [hf] at hg
        exact absurd hg (by simp)
      | some p =>
        rw [hf] at hg
        have hpi : p = i := by simpa using hg
        subst hpi
        obtain ⟨kp, hkp, hkeq⟩ :=
          findKeyPos_some k2 (ord2.idxToKey.filterMap id) p hf
        refine ⟨kp, ?_, hkeq⟩
        show ((ord2.idxToKey.filterMap id).map some)[p]? = some (some kp)
        rw [List.getElem?_map, hkp]
        rfl
    · rw [hrec]
      intro i k0 hk0
      have hk0b : (ord2.idxToKey.filterMap id)[i]? = some k0 := by
        have h2 : ((ord2.idxToKey.filterMap id).map some)[i]? =
          some (some k0) := hk0
        rw [List.getElem?_map] at h2
        cases hx : (ord2.idxToKey.filterMap id)[i]? with
        | none =>
          rw [hx] at h2
          exact absurd h2 (by simp)
        | some y =>
          rw [hx] at h2
          simpa using h2
      have hfind : findKeyPos k0 (ord2.idxToKey.filterMap id) = some i :=
        findKeyPos_at k0 (ord2.idxToKey.filterMap id) i k0 hk0b
          (keyEquals_refl k0)
          (fun j hj kj hkj => pairwise_getElemOpt _ hpair j i hj kj k0 hkj
            hk0b)
      show hamtGet (keyToIdxOf cow (ord2.idxToKey.filterMap id) 0
        (hamtEmpty Nat)) k0 = some i
      rw [hget k0, hfind]
    · rw [hrec]
      intro i j hij ki kj hki hkj
      have hkib : (ord2.idxToKey.filterMap id)[i]? = some ki := by
        have h2 : ((ord2.idxToKey.filterMap id).map some)[i]? =
          some (some ki) := hki
        rw [List.getElem?_map] at h2
        cases hx : (ord2.idxToKey.filterMap id)[i]? with
        | none => rw [hx] at h2; exact absurd h2 (by simp)
        | some y =>
          rw [hx] at h2
          simpa using h2
      have hkjb : (ord2.idxToKey.filterMap id)[j]? = some kj := by
        have h2 : ((ord2.idxToKey.filterMap id).map some)[j]? =
          some (some kj) := hkj
        rw [List.getElem?_map] at h2
        cases hx : (ord2.idxToKey.filterMap id)[j]? with
        | none => rw [hx] at h2; exact absurd h2 (by simp)
        | some y =>
          rw [hx] at h2
          simpa using h2
      exact pairwise_getElemOpt _ hpair i j hij ki kj hkib hkjb
    · rw [hrec]
      intro vs hvs
      cases hv0 : ord2.idxToVal with
      | none =>
        rw [hv0] at hvs
        exact absurd hvs (by simp)
      | some vs0 =>
        rw [hv0] at hvs
        have hvs2 : vs = (List.zip ord2.idxToKey vs0).filterMap
            (fun p => if p.1.isSome = true then some p.2 else none) := by
          have h2 : some ((List.zip ord2.idxToKey vs0).filterMap
            (fun p => if p.1.isSome = true then some p.2 else none)) =
            some vs := by simpa using hvs
          injection h2 with h3
          exact h3.symm
        obtain ⟨hlen0, hle0⟩ := h.vals vs0 hv0
        subst hvs2
        constructor
        · show _ = ((ord2.idxToKey.filterMap id).map some).length
          rw [List.length_map]
          exact compactVals_length ord2.idxToKey vs0 hlen0
        · show liveEntries ((ord2.idxToKey.filterMap id).map some) _ = _
          rw [liveEntries_compact ord2.idxToKey vs0]
          exact hle0

theorem omapDelete_inv {V : Type} [DecidableEq V] (s : OMapState V)
    (es : List (JSKey × V)) (k : JSKey) (h : OrdInv s es) :
    OrdInv (omapDelete s k) (specDelete es k) := by
  cases habs : specLookup es k with
  | none =>
    have hget : hamtGet s.map k = none := by rw [h.lookup k, habs]
    have hid : hamtDelete s.map s.owner k = s.map :=
      hamtDelete_identity s.map s.owner k h.wf_map hget
    have hspec : specDelete es k = es := specDelete_absent k es habs
    have hstate : omapDelete s k = s := by
      unfold omapDelete
      rw [hid, if_neg (fun hc => hc rfl)]
    rw [hstate, hspec]
    exact h
  | some w =>
    have hget : hamtGet s.map k = some w := by rw [h.lookup k, habs]
    obtain ⟨idx, k0, hidx, hk0, hke⟩ := OrdInv_idx_present h k w habs
    have hsizeD : (hamtDelete s.map s.owner k).size = s.map.size - 1 := by
      rw [hamtDelete_size s.map s.owner k h.wf_map, hget]
      simp
    have hpos : 0 < es.length := by
      obtain ⟨p, k1, hep, _, _⟩ := specLookup_some_pos k es w habs
      have := (List.getElem?_eq_some_iff.mp hep).1
      omega
    have hcond : (hamtDelete s.map s.owner k).size ≠ s.map.size := by
      rw [hsizeD, h.size_eq]
      omega
    have hstate : omapDelete s k =
        ⟨hamtDelete s.map s.owner k, orderDelete s.ordered s.owner k,
          s.owner⟩ := by
      unfold omapDelete
      rw [if_pos hcond]
    have hlt : idx < s.ordered.idxToKey.length :=
      (List.getElem?_eq_some_iff.mp hk0).1
    obtain ⟨wD, preD, sufD, hwD, hprelenD, hdecD, hkeysD, htrackD, hsetvD,
      hdelD, hkeysD2⟩ :=
      liveEntries_decomp s.ordered.idxToKey s.ordered.idxToKey idx k0 hk0 rfl
    have hmapfst : es.map Prod.fst =
        preD.map Prod.fst ++ k0 :: sufD.map Prod.fst := by
      rw [← h.keys_live]
      exact hkeysD
    have hmidk : (es.map Prod.fst)[preD.length]? = some k0 := by
      rw [hmapfst]
      have h2 := getElem?_append_mid (preD.map Prod.fst) k0
        (sufD.map Prod.fst)
      rw [List.length_map] at h2
      exact h2
    have he0ex : ∃ e0, es[preD.length]? = some e0 ∧ e0.1 = k0 := by
      rw [List.getElem?_map] at hmidk
      cases he0 : es[preD.length]? with
      | none =>
        rw [he0] at hmidk
        exact absurd hmidk (by simp)
      | some e0 =>
        rw [he0] at hmidk
        exact ⟨e0, rfl, by simpa using hmidk⟩
    obtain ⟨e0, he0, he01⟩ := he0ex
    have hplt : preD.length < es.length := (List.getElem?_eq_some_iff.mp he0).1
    have hpre_nomatch : ∀ q, q < preD.length → ∀ e, es[q]? = some e →
        keyEquals e.1 k = false := by
      intro q hq e he
      have h1 : (es.map Prod.fst)[q]? = (preD.map Prod.fst)[q]? := by
        rw [hmapfst]
        exact getElem?_append_left2 _ _ q (by rw [List.length_map]; exact hq)
      rw [List.getElem?_map, he] at h1
      have hmem : e.1 ∈ preD.map Prod.fst := mem_of_getElemOpt h1.symm
      obtain ⟨epre, hepre, hfe⟩ := List.mem_map.mp hmem
      obtain ⟨j, hj, hjks⟩ := htrackD epre hepre
      rw [hfe] at hjks
      have hne : keyEquals e.1 k0 = false :=
        h.distinct j idx hj e.1 k0 hjks hk0
      rcases Bool.eq_false_or_eq_true (keyEquals e.1 k) with ht | hf
      · have hkk0 : keyEquals k k0 = true := by
          rw [keyEquals_symm]
          exact hke
        have h2 := keyEquals_trans ht hkk0
        rw [h2] at hne
        exact absurd hne (by decide)
      · exact hf
    have hke0 : keyEquals e0.1 k = true := by
      rw [he01]
      exact hke
    have hspecd : specDelete es k = es.eraseIdx preD.length :=
      specDelete_at k es preD.length e0.1 e0.2 he0 hke0 hpre_nomatch
    have hordraw : orderDelete s.ordered s.owner k =
        (if 2 * (s.ordered.holes + 1) > s.ordered.next ∧
            32 < s.ordered.next
          then orderCompact (rawDelete s.ordered s.owner k idx) s.owner
          else rawDelete s.ordered s.owner k idx) := by
      show (match hamtGet s.ordered.keyToIdx k with
        | none => s.ordered
        | some idx2 =>
          if 2 * (s.ordered.holes + 1) > s.ordered.next ∧
              32 < s.ordered.next
          then orderCompact (rawDelete s.ordered s.owner k idx2) s.owner
          else rawDelete s.ordered s.owner k idx2) = _
      rw [hidx]
    have hlive2 : ∀ (i2 : Nat) (km : JSKey),
        (s.ordered.idxToKey.set idx none)[i2]? = some (some km) →
        i2 ≠ idx ∧ s.ordered.idxToKey[i2]? = some (some km) := by
      intro i2 km hkm
      by_cases hii : i2 = idx
      · subst hii
        have h2 : (s.ordered.idxToKey.set i2 none)[i2]? = some none := by
          rw [List.getElem?_set_self]
          exact hlt
        rw [h2] at hkm
        have h3 : (none : Option JSKey) = some km := by simpa using hkm
        exact absurd h3 (fun hc => Option.noConfusion hc)
      · rw [List.getElem?_set_ne (Ne.symm hii)] at hkm
        exact ⟨hii, hkm⟩
    have hraw : OrdInv ⟨hamtDelete s.map s.owner k,
        rawDelete s.ordered s.owner k idx, s.owner⟩ (specDelete es k) := by
      have hlookup : ∀ k2, hamtGet (hamtDelete s.map s.owner k) k2 =
          specLookup (specDelete es k) k2 := by
        intro k2
        rw [specLookup_specDelete k k2 es h.spec_distinct]
        rcases Bool.eq_false_or_eq_true (keyEquals k k2) with ht | hf
        · rw [ht, if_pos rfl]
          exact hamtGet_hamtDelete_equiv s.map s.owner k k2 h.wf_map ht
        · rw [hf, if_neg neFalseTrue,
            hamtGet_hamtDelete_frame s.map s.owner k k2 h.wf_map
              (keyEquals_false_symm hf)]
          exact h.lookup k2
      have hsize2 : (hamtDelete s.map s.owner k).size =
          (specDelete es k).length := by
        rw [hsizeD, h.size_eq, hspecd, List.length_eraseIdx, if_pos hplt]
      refine ⟨hamtDelete_wf s.map s.owner k h.wf_map,
        hamtDelete_wf s.ordered.keyToIdx s.owner k h.wf_idx,
        hlookup, hsize2, ?_, ?_, ?_, ?_, ?_, ?_,
        pairwise_specDelete k es h.spec_distinct⟩
      · show (s.ordered.idxToKey.set idx none).filterMap id = _
        rw [hkeysD2, hspecd, eraseIdx_map, hmapfst]
        have h2 := eraseIdx_append_len (preD.map Prod.fst) k0
          (sufD.map Prod.fst)
        rw [List.length_map] at h2
        rw [h2]
      · show s.ordered.next = (s.ordered.idxToKey.set idx none).length
        rw [List.length_set]
        exact h.next_eq
      · intro k2 i hg
        show ∃ km, (s.ordered.idxToKey.set idx none)[i]? = some (some km) ∧
          keyEquals km k2 = true
        rcases Bool.eq_false_or_eq_true (keyEquals k k2) with ht | hf
        · rw [show (rawDelete s.ordered s.owner k idx).keyToIdx =
              hamtDelete s.ordered.keyToIdx s.owner k from rfl,
            hamtGet_hamtDelete_equiv _ s.owner k k2 h.wf_idx ht] at hg
          exact absurd hg (by simp)
        · rw [show (rawDelete s.ordered s.owner k idx).keyToIdx =
              hamtDelete s.ordered.keyToIdx s.owner k from rfl,
            hamtGet_hamtDelete_frame _ s.owner k k2 h.wf_idx
              (keyEquals_false_symm hf)] at hg
          obtain ⟨km, hkm, hkme⟩ := h.fwd k2 i hg
          have hii : i ≠ idx := by
            intro hieq
            subst hieq
            rw [hk0] at hkm
            have hkmk0 : k0 = km := by
              injection hkm with h3
              injection h3 with h4
            rw [← hkmk0] at hkme
            have hkk0 : keyEquals k k0 = true := by
              rw [keyEquals_symm]
              exact hke
            have h5 := keyEquals_trans hkk0 hkme
            rw [h5] at hf
            exact absurd hf (by decide)
          refine ⟨km, ?_, hkme⟩
          rw [List.getElem?_set_ne (Ne.symm hii)]
          exact hkm
      · intro i km hkm
        obtain ⟨hii, hkm2⟩ := hlive2 i km hkm
        have hb := h.bwd i km hkm2
        show hamtGet (hamtDelete s.ordered.keyToIdx s.owner k) km = some i
        rcases Bool.eq_false_or_eq_true (keyEquals km k) with ht | hf
        · exfalso
          have hcongr := hamtGet_congr_equiv s.ordered.keyToIdx h.wf_idx ht
          rw [hb, hidx] at hcongr
          have h6 : i = idx := by injection hcongr
          exact hii h6
        · rw [hamtGet_hamtDelete_frame _ s.owner k km h.wf_idx hf]
          exact hb
      · intro i j hij ki kj hki hkj
        exact h.distinct i j hij ki kj (hlive2 i ki hki).2 (hlive2 j kj hkj).2
      · intro vs hvs
        rw [show (rawDelete s.ordered s.owner k idx).idxToVal =
          (s.ordered.idxToVal).map (fun vs => vecAssoc vs s.owner idx none)
          from rfl] at hvs
        cases hv0 : s.ordered.idxToVal with
        | none =>
          rw [hv0] at hvs
          exact absurd hvs (by simp)
        | some vs0 =>
          rw [hv0] at hvs
          have hvs2 : vs = vs0.set idx none := by
            have h2 : some (vs0.set idx none) = some vs := by
              simpa [vecAssoc] using hvs
            injection h2 with h3
            exact h3.symm
          obtain ⟨hlen0, hle0⟩ := h.vals vs0 hv0
          subst hvs2
          obtain ⟨wV, preV, sufV, hwV, hprelenV, hdecV, _, _, _, hdelV, _⟩ :=
            liveEntries_decomp s.ordered.idxToKey vs0 idx k0 hk0 hlen0
          have hpp : preV.length = preD.length := by
            rw [hprelenV, hprelenD]
          constructor
          · show (vs0.set idx none).length =
              (s.ordered.idxToKey.set idx none).length
            rw [List.length_set, List.length_set]
            exact hlen0
          · show liveEntries (s.ordered.idxToKey.set idx none)
              (vs0.set idx none) = _
            rw [hdelV, hspecd, eraseIdx_map]
            have hmapfV : es.map (fun p => (p.1, some p.2)) =
                preV ++ (k0, wV) :: sufV := hle0.symm.trans hdecV
            rw [hmapfV, ← hpp, eraseIdx_append_len]
    rw [hstate, hordraw]
    by_cases hcmp : 2 * (s.ordered.holes + 1) > s.ordered.next ∧
        32 < s.ordered.next
    · rw [if_pos hcmp]
      exact orderCompact_inv _ _ _ _ _ hraw
    · rw [if_neg hcmp]
      exact hraw

theorem runOMapOps_inv {V : Type} [DecidableEq V] :
    ∀ (ops : List (OMapOp V)) (s : OMapState V) (es : List (JSKey × V)),
      OrdInv s es → OrdInv (runOMapOps s ops) (specRunOMap es ops) := by
  intro ops
  induction ops with
  | nil => intro s es h; exact h
  | cons op ops ih =>
    intro s es h
    cases op with
    | setO k v => exact ih _ _ (omapSet_inv s es k v h)
    | delO k => exact ih _ _ (omapDelete_inv s es k h)

theorem omapSet_val_none {V : Type} [DecidableEq V] (s : OMapState V)
    (k : JSKey) (v : V) (h : s.ordered.idxToVal = none) :
    (omapSet s k v).ordered.idxToVal = none := by
  show (if hamtHas s.map k = true then orderUpdateValue s.ordered s.owner k v
    else orderAppendWithValue s.ordered s.owner k v).idxToVal = none
  rcases Bool.eq_false_or_eq_true (hamtHas s.map k) with ht | hf
  · rw [ht, if_pos rfl]
    unfold orderUpdateValue
    rw [h]
    exact h
  · rw [hf, if_neg neFalseTrue]
    show (s.ordered.idxToVal).map (fun vs => vecPush vs s.owner (some v)) =
      none
    rw [h]
    rfl

theorem orderDelete_val_none {V : Type} (ord : OrderIndex V)
    (ow : Option Nat) (k : JSKey) (h : ord.idxToVal = none) :
    (orderDelete ord ow k).idxToVal = none := by
  show (match hamtGet ord.keyToIdx k with
    | none => ord
    | some idx =>
      if 2 * (ord.holes + 1) > ord.next ∧ 32 < ord.next
      then orderCompact (rawDelete ord ow k idx) ow
      else rawDelete ord ow k idx).idxToVal = none
  cases hg : hamtGet ord.keyToIdx k with
  | none =>
    show ord.idxToVal = none
    exact h
  | some idx =>
    show (if 2 * (ord.holes + 1) > ord.next ∧ 32 < ord.next
      then orderCompact (rawDelete ord ow k idx) ow
      else rawDelete ord ow k idx).idxToVal = none
    have hraw : (rawDelete ord ow k idx).idxToVal = none := by
      show (ord.idxToVal).map (fun vs => vecAssoc vs ow idx none) = none
      rw [h]
      rfl
    by_cases hc : 2 * (ord.holes + 1) > ord.next ∧ 32 < ord.next
    · rw [if_pos hc]
      unfold orderCompact
      by_cases hh : (rawDelete ord ow k idx).holes = 0
      · rw [if_pos hh]
        exact hraw
      · rw [if_neg hh]
        show ((rawDelete ord ow k idx).idxToVal).map _ = none
        rw [hraw]
        rfl
    · rw [if_neg hc]
      exact hraw

theorem omapDelete_val_none {V : Type} (s : OMapState V) (k : JSKey)
    (h : s.ordered.idxToVal = none) :
    (omapDelete s k).ordered.idxToVal = none := by
  unfold omapDelete
  by_cases hc : (hamtDelete s.map s.owner k).size ≠ s.map.size
  · rw [if_pos hc]
    exact orderDelete_val_none s.ordered s.owner k h
  · rw [if_neg hc]
    exact h

theorem osetAdd_eq (s : OMapState Unit) (k : JSKey) (hwf : WfMap s.map)
    (hnone : s.ordered.idxToVal = none) : osetAdd s k = omapSet s k () := by
  have hupd : orderUpdateValue s.ordered s.owner k () = s.ordered := by
    unfold orderUpdateValue
    rw [hnone]
  by_cases hch : (hamtInsert hamtFuel s.map.root s.owner (hashKey k) k ()
      0).changed = false
  · have h1 : osetAdd s k = s := by
      unfold osetAdd
      rw [if_pos hch]
    have h2 : hamtSet s.map s.owner k () = s.map := by
      show (if (hamtInsert hamtFuel s.map.root s.owner (hashKey k) k ()
        0).changed = false then s.map
        else ⟨some (hamtInsert hamtFuel s.map.root s.owner (hashKey k) k ()
          0).node, s.map.size +
          (if (hamtInsert hamtFuel s.map.root s.owner (hashKey k) k ()
            0).added then 1 else 0)⟩) = s.map
      rw [if_pos hch]
    have h3 : hamtGet s.map k = some () := by
      have h4 := hamtGet_hamtSet_equiv s.map s.owner k () k hwf
        (keyEquals_refl k)
      rw [h2] at h4
      exact h4
    have h4 : hamtHas s.map k = true := by
      rw [hamtHas_eq, h3]
      rfl
    rw [h1]
    show s = (⟨hamtSet s.map s.owner k (),
      if hamtHas s.map k = true then orderUpdateValue s.ordered s.owner k ()
      else orderAppendWithValue s.ordered s.owner k (),
      s.owner⟩ : OMapState Unit)
    rw [h2, h4, if_pos rfl, hupd]
  · have h1 : osetAdd s k = ⟨hamtSet s.map s.owner k (),
        if hamtHas s.map k = true then s.ordered
        else orderAppend s.ordered s.owner k, s.owner⟩ := by
      unfold osetAdd
      rw [if_neg hch]
    rw [h1]
    show _ = (⟨hamtSet s.map s.owner k (),
      if hamtHas s.map k = true then orderUpdateValue s.ordered s.owner k ()
      else orderAppendWithValue s.ordered s.owner k (),
      s.owner⟩ : OMapState Unit)
    rw [hupd]
    rcases Bool.eq_false_or_eq_true (hamtHas s.map k) with ht | hf
    · rw [ht, if_pos rfl, if_pos rfl]
    · rw [hf, if_neg neFalseTrue, if_neg neFalseTrue]
      have happ : orderAppend s.ordered s.owner k =
          orderAppendWithValue s.ordered s.owner k () := by
        unfold orderAppend orderAppendWithValue
        rw [hnone]
        rfl
      rw [happ]

theorem osetDelete_eq (s : OMapState Unit) (k : JSKey) :
    osetDelete s k = omapDelete s k := rfl

/-- Translation of a set operation to the map operation with unit value. -/
def toMapOp : OSetOp → OMapOp Unit
  | .addO k => OMapOp.setO k ()
  | .delO k => OMapOp.delO k

theorem specRunOSet_eq :
    ∀ (sops : List OSetOp) (es : List (JSKey × Unit)),
      specRunOSet es sops = specRunOMap es (sops.map toMapOp) := by
  intro sops
  induction sops with
  | nil => intro es; rfl
  | cons op ops ih =>
    intro es
    cases op with
    | addO k => exact ih (specSet es k ())
    | delO k => exact ih (specDelete es k)

theorem runOSet_eq :
    ∀ (sops : List OSetOp) (t : OMapState Unit) (es : List (JSKey × Unit)),
      OrdInv t es → t.ordered.idxToVal = none →
      runOSetOps t sops = runOMapOps t (sops.map toMapOp) := by
  intro sops
  induction sops with
  | nil => intro t es _ _; rfl
  | cons op ops ih =>
    intro t es hinv hnone
    cases op with
    | addO k =>
      show runOSetOps (osetAdd t k) ops =
        runOMapOps (omapSet t k ()) (ops.map toMapOp)
      rw [osetAdd_eq t k hinv.wf_map hnone]
      exact ih (omapSet t k ()) (specSet es k ())
        (omapSet_inv t es k () hinv) (omapSet_val_none t k () hnone)
    | delO k =>
      show runOSetOps (osetDelete t k) ops =
        runOMapOps (omapDelete t k) (ops.map toMapOp)
      rw [osetDelete_eq]
      exact ih (omapDelete t k) (specDelete es k)
        (omapDelete_inv t es k hinv) (omapDelete_val_none t k hnone)

/-- C6: orderDelete of a present key (keyToIdx maps the key to a slot)
builds the record that marks that slot DELETED in the key vector and
increments holes, and compacts it exactly when the new hole count (holes+1)
exceeds half of next and next exceeds 32; orderCompact of that record has
zero holes, renumbers the surviving slots consecutively from 0 so that the
new key vector is exactly the live keys (and keyToIdx maps each live key to
its new position, given the live keys are pairwise distinct), and keeps the
live keys and their values in the same relative order. -/
theorem C6_delete_and_compaction {V : Type} (ord : OrderIndex V)
    (owner : Option Nat) (k : JSKey) (idx : Nat)
    (hidx : hamtGet ord.keyToIdx k = some idx) :
    orderDelete ord owner k =
      (if 2 * (ord.holes + 1) > ord.next ∧ 32 < ord.next
        then orderCompact (rawDelete ord owner k idx) owner
        else rawDelete ord owner k idx) ∧
    (rawDelete ord owner k idx).idxToKey = ord.idxToKey.set idx none ∧
    (rawDelete ord owner k idx).holes = ord.holes + 1 ∧
    (rawDelete ord owner k idx).next = ord.next ∧
    (orderCompact (rawDelete ord owner k idx) owner).holes = 0 ∧
    (orderCompact (rawDelete ord owner k idx) owner).next =
      (((rawDelete ord owner k idx).idxToKey).filterMap id).length ∧
    (orderCompact (rawDelete ord owner k idx) owner).idxToKey =
      ((((rawDelete ord owner k idx).idxToKey).filterMap id).map some) ∧
    orderIterModel (orderCompact (rawDelete ord owner k idx) owner) =
      orderIterModel (rawDelete ord owner k idx) ∧
    (∀ vs, (rawDelete ord owner k idx).idxToVal = some vs →
      ∃ vs2, (orderCompact (rawDelete ord owner k idx) owner).idxToVal =
          some vs2 ∧
        liveEntries ((orderCompact (rawDelete ord owner k idx)
            owner).idxToKey) vs2 =
          liveEntries ((rawDelete ord owner k idx).idxToKey) vs) ∧
    (List.Pairwise (fun a b => keyEquals a b = false)
        (((rawDelete ord owner k idx).idxToKey).filterMap id) →
      ∀ k2, hamtGet ((orderCompact (rawDelete ord owner k idx)
          owner).keyToIdx) k2 =
        findKeyPos k2 (((rawDelete ord owner k idx).idxToKey).filterMap
          id)) := by
  have hne : (rawDelete ord owner k idx).holes ≠ 0 := by
    show ord.holes + 1 ≠ 0
    omega
  have hcomp : orderCompact (rawDelete ord owner k idx) owner =
      ⟨((rawDelete ord owner k idx).idxToKey.filterMap id).length,
        keyToIdxOf owner
          ((rawDelete ord owner k idx).idxToKey.filterMap id) 0
          (hamtEmpty Nat),
        ((rawDelete ord owner k idx).idxToKey.filterMap id).map some,
        ((rawDelete ord owner k idx).idxToVal).map (fun vs =>
          (List.zip (rawDelete ord owner k idx).idxToKey vs).filterMap
            (fun p => if p.1.isSome = true then some p.2 else none)),
        0⟩ := by
    unfold orderCompact
    rw [if_neg hne]
  refine ⟨?_, rfl, rfl, rfl, ?_, ?_, ?_, ?_, ?_, ?_⟩
  · show (match hamtGet ord.keyToIdx k with
      | none => ord
      | some idx2 =>
        if 2 * (ord.holes + 1) > ord.next ∧ 32 < ord.next
        then orderCompact (rawDelete ord owner k idx2) owner
        else rawDelete ord owner k idx2) = _
    rw [hidx]
  · rw [hcomp]
  · rw [hcomp]
  · rw [hcomp]
  · show ((orderCompact (rawDelete ord owner k idx) owner).idxToKey).filterMap
      id = ((rawDelete ord owner k idx).idxToKey).filterMap id
    rw [hcomp]
    show (((rawDelete ord owner k idx).idxToKey.filterMap id).map
      some).filterMap id = _
    rw [filterMap_id_map_some]
  · intro vs hvs
    rw [hcomp, hvs]
    refine ⟨_, rfl, ?_⟩
    show liveEntries
      (((rawDelete ord owner k idx).idxToKey.filterMap id).map some) _ = _
    exact liveEntries_compact (rawDelete ord owner k idx).idxToKey vs
  · intro hpair k2
    rw [hcomp]
    show hamtGet (keyToIdxOf owner
      ((rawDelete ord owner k idx).idxToKey.filterMap id) 0
      (hamtEmpty Nat)) k2 = _
    rw [keyToIdxOf_get owner _ 0 (hamtEmpty Nat) wf_hamtEmpty hpair k2]
    cases hf : findKeyPos k2
        ((rawDelete ord owner k idx).idxToKey.filterMap id) with
    | none => rfl
    | some p =>
      show some (0 + p) = some p
      rw [Nat.zero_add]

theorem C6_witness :
    orderDelete
        (⟨2, hamtSet (hamtEmpty Nat) none (JSKey.num (.int 1)) 0,
          [some (JSKey.num (.int 1)), none], some [some 5, none], 1⟩ :
          OrderIndex Nat) none (JSKey.num (.int 1)) =
      rawDelete
        (⟨2, hamtSet (hamtEmpty Nat) none (JSKey.num (.int 1)) 0,
          [some (JSKey.num (.int 1)), none], some [some 5, none], 1⟩ :
          OrderIndex Nat) none (JSKey.num (.int 1)) 0 := by
  have h := C6_delete_and_compaction
    (⟨2, hamtSet (hamtEmpty Nat) none (JSKey.num (.int 1)) 0,
      [some (JSKey.num (.int 1)), none], some [some 5, none], 1⟩ :
      OrderIndex Nat) none (JSKey.num (.int 1)) 0 (by rfl)
  rw [h.1, if_neg (by decide)]

/-- C5: for an ordered map (puraOrderedMap) and any sequence of set/delete
operations applied through the proxy handlers, iteration yields exactly the
keys currently present in first-insertion order: the iterated keys are the
specification entry list's keys, entries pair them with the current values,
a deleted key is absent, and a key inserted again after a deletion appears
at the end (specSet appends when the key is absent); the same holds for the
values an ordered set (puraOrderedSet) iterates after add/delete. -/
theorem C5_ordered_iteration {V : Type} [DecidableEq V]
    (ops : List (OMapOp V)) (s : OMapState V) (es : List (JSKey × V))
    (hinv : OrdInv s es) :
    OrdInv (runOMapOps s ops) (specRunOMap es ops) ∧
    omapKeysModel (runOMapOps s ops) = (specRunOMap es ops).map Prod.fst ∧
    (∀ vs, (runOMapOps s ops).ordered.idxToVal = some vs →
      liveEntries (runOMapOps s ops).ordered.idxToKey vs =
        (specRunOMap es ops).map (fun p => (p.1, some p.2))) ∧
    (∀ (sops : List OSetOp) (t : OMapState Unit)
        (ks : List (JSKey × Unit)), OrdInv t ks →
      t.ordered.idxToVal = none →
      osetValuesModel (runOSetOps t sops) =
        (specRunOSet ks sops).map Prod.fst) := by
  have hres := runOMapOps_inv ops s es hinv
  refine ⟨hres, ?_, ?_, ?_⟩
  · show ((runOMapOps s ops).ordered.idxToKey).filterMap id = _
    exact hres.keys_live
  · intro vs hvs
    exact (hres.vals vs hvs).2
  · intro sops t ks hks hnone
    rw [runOSet_eq sops t ks hks hnone, specRunOSet_eq]
    have hres2 := runOMapOps_inv (sops.map toMapOp) t ks hks
    show ((runOMapOps t (sops.map toMapOp)).ordered.idxToKey).filterMap id =
      _
    exact hres2.keys_live

theorem C5_witness :
    specRunOMap ([] : List (JSKey × Nat))
      [OMapOp.setO (.num (.int 2)) 10, OMapOp.setO (.num (.int 1)) 11,
        OMapOp.setO (.num (.int 3)) 12, OMapOp.delO (.num (.int 1)),
        OMapOp.setO (.num (.int 4)) 13] =
      [(JSKey.num (.int 2), 10), (JSKey.num (.int 3), 12),
        (JSKey.num (.int 4), 13)] ∧
    omapKeysModel (runOMapOps
      (⟨hamtEmpty Nat, ⟨0, hamtEmpty Nat, [], some [], 0⟩, none⟩ :
        OMapState Nat)
      [OMapOp.setO (.num (.int 2)) 10, OMapOp.setO (.num (.int 1)) 11,
        OMapOp.setO (.num (.int 3)) 12, OMapOp.delO (.num (.int 1)),
        OMapOp.setO (.num (.int 4)) 13]) =
      [JSKey.num (.int 2), JSKey.num (.int 3), JSKey.num (.int 4)] := by
  have h := C5_ordered_iteration
    [OMapOp.setO (.num (.int 2)) 10, OMapOp.setO (.num (.int 1)) 11,
      OMapOp.setO (.num (.int 3)) 12, OMapOp.delO (.num (.int 1)),
      OMapOp.setO (.num (.int 4)) 13]
    (⟨hamtEmpty Nat, ⟨0, hamtEmpty Nat, [], some [], 0⟩, none⟩ :
      OMapState Nat)
    [] (OrdInv_empty none (some [])
      (fun vs hv => (Option.some.inj hv).symm))
  refine ⟨by decide, ?_⟩
  rw [h.2.1]
  decide
